import Mathlib

/-!
Verification of the `gods` collections library (array, set and stack
packages).

Shallow embedding of `array/array.go`, of `set/set.go`, of `stack/stack.go` and
of the part of `internal/rwmutex/rwmutex.go` they use.

Modelling conventions.

* A Go slice `[]T` is the list of its elements; a slice that may be `nil`
  is an `Option (List T)` (`none` is `nil`, `some []` is empty but non-nil).
  Capacity and sharing of the backing store are not modelled: every operation
  below is followed only through the contents of `a.array`.
* A Go `int` is an `Int` in the 64-bit signed range; arithmetic that can leave
  the range wraps (`wrap`).
* A run-time panic is the `error` case of `Go`.
* The guard `mu` is followed only through its mode; executions are sequential,
  so `Lock`/`Unlock`/`RLock`/`RUnlock` pairs leave no trace.
* The zero value of `T` is `default`.
* No slice has more than `maxLen` elements, the largest length the runtime
  allocates for the element type: `make` and the `append` of `Fill`, whose
  lengths are arguments of the caller, panic beyond it.
* The element type satisfies Go `comparable`: `==` and map hashing are those of
  `Comparable`. `==` need not be reflexive (a NaN differs from itself) and can
  panic, as hashing can (an interface value that holds a slice).
* A Go `map[K]struct{}` is the list of its keys, no two of them equal under
  `==`; a key that differs from itself is never found again, so a map can hold
  several of them. The order in which `range` visits the keys is a parameter of
  every operation that ranges over a map, and nothing is assumed of it but
  that it visits each key once.
* A Go map value is a reference. The operations that build a set from other
  sets (`Clone`, `Union`, `Diff`, `Intersect`) are followed in a store of map
  objects (`Store`, `SetPtr`), so that the maps of the receiver and of the
  operands after the call are part of the result; every other operation of a
  set touches one map only and is followed on that map (`Set`).
* The `float64` arithmetic of `Chunk` is followed exactly (round to nearest,
  ties to even) on the non-negative values that occur (`F64`); `float64`
  elements and keys are a NaN or an integer (`Float64`).
-/

namespace gods

/-! ## Machine integers -/

/-- Largest value of a Go `int` on a 64-bit platform. -/
def maxInt : Int := 2 ^ 63 - 1

/-- Smallest value of a Go `int` on a 64-bit platform. -/
def minInt : Int := -(2 ^ 63)

/-- Reduction of a mathematical integer to the 64-bit signed range. -/
def wrap (x : Int) : Int := (x + 2 ^ 63) % 2 ^ 64 - 2 ^ 63

/-- Go `x + y` on `int`. -/
def add (x y : Int) : Int := wrap (x + y)

/-- Go `x - y` on `int`. -/
def sub (x y : Int) : Int := wrap (x - y)

/-- Go `-x` on `int`. -/
def neg (x : Int) : Int := wrap (-x)

/-- Go `x * y` on `int`. -/
def mul (x y : Int) : Int := wrap (x * y)

/-- The value is representable as a Go `int`. -/
def IsInt (x : Int) : Prop := minInt ≤ x ∧ x ≤ maxInt

instance (x : Int) : Decidable (IsInt x) := by
  unfold IsInt; exact inferInstance

/-! ## Floating point -/

/-- A non-negative finite IEEE 754 binary64 value (Go `float64`), written
`mant * 2 ^ exp`. Only such values arise from the conversions and the division
modelled here, and their exponents stay far inside the normal range. -/
structure F64 where
  mant : Nat
  exp : Int
  deriving DecidableEq, Repr

/-- The position of the leading binary digit of `n` (`0` for `n < 2`), found by
halving; `fuel` bounds the number of halvings and `n` itself is always enough. -/
def F64.ilog2 : Nat → Nat → Nat
  | 0, _ => 0
  | fuel + 1, n => if n < 2 then 0 else F64.ilog2 fuel (n / 2) + 1

/-- The exponent of the binary64 value nearest to `p / q` (`p, q > 0`): the `e`
with `2^52 <= (p / q) / 2^e < 2^53`. The leading digits of `p` and `q` give it up
to one, and a comparison settles it. -/
def F64.exponent (p q : Nat) : Int :=
  let e₀ : Int := (F64.ilog2 p p : Int) - (F64.ilog2 q q : Int) - 52
  if 2 ^ 52 * (q * 2 ^ e₀.toNat) ≤ p * 2 ^ (-e₀).toNat then e₀ else e₀ - 1

/-- The integer nearest to `num / den` (`den > 0`), ties to the even one. -/
def F64.nearest (num den : Nat) : Nat :=
  let m := num / den
  let r := num % den
  if 2 * r < den then m
  else if den < 2 * r then m + 1
  else if m % 2 = 0 then m else m + 1

/-- The quotient `p / q` of two naturals (`q > 0`) rounded to the nearest
binary64 value, ties to even: the quotient is scaled by the power of two `2^exp`
that brings it into `[2^52, 2^53)` and is rounded there to an integer. -/
def F64.round (p q : Nat) : F64 :=
  if p = 0 then { mant := 0, exp := 0 }
  else
    let e := F64.exponent p q
    { mant := F64.nearest (p * 2 ^ (-e).toNat) (q * 2 ^ e.toNat), exp := e }

/-- Go `float64(n)` for a non-negative `int`. -/
def F64.ofInt (n : Int) : F64 := F64.round n.toNat 1

/-- Go `x / y` on `float64`, for `y > 0`. -/
def F64.div (x y : F64) : F64 :=
  F64.round (x.mant * 2 ^ (x.exp - y.exp).toNat) (y.mant * 2 ^ (y.exp - x.exp).toNat)

/-- Go `math.Ceil(x)`: the least integer not below `x`, which is a binary64
value. -/
def F64.Ceil (x : F64) : F64 :=
  { mant := (x.mant * 2 ^ x.exp.toNat + (2 ^ (-x.exp).toNat - 1)) / 2 ^ (-x.exp).toNat,
    exp := 0 }

/-- Go `int(x)`: truncation; a value above `maxInt` is converted to `minInt` (the
result of the conversion instruction on amd64; the language leaves it to the
implementation). -/
def F64.toInt (x : F64) : Int :=
  let v : Int := ((x.mant * 2 ^ x.exp.toNat / 2 ^ (-x.exp).toNat : Nat) : Int)
  if v > maxInt then minInt else v

/-! ## Run-time primitives on slices -/

/-- Run-time panics raised by the primitives on slices, maps and comparable
values. -/
inductive Panic where
  | indexOutOfRange
  | sliceBoundsOutOfRange
  | makesliceLenOutOfRange
  | makesliceCapOutOfRange
  | growsliceLenOutOfRange
  | assignmentToNilMap
  | uncomparableType
  | unhashableType
  deriving DecidableEq, Repr

/-- Result of running Go code: a panic or a value. -/
abbrev Go (α : Type) : Type := Except Panic α

deriving instance DecidableEq for Except

/-! ## Comparable types -/

/-- Go `==` and map hashing on the values of a type that satisfies
`comparable`. `==` is symmetric and transitive, and two values that can both be
hashed can be compared; it need not be reflexive (a floating-point NaN differs
from itself), it need not tell all values apart (the floating-point zeros), and
it can panic (interface values). -/
class Comparable (T : Type) where
  /-- The value of `x == y`; `none` is the run-time panic of comparing interface
  values whose common dynamic type is not comparable. -/
  eq : T → T → Option Bool
  /-- Whether a map can hash the value: hashing an interface value whose dynamic
  type is not comparable panics. -/
  hashable : T → Bool
  /-- Comparison is symmetric, panics included. -/
  eq_comm : ∀ x y, eq x y = eq y x
  /-- Comparison is transitive. -/
  eq_trans : ∀ x y z, eq x y = some true → eq y z = some true → eq x z = some true
  /-- Comparing two values that can be hashed does not panic. -/
  eq_of_hashable : ∀ x y, hashable x = true → hashable y = true → eq x y ≠ none

section Eq

variable {T : Type} [Comparable T]

/-- Go `x == y` as the program runs it. -/
def goEq (x y : T) : Go Bool :=
  match Comparable.eq x y with
  | none => .error .uncomparableType
  | some b => .ok b

/-- The comparison `x == y` is true. -/
def same (x y : T) : Bool := Comparable.eq x y == some true

end Eq

/-- Go `int`: `==` is equality and every value can be hashed. -/
instance : Comparable Int where
  eq x y := some (decide (x = y))
  hashable _ := true
  eq_comm x y := by
    simp only [Option.some.injEq, decide_eq_decide]
    exact eq_comm
  eq_trans x y z h₁ h₂ := by
    simp only [Option.some.injEq, decide_eq_true_eq] at h₁ h₂ ⊢
    rw [h₁, h₂]
  eq_of_hashable _ _ _ _ := by simp

/-- The values of Go `float64` that are used as elements and keys below: a NaN,
and the number `v` for an integer `v` that a `float64` holds exactly. -/
inductive Float64 where
  | NaN
  | ofInt (v : Int)
  deriving DecidableEq, Repr

/-- The zero value of `float64`. -/
instance : Inhabited Float64 := ⟨.ofInt 0⟩

/-- Go `==` on `float64`: a NaN is equal to nothing, itself included. -/
def Float64.eq : Float64 → Float64 → Bool
  | .ofInt v, .ofInt w => decide (v = w)
  | _, _ => false

instance : Comparable Float64 where
  eq x y := some (Float64.eq x y)
  hashable _ := true
  eq_comm x y := by
    cases x <;> cases y <;> simp [Float64.eq, eq_comm]
  eq_trans x y z h₁ h₂ := by
    cases x <;> cases y <;> cases z <;> simp_all [Float64.eq]
  eq_of_hashable _ _ _ _ := by simp

/-- Values of the Go interface type `any` that are used as elements below:
`nil`, an `int`, or a slice `[]int`, whose type is not comparable. -/
inductive Any where
  | nil
  | int (v : Int)
  | slice (s : List Int)
  deriving DecidableEq, Repr

/-- The zero value of an interface type. -/
instance : Inhabited Any := ⟨.nil⟩

/-- Go `==` on `any`: values of different dynamic types differ, and comparing
two slices panics. -/
def Any.eq : Any → Any → Option Bool
  | .nil, .nil => some true
  | .int v, .int w => some (decide (v = w))
  | .slice _, .slice _ => none
  | _, _ => some false

/-- A slice cannot be hashed. -/
def Any.hashable : Any → Bool
  | .slice _ => false
  | _ => true

instance : Comparable Any where
  eq := Any.eq
  hashable := Any.hashable
  eq_comm x y := by
    cases x <;> cases y <;> simp [Any.eq, eq_comm]
  eq_trans x y z h₁ h₂ := by
    cases x <;> cases y <;> cases z <;> simp_all [Any.eq]
  eq_of_hashable x y hx hy := by
    cases x <;> cases y <;> simp_all [Any.eq, Any.hashable]

section Prim

variable {T : Type}

/-- Go `len(s)`. -/
def len (s : List T) : Int := (s.length : Int)

/-- Go `s[i]` read; panics outside `0 <= i < len(s)`. -/
def index (s : List T) (i : Int) : Go T :=
  if i < 0 then .error .indexOutOfRange
  else
    match s.get? i.toNat with
    | some v => .ok v
    | none => .error .indexOutOfRange

/-- Go `s[i] = v`; panics outside `0 <= i < len(s)`. -/
def setIndex (s : List T) (i : Int) (v : T) : Go (List T) :=
  if i < 0 ∨ i ≥ len s then .error .indexOutOfRange else .ok (s.set i.toNat v)

/-- Go `s[lo:hi]`; panics outside `0 <= lo <= hi <= len(s)` (the model has no
spare capacity, so the upper limit is the length). -/
def slice (s : List T) (lo hi : Int) : Go (List T) :=
  if lo < 0 ∨ hi < lo ∨ hi > len s then .error .sliceBoundsOutOfRange
  else .ok ((s.take hi.toNat).drop lo.toNat)

/-- Go `s[lo:]`. -/
def sliceFrom (s : List T) (lo : Int) : Go (List T) := slice s lo (len s)

/-- Go `s[:hi]`. -/
def sliceTo (s : List T) (hi : Int) : Go (List T) := slice s 0 hi

/-- Go `append(s, t...)`. -/
def append (s t : List T) : List T := s ++ t

/-- Go `append(s, t...)` in a loop whose number of passes is an argument of the
caller (`Fill`): no slice has more than `maxLen` elements (see `make`), and a
call that would have to grow the slice beyond that does not return (the
runtime panics or stops the program). -/
def appendMax (maxLen : Nat) (s t : List T) : Go (List T) :=
  if s.length + t.length > maxLen then .error .growsliceLenOutOfRange else .ok (s ++ t)

/-- Go `make([]T, size)`: `size` zero values. The runtime panics when `size` is
negative or larger than `maxLen`, the largest length it allocates for the
element type (the allocation limit divided by the element size, and at most
`maxInt`). -/
def make [Inhabited T] (maxLen : Nat) (size : Int) : Go (List T) :=
  if size < 0 ∨ size > (maxLen : Int) then .error .makesliceLenOutOfRange
  else .ok (List.replicate size.toNat default)

/-- Go `make([]T, size, cap)`: `size` zero values (the spare capacity is not
modelled). The runtime panics when `cap` is negative or larger than `maxLen`,
or `size` is negative or larger than `cap`; it reports the length when the
length alone is out of range, the capacity otherwise. -/
def makeCap [Inhabited T] (maxLen : Nat) (size cap : Int) : Go (List T) :=
  if cap < 0 ∨ cap > (maxLen : Int) ∨ size < 0 ∨ size > cap then
    if size < 0 ∨ size > (maxLen : Int) then .error .makesliceLenOutOfRange
    else .error .makesliceCapOutOfRange
  else .ok (List.replicate size.toNat default)

/-- Go `copy(dst, src)`: the first `min(len(dst), len(src))` elements of `dst`
are overwritten by those of `src`; the value is `dst` afterwards. -/
def copy (dst src : List T) : List T := src.take dst.length ++ dst.drop src.length

end Prim

/-! ## Run-time primitives on maps -/

/-- A non-nil Go `map[K]struct{}`: the keys it holds. Every key was hashed when
it was stored, and no two keys are equal under `==`, since storing a key equal
to one already there takes the place of that one. The order of `keys` is not
the order in which `range` visits them (see `rangeMap`). -/
structure Map (K : Type) [Comparable K] where
  keys : List K
  hashed : ∀ k, k ∈ keys → Comparable.hashable k = true
  distinct : keys.Pairwise (fun a b => same a b = false)

section MapPrim

variable {K : Type} [Comparable K]

instance [DecidableEq K] : DecidableEq (Map K) := fun m₁ m₂ =>
  if h : m₁.keys = m₂.keys then isTrue (by cases m₁; cases m₂; cases h; rfl)
  else isFalse (fun hc => h (by rw [hc]))

/-- Go `make(map[K]struct{})`. -/
def Map.make : Map K :=
  { keys := [], hashed := fun _ h => absurd h (List.not_mem_nil _),
    distinct := List.Pairwise.nil }

/-- Go `_, ok := m[k]` for a key that can be hashed: some key of the map is
equal to `k` under `==`. -/
def Map.contains (m : Map K) (k : K) : Bool := m.keys.any (fun a => same a k)

/-- Go `m[k] = struct{}{}` for a key that can be hashed: a key equal to `k`
under `==` is overwritten by `k`, and otherwise `k` is a new key. -/
def Map.insert (m : Map K) (k : K) : Map K :=
  if hk : Comparable.hashable k = true then
    if hc : m.contains k = true then
      { keys := m.keys.map (fun a => if same a k = true then k else a)
        hashed := by
          intro x hx
          obtain ⟨a, ha, rfl⟩ := List.mem_map.mp hx
          by_cases h : same a k = true
          · rw [if_pos h]; exact hk
          · rw [if_neg h]; exact m.hashed a ha
        distinct := by
          rw [List.pairwise_map]
          refine m.distinct.imp ?_
          intro a b hab
          have hcomm : same k b = same b k := by
            unfold same; rw [Comparable.eq_comm]
          by_cases ha : same a k = true
          · by_cases hb : same b k = true
            · exfalso
              have hkb : same k b = true := hcomm.trans hb
              unfold same at ha hkb hab
              rw [beq_iff_eq] at ha hkb
              rw [Comparable.eq_trans a k b ha hkb] at hab
              exact absurd hab (by decide)
            · rw [if_pos ha, if_neg hb, hcomm]
              exact Bool.eq_false_iff.mpr hb
          · by_cases hb : same b k = true
            · rw [if_neg ha, if_pos hb]
              exact Bool.eq_false_iff.mpr ha
            · rw [if_neg ha, if_neg hb]
              exact hab }
    else
      { keys := m.keys ++ [k]
        hashed := by
          intro x hx
          rcases List.mem_append.mp hx with h | h
          · exact m.hashed x h
          · rw [List.mem_singleton.mp h]; exact hk
        distinct := by
          refine List.pairwise_append.mpr ⟨m.distinct, List.pairwise_singleton _ _, ?_⟩
          intro a ha b hb
          rw [List.mem_singleton.mp hb]
          apply Bool.eq_false_iff.mpr
          intro h
          exact hc (List.any_eq_true.mpr ⟨a, ha, h⟩) }
  else m

/-- Go `delete(m, k)` for a key that can be hashed: the key equal to `k` under
`==`, if there is one, is removed. -/
def Map.delete (m : Map K) (k : K) : Map K :=
  { keys := m.keys.filter (fun a => !same a k)
    hashed := fun x hx => m.hashed x (List.mem_of_mem_filter hx)
    distinct := m.distinct.sublist (List.filter_sublist _) }

/-- Go `len(m)`. -/
def Map.len (m : Map K) : Int := (m.keys.length : Int)

/-- Go `_, ok := m[k]` on a map that may be `nil`: a `nil` map holds no key; a
key that cannot be hashed panics, whatever the map. -/
def lookup (m : Option (Map K)) (k : K) : Go Bool :=
  if Comparable.hashable k = true then
    match m with
    | none => .ok false
    | some m => .ok (m.contains k)
  else .error .unhashableType

/-- Go `len(m)` on a map that may be `nil`. -/
def lenMap (m : Option (Map K)) : Int :=
  match m with
  | none => 0
  | some m => m.len

/-- Go `m[k] = struct{}{}` on a map that may be `nil`: assignment to an entry of
a `nil` map panics, and so does a key that cannot be hashed. -/
def assign (m : Option (Map K)) (k : K) : Go (Option (Map K)) :=
  match m with
  | none => .error .assignmentToNilMap
  | some m =>
    if Comparable.hashable k = true then .ok (some (m.insert k))
    else .error .unhashableType

/-- Go `delete(m, k)` on a map that may be `nil`: a no-op on a `nil` map; a key
that cannot be hashed panics, whatever the map. -/
def delete (m : Option (Map K)) (k : K) : Go (Option (Map K)) :=
  if Comparable.hashable k = true then
    match m with
    | none => .ok none
    | some m => .ok (some (m.delete k))
  else .error .unhashableType

/-- The keys visited by Go `for k := range m`, in the order of the visit. The
language leaves the order unspecified; `order` chooses it, and the only thing
known of it is that it rearranges the keys (`IsOrder`). -/
def rangeMap (order : List K → List K) (m : Option (Map K)) : List K :=
  match m with
  | none => []
  | some m => order m.keys

end MapPrim

/-- The function visits every key once: it only rearranges a list. -/
def IsOrder {K : Type} (order : List K → List K) : Prop := ∀ l, (order l).Perm l

/-! ## internal/rwmutex -/

namespace rwmutex

/-- The Go struct `RWMutex`: the field is `nil` (`none`) or points to a lock. -/
structure RWMutex where
  rwmutex : Option Unit
  deriving DecidableEq, Repr

/-- Go `rwmutex.Create(safe...)`. -/
def Create (safe : List Bool) : RWMutex :=
  match safe with
  | true :: _ => { rwmutex := some () }
  | _ => { rwmutex := none }

/-- Go `(*RWMutex).IsSafe`. -/
def RWMutex.IsSafe (mu : RWMutex) : Bool := mu.rwmutex != none

end rwmutex

/-! ## array -/

namespace array

/-- Error value built by `fmt.Errorf("index %d out of array range %d", ...)`. -/
structure IndexError where
  index : Int
  size : Int
  deriving DecidableEq, Repr

/-- The Go struct `Array[T]`. -/
structure Array (T : Type) where
  mu : rwmutex.RWMutex
  array : List T
  deriving DecidableEq, Repr

variable {T : Type}

/-- Go `NewFrom(array, safe...)`. -/
def NewFrom (array : List T) (safe : List Bool) : Array T :=
  { mu := rwmutex.Create safe, array := array }

/-- Go `(*Array).Size`. -/
def Array.Size (a : Array T) : Int := len a.array

/-- Last stage of `SubSlice` (source lines 228-233): clip, allocate, copy. -/
def Array.SubSlice.window [Inhabited T] (maxLen : Nat) (a : Array T) (offset size : Int) :
    Go (Option (List T)) :=
  let size := if add offset size > len a.array then sub (len a.array) offset else size
  match make maxLen size with
  | .error p => .error p
  | .ok s =>
    match sliceFrom a.array offset with
    | .error p => .error p
    | .ok src => .ok (some (copy s src))

/-- Middle stage of `SubSlice` (source lines 221-227): a negative `size`. -/
def Array.SubSlice.negative [Inhabited T] (maxLen : Nat) (a : Array T) (offset size : Int) :
    Go (Option (List T)) :=
  if size < 0 then
    let offset := add offset size
    let size := neg size
    if offset < 0 then .ok none
    else Array.SubSlice.window maxLen a offset size
  else Array.SubSlice.window maxLen a offset size

/-- Go `(*Array).SubSlice(offset, length...)`. -/
def Array.SubSlice [Inhabited T] (maxLen : Nat) (a : Array T) (offset : Int)
    (length : List Int) : Go (Option (List T)) :=
  let size := match length with
    | [] => len a.array
    | l :: _ => l
  if offset > len a.array then .ok none
  else if offset < 0 then
    let offset := add (len a.array) offset
    if offset < 0 then .ok none
    else Array.SubSlice.negative maxLen a offset size
  else Array.SubSlice.negative maxLen a offset size

/-- Go `(*Array).Get`. -/
def Array.Get [Inhabited T] (a : Array T) (index : Int) : Go (T × Bool) :=
  if index < 0 ∨ index ≥ len a.array then .ok (default, false)
  else do
    let value ← gods.index a.array index
    pure (value, true)

/-- Go `(*Array).Set`: the error value (`none` is a nil error) and the array
afterwards. -/
def Array.Set (a : Array T) (index : Int) (value : T) :
    Go (Option IndexError × Array T) :=
  if index < 0 ∨ index ≥ len a.array then
    .ok (some { index := index, size := len a.array }, a)
  else do
    let arr ← setIndex a.array index value
    pure (none, { a with array := arr })

/-- Go `(*Array).InsertBefore`. -/
def Array.InsertBefore (a : Array T) (index : Int) (value : T) :
    Go (Option IndexError × Array T) :=
  if index < 0 ∨ index ≥ len a.array then
    .ok (some { index := index, size := len a.array }, a)
  else do
    let rear := append [] (← sliceFrom a.array index)
    let arr := append (← slice a.array 0 index) [value]
    let arr := append arr rear
    pure (none, { a with array := arr })

/-- Go `(*Array).InsertAfter`; `index + 1` cannot overflow, because
`index < len(a.array)`. -/
def Array.InsertAfter (a : Array T) (index : Int) (value : T) :
    Go (Option IndexError × Array T) :=
  if index < 0 ∨ index ≥ len a.array then
    .ok (some { index := index, size := len a.array }, a)
  else do
    let rear := append [] (← sliceFrom a.array (index + 1))
    let arr := append (← slice a.array 0 (index + 1)) [value]
    let arr := append arr rear
    pure (none, { a with array := arr })

/-- Go `(*Array).doRemoveWithoutLock`: the pair `(value, found)` and the array
afterwards; `len(a.array) - 1` and `index + 1` cannot overflow. -/
def Array.doRemoveWithoutLock [Inhabited T] (a : Array T) (index : Int) :
    Go ((T × Bool) × Array T) :=
  if index < 0 ∨ index ≥ len a.array then .ok ((default, false), a)
  else if index = 0 then do
    let value ← gods.index a.array 0
    let arr ← sliceFrom a.array 1
    pure ((value, true), { a with array := arr })
  else if index = len a.array - 1 then do
    let value ← gods.index a.array index
    let arr ← sliceTo a.array index
    pure ((value, true), { a with array := arr })
  else do
    let value ← gods.index a.array index
    let arr := append (← sliceTo a.array index) (← sliceFrom a.array (index + 1))
    pure ((value, true), { a with array := arr })

/-- Go `(*Array).Remove`. -/
def Array.Remove [Inhabited T] (a : Array T) (index : Int) : Go ((T × Bool) × Array T) :=
  a.doRemoveWithoutLock index

/-- The `for index, v := range a.array` loop of `Search`, from position `index`
on, `rest` being the elements not yet visited; the comparison `v == value` can
panic. -/
def Array.Search.range [Comparable T] (value : T) : List T → Int → Int → Go Int
  | [], _, result => .ok result
  | v :: rest, index, result =>
    match goEq v value with
    | .error p => .error p
    | .ok true => .ok index
    | .ok false => Array.Search.range value rest (index + 1) result

/-- Go `(*Array).Search`. -/
def Array.Search [Comparable T] (a : Array T) (value : T) : Go Int :=
  Array.Search.range value a.array 0 (-1)

/-- Go `(*Array).RemoveValue`: the returned flag and the array afterwards. -/
def Array.RemoveValue [Comparable T] [Inhabited T] (a : Array T) (value : T) :
    Go (Bool × Array T) :=
  match a.Search value with
  | .error p => .error p
  | .ok i =>
    if i ≠ -1 then
      match a.Remove i with
      | .error p => .error p
      | .ok (_, a) => .ok (true, a)
    else .ok (false, a)

/-- Go `(*Array).PushLeft`. -/
def Array.PushLeft (a : Array T) (value : List T) : Array T :=
  { a with array := append value a.array }

/-- Go `(*Array).PushRight`. -/
def Array.PushRight (a : Array T) (value : List T) : Array T :=
  { a with array := append a.array value }

/-- Go `(*Array).Append`. -/
def Array.Append (a : Array T) (value : List T) : Array T :=
  let a := a.PushRight value
  a

/-- Go `(*Array).PopLeft`. -/
def Array.PopLeft [Inhabited T] (a : Array T) : Go ((T × Bool) × Array T) :=
  if len a.array = 0 then .ok ((default, false), a)
  else do
    let value ← gods.index a.array 0
    let arr ← sliceFrom a.array 1
    pure ((value, true), { a with array := arr })

/-- Go `(*Array).PopRight`; `len(a.array) - 1` cannot overflow. -/
def Array.PopRight [Inhabited T] (a : Array T) : Go ((T × Bool) × Array T) :=
  let index := len a.array - 1
  if index < 0 then .ok ((default, false), a)
  else do
    let value ← gods.index a.array index
    let arr ← sliceTo a.array index
    pure ((value, true), { a with array := arr })

/-- Go `(*Array).Contains`. -/
def Array.Contains [Comparable T] (a : Array T) (value : T) : Go Bool :=
  match a.Search value with
  | .error p => .error p
  | .ok i => .ok (i != -1)

/-- The loop `for i := 0; i < len(a.array); i++` of `Unique`, from the value `i`
of the counter on; `i + 1` cannot overflow, because `i < len(a.array)`. -/
def Array.Unique.loop [Comparable T] (arr : List T) (i : Int) (seen : Option (Map T))
    (result : List T) : Go (List T) :=
  if i < len arr then
    match gods.index arr i with
    | .error p => .error p
    | .ok item =>
      match lookup seen item with
      | .error p => .error p
      | .ok true => Array.Unique.loop arr (i + 1) seen result
      | .ok false =>
        match assign seen item with
        | .error p => .error p
        | .ok seen => Array.Unique.loop arr (i + 1) seen (append result [item])
  else .ok result
termination_by (len arr - i).toNat
decreasing_by all_goals omega

/-- Go `(*Array).Unique`; `result` and `seen` start empty (their capacity hint
`len(a.array)` is not modelled). -/
def Array.Unique [Comparable T] (a : Array T) : Go (Array T) :=
  match Array.Unique.loop a.array 0 (some Map.make) [] with
  | .error p => .error p
  | .ok result => .ok { a with array := result }

/-- The loop `for i, j := 0, len(a.array)-1; i < j; i, j = i+1, j-1` of `Reverse`,
from the values `i`, `j` of the counters on. The body reads `a.array[j]` and
`a.array[i]` and then stores them into `a.array[i]` and `a.array[j]`; the
counters stay between `0` and `len(a.array)`, so they cannot overflow. -/
def Array.Reverse.loop (i j : Int) (arr : List T) : Go (List T) :=
  if i < j then
    match gods.index arr j with
    | .error p => .error p
    | .ok vj =>
      match gods.index arr i with
      | .error p => .error p
      | .ok vi =>
        match setIndex arr i vj with
        | .error p => .error p
        | .ok arr₁ =>
          match setIndex arr₁ j vi with
          | .error p => .error p
          | .ok arr₂ => Array.Reverse.loop (i + 1) (j - 1) arr₂
  else .ok arr
termination_by (j - i).toNat
decreasing_by omega

/-- Go `(*Array).Reverse`. -/
def Array.Reverse (a : Array T) : Go (Array T) :=
  match Array.Reverse.loop 0 (len a.array - 1) a.array with
  | .error p => .error p
  | .ok arr => .ok { a with array := arr }

/-- The loop `for i := startIndex; i < startIndex+num; i++` of `Fill`, from the
value `i` of the counter on; `i + 1` cannot overflow, because
`i < startIndex+num`, and `len(a.array) - 1` cannot overflow. The slice grows by
one element in each pass beyond its end, as far as the runtime can allocate. -/
def Array.Fill.loop (maxLen : Nat) (startIndex num : Int) (value : T) (i : Int)
    (arr : List T) : Go (List T) :=
  if i < add startIndex num then
    if i > len arr - 1 then
      match appendMax maxLen arr [value] with
      | .error p => .error p
      | .ok arr₁ => Array.Fill.loop maxLen startIndex num value (i + 1) arr₁
    else
      match setIndex arr i value with
      | .error p => .error p
      | .ok arr₁ => Array.Fill.loop maxLen startIndex num value (i + 1) arr₁
  else .ok arr
termination_by (add startIndex num - i).toNat
decreasing_by all_goals omega

/-- Go `(*Array).Fill`. -/
def Array.Fill (maxLen : Nat) (a : Array T) (startIndex num : Int) (value : T) :
    Go (Option IndexError × Array T) :=
  if startIndex < 0 ∨ startIndex > len a.array then
    .ok (some { index := startIndex, size := len a.array }, a)
  else
    match Array.Fill.loop maxLen startIndex num value startIndex a.array with
    | .error p => .error p
    | .ok arr => .ok (none, { a with array := arr })

/-- The loop `for i, end := 0, 0; chunks > 0; chunks--` of `Chunk`, from the
values `i`, `chunks` of the counters on (`end` is assigned before it is read in
every pass, so it is local to the pass); `result` is `nil` (`none`) until the
first `append`. The counters `i` and `chunks` stay between `0` and the initial
`chunks`, so `i++` and `chunks--` cannot overflow. -/
def Array.Chunk.loop (arr : List T) (size length : Int) (i chunks : Int)
    (result : Option (List (List T))) : Go (Option (List (List T))) :=
  if chunks > 0 then
    let end_ := mul (i + 1) size
    let end_ := if end_ > length then length else end_
    match slice arr (mul i size) end_ with
    | .error p => .error p
    | .ok chunk =>
      Array.Chunk.loop arr size length (i + 1) (chunks - 1)
        (some (append (result.getD []) [chunk]))
  else .ok result
termination_by chunks.toNat
decreasing_by omega

/-- Go `(*Array).Chunk`. -/
def Array.Chunk (a : Array T) (size : Int) : Go (Option (List (List T))) :=
  if size < 1 then .ok none
  else
    let length := len a.array
    let chunks := F64.toInt (F64.Ceil (F64.div (F64.ofInt length) (F64.ofInt size)))
    Array.Chunk.loop a.array size length 0 chunks none

/-- Go `NewSize(size, cap, safe...)`. -/
def NewSize [Inhabited T] (maxLen : Nat) (size cap : Int) (safe : List Bool) : Go (Array T) :=
  match makeCap maxLen size cap with
  | .error p => .error p
  | .ok array => .ok { mu := rwmutex.Create safe, array := array }

/-- Go `New(safe...)`. -/
def New [Inhabited T] (maxLen : Nat) (safe : List Bool) : Go (Array T) :=
  NewSize maxLen 0 0 safe

/-- Go `(*Array).Index`. -/
def Array.Index [Inhabited T] (a : Array T) (index : Int) : Go T :=
  match a.Get index with
  | .error p => .error p
  | .ok (value, _) => .ok value

/-- Go `(*Array).Sort(less)`: the array afterwards. `sort.Slice` belongs to the
standard library; `sortSlice less s` stands for what it leaves in the slice
`s`. -/
def Array.Sort (sortSlice : (T → T → Bool) → List T → List T) (a : Array T)
    (less : T → T → Bool) : Array T :=
  { a with array := sortSlice less a.array }

/-- Go `(*Array).Slice`. -/
def Array.Slice [Inhabited T] (maxLen : Nat) (a : Array T) : Go (List T) :=
  match make maxLen (len a.array) with
  | .error p => .error p
  | .ok array => .ok (copy array a.array)

/-- Go `(*Array).Clone`. -/
def Array.Clone [Inhabited T] (maxLen : Nat) (a : Array T) : Go (Array T) :=
  match make maxLen (len a.array) with
  | .error p => .error p
  | .ok array => .ok (NewFrom (copy array a.array) [a.mu.IsSafe])

/-- Go `(*Array).Clear`: the array afterwards. -/
def Array.Clear [Inhabited T] (maxLen : Nat) (a : Array T) : Go (Array T) :=
  if len a.array > 0 then
    match make maxLen 0 with
    | .error p => .error p
    | .ok array => .ok { a with array := array }
  else .ok a

end array

end gods


/-! ## set -/

namespace gods

namespace set

/-- The Go struct `Set[T]`; `data` is `nil` (`none`) in a zero-value `Set`. -/
structure Set (T : Type) [Comparable T] where
  mu : rwmutex.RWMutex
  data : Option (Map T)

variable {T : Type} [Comparable T]

instance [DecidableEq T] : DecidableEq (Set T) := fun s₁ s₂ =>
  if h : s₁.mu = s₂.mu ∧ s₁.data = s₂.data then
    isTrue (by cases s₁; cases s₂; cases h.1; cases h.2; rfl)
  else isFalse (fun hc => h (by rw [hc]; exact ⟨rfl, rfl⟩))

/-- An argument `other *Set[T]` of a method called on a receiver `s`: the `nil`
pointer, the receiver itself (`s == other`), or a pointer to another set. -/
inductive Ref (T : Type) [Comparable T] where
  | nil
  | self
  | ptr (other : Set T)

/-- The set a non-nil argument points to. -/
def Ref.deref (s : Set T) : Ref T → Option (Set T)
  | .nil => none
  | .self => some s
  | .ptr other => some other

/-- Go `New(safe...)`. -/
def New (safe : List Bool) : Set T :=
  { mu := rwmutex.Create safe, data := some Map.make }

/-- The loop `for i := range items` of `NewFrom`, on the items not yet visited. -/
def NewFrom.range (data : Option (Map T)) : List T → Go (Option (Map T))
  | [] => .ok data
  | item :: rest =>
    match assign data item with
    | .error p => .error p
    | .ok data => NewFrom.range data rest

/-- Go `NewFrom(items, safe...)`. -/
def NewFrom (items : List T) (safe : List Bool) : Go (Set T) :=
  match NewFrom.range (some Map.make) items with
  | .error p => .error p
  | .ok data => .ok { mu := rwmutex.Create safe, data := data }

/-- The loop `for i := range items` of `Add`, on the items not yet visited. -/
def Set.Add.range (data : Option (Map T)) : List T → Go (Option (Map T))
  | [] => .ok data
  | item :: rest =>
    match assign data item with
    | .error p => .error p
    | .ok data => Set.Add.range data rest

/-- Go `(*Set).Add(items...)`: the set afterwards. -/
def Set.Add (s : Set T) (items : List T) : Go (Set T) :=
  let data := if s.data.isNone then some Map.make else s.data
  match Set.Add.range data items with
  | .error p => .error p
  | .ok data => .ok { s with data := data }

/-- The loop `for i := range items` of `Remove`, on the items not yet visited. -/
def Set.Remove.range (data : Option (Map T)) : List T → Go (Option (Map T))
  | [] => .ok data
  | item :: rest =>
    match delete data item with
    | .error p => .error p
    | .ok data => Set.Remove.range data rest

/-- Go `(*Set).Remove(items...)`: the set afterwards. -/
def Set.Remove (s : Set T) (items : List T) : Go (Set T) :=
  if s.data.isSome then
    match Set.Remove.range s.data items with
    | .error p => .error p
    | .ok data => .ok { s with data := data }
  else .ok s

/-- Go `(*Set).Contains`. -/
def Set.Contains (s : Set T) (item : T) : Go Bool := lookup s.data item

/-- Go `(*Set).Size`. -/
def Set.Size (s : Set T) : Int := lenMap s.data

/-- Go `(*Set).Clear`: the set afterwards. -/
def Set.Clear (s : Set T) : Set T := { s with data := some Map.make }

/-- The loop `for k := range s.data` of `Slice`, on the keys not yet visited. -/
def Set.Slice.range (slice : List T) : List T → List T
  | [] => slice
  | k :: rest => Set.Slice.range (append slice [k]) rest

/-- Go `(*Set).Slice`; `slice` starts empty (its capacity hint `len(s.data)` is
not modelled). -/
def Set.Slice (order : List T → List T) (s : Set T) : List T :=
  Set.Slice.range [] (rangeMap order s.data)

/-- The loop `for key := range s.data` of `Equal`, on the keys not yet visited. -/
def Set.Equal.range (other : Set T) : List T → Go Bool
  | [] => .ok true
  | key :: rest =>
    match lookup other.data key with
    | .error p => .error p
    | .ok false => .ok false
    | .ok true => Set.Equal.range other rest

/-- Go `(*Set).Equal(other)`. -/
def Set.Equal (order : List T → List T) (s : Set T) (other : Ref T) : Go Bool :=
  match other with
  | .nil => .ok false
  | .self => .ok true
  | .ptr other =>
    if lenMap s.data ≠ lenMap other.data then .ok false
    else Set.Equal.range other (rangeMap order s.data)

/-- The loop `for key := range s.data` of `IsSubsetOf`, on the keys not yet
visited. -/
def Set.IsSubsetOf.range (other : Set T) : List T → Go Bool
  | [] => .ok true
  | key :: rest =>
    match lookup other.data key with
    | .error p => .error p
    | .ok false => .ok false
    | .ok true => Set.IsSubsetOf.range other rest

/-- Go `(*Set).IsSubsetOf(other)`. -/
def Set.IsSubsetOf (order : List T → List T) (s : Set T) (other : Ref T) : Go Bool :=
  match other with
  | .nil => .ok false
  | .self => .ok true
  | .ptr other => Set.IsSubsetOf.range other (rangeMap order s.data)

end set

end gods

/-! ## set: maps held by reference

A Go map value is a reference to a map object, and two sets whose `data`
fields hold the same reference share their members. `Clone`, `Union`, `Diff`
and `Intersect` build a new set and store into its map; they are followed
through the store of all map objects, so that what they leave in the maps of
the receiver and of the operands is part of their result. -/

namespace gods

namespace set

variable {T : Type} [Comparable T]

/-- The map objects allocated so far; a reference to one of them is its
position in `maps`, and `nil` is `none`. -/
structure Store (T : Type) [Comparable T] where
  maps : List (Map T)

/-- The map a reference points to; `nil` points to none. -/
def Store.read (σ : Store T) (ref : Option Nat) : Option (Map T) :=
  match ref with
  | none => none
  | some a => σ.maps.get? a

/-- The store in which the map that `ref` points to has become `m`. -/
def Store.write (σ : Store T) (ref : Option Nat) (m : Option (Map T)) : Store T :=
  match ref, m with
  | some a, some m => { maps := σ.maps.set a m }
  | _, _ => σ

/-- Go `make(map[T]struct{})`: the store with one more map, empty, and the
reference to it. -/
def Store.make (σ : Store T) : Store T × Option Nat :=
  ({ maps := σ.maps ++ [Map.make] }, some σ.maps.length)

/-- Go `m[k] = struct{}{}` for the map reference `ref`. -/
def Store.assign (σ : Store T) (ref : Option Nat) (k : T) : Go (Store T) :=
  match gods.assign (σ.read ref) k with
  | .error p => .error p
  | .ok m => .ok (σ.write ref m)

/-- Go `delete(m, k)` for the map reference `ref`. -/
def Store.delete (σ : Store T) (ref : Option Nat) (k : T) : Go (Store T) :=
  match gods.delete (σ.read ref) k with
  | .error p => .error p
  | .ok m => .ok (σ.write ref m)

/-- The Go struct `Set[T]` with the field `data` as it is held: a reference to
a map object (`none` is `nil`). -/
structure SetPtr where
  mu : rwmutex.RWMutex
  data : Option Nat
  deriving DecidableEq, Repr

/-- The set as it stands in a store: its mode and the map its `data` points
to. The reading methods (`Contains`, `Size`, `Slice`, `Equal`, `IsSubsetOf`)
are those of this value. -/
def SetPtr.load (σ : Store T) (s : SetPtr) : Set T :=
  { mu := s.mu, data := σ.read s.data }

/-- The `data` of the set is `nil` or points to a map of the store. -/
def SetPtr.valid (σ : Store T) (s : SetPtr) : Bool :=
  match s.data with
  | none => true
  | some a => decide (a < σ.maps.length)

/-- Every non-nil operand is a set of the store. -/
def validAll (σ : Store T) (others : List (Option SetPtr)) : Bool :=
  others.all fun other =>
    match other with
    | none => true
    | some other => other.valid σ

/-- Go `New(safe...)`, in a store. -/
def Store.New (σ : Store T) (safe : List Bool) : Store T × SetPtr :=
  let (σ, data) := σ.make
  (σ, { mu := rwmutex.Create safe, data := data })

/-- The loop `for i := range items` of `NewFrom`, on the items not yet visited. -/
def Store.NewFrom.range (data : Option Nat) : Store T → List T → Go (Store T)
  | σ, [] => .ok σ
  | σ, item :: rest =>
    match σ.assign data item with
    | .error p => .error p
    | .ok σ => Store.NewFrom.range data σ rest

/-- Go `NewFrom(items, safe...)`, in a store. -/
def Store.NewFrom (σ : Store T) (items : List T) (safe : List Bool) : Go (Store T × SetPtr) :=
  let (σ, data) := σ.make
  match Store.NewFrom.range data σ items with
  | .error p => .error p
  | .ok σ => .ok (σ, { mu := rwmutex.Create safe, data := data })

/-- Go `(*Set).Clone`: the store afterwards and the new set. -/
def SetPtr.Clone (order : List T → List T) (σ : Store T) (s : SetPtr) :
    Go (Store T × SetPtr) :=
  σ.NewFrom ((s.load σ).Slice order) [s.mu.IsSafe]

/-- The loop `for k, v := range other.data` of `Union`, on the keys not yet
visited. -/
def SetPtr.Union.keys (newSet : SetPtr) : Store T → List T → Go (Store T)
  | σ, [] => .ok σ
  | σ, k :: rest =>
    match σ.assign newSet.data k with
    | .error p => .error p
    | .ok σ => SetPtr.Union.keys newSet σ rest

/-- The loop `for _, other := range others` of `Union`, on the operands not yet
visited; `i` numbers the ranges over a map begun in the call, each with an
order of its own. -/
def SetPtr.Union.range (order : Nat → List T → List T) (newSet : SetPtr) :
    Nat → Store T → List (Option SetPtr) → Go (Store T)
  | _, σ, [] => .ok σ
  | i, σ, none :: rest => SetPtr.Union.range order newSet i σ rest
  | i, σ, some other :: rest =>
    match SetPtr.Union.keys newSet σ (rangeMap (order i) (σ.read other.data)) with
    | .error p => .error p
    | .ok σ => SetPtr.Union.range order newSet (i + 1) σ rest

/-- Go `(*Set).Union(others...)`: the store afterwards and the new set. -/
def SetPtr.Union (order : Nat → List T → List T) (σ : Store T) (s : SetPtr)
    (others : List (Option SetPtr)) : Go (Store T × SetPtr) :=
  match s.Clone (order 0) σ with
  | .error p => .error p
  | .ok (σ, newSet) =>
    match SetPtr.Union.range order newSet 1 σ others with
    | .error p => .error p
    | .ok σ => .ok (σ, newSet)

/-- The loop `for k := range other.data` of `Diff`, on the keys not yet
visited. -/
def SetPtr.Diff.keys (newSet : SetPtr) : Store T → List T → Go (Store T)
  | σ, [] => .ok σ
  | σ, k :: rest =>
    match σ.delete newSet.data k with
    | .error p => .error p
    | .ok σ => SetPtr.Diff.keys newSet σ rest

/-- The loop `for _, other := range others` of `Diff`, on the operands not yet
visited. -/
def SetPtr.Diff.range (order : Nat → List T → List T) (newSet : SetPtr) :
    Nat → Store T → List (Option SetPtr) → Go (Store T)
  | _, σ, [] => .ok σ
  | i, σ, none :: rest => SetPtr.Diff.range order newSet i σ rest
  | i, σ, some other :: rest =>
    match SetPtr.Diff.keys newSet σ (rangeMap (order i) (σ.read other.data)) with
    | .error p => .error p
    | .ok σ => SetPtr.Diff.range order newSet (i + 1) σ rest

/-- Go `(*Set).Diff(others...)`: the store afterwards and the new set. -/
def SetPtr.Diff (order : Nat → List T → List T) (σ : Store T) (s : SetPtr)
    (others : List (Option SetPtr)) : Go (Store T × SetPtr) :=
  match s.Clone (order 0) σ with
  | .error p => .error p
  | .ok (σ, newSet) =>
    match SetPtr.Diff.range order newSet 1 σ others with
    | .error p => .error p
    | .ok σ => .ok (σ, newSet)

/-- The loop `for k := range newSet.data` of `Intersect`, on the keys not yet
visited. The only key the body deletes from the map it ranges over is the one
being visited, so the keys visited are those the map held when the loop
began. -/
def SetPtr.Intersect.keys (newSet other : SetPtr) : Store T → List T → Go (Store T)
  | σ, [] => .ok σ
  | σ, k :: rest =>
    match lookup (σ.read other.data) k with
    | .error p => .error p
    | .ok false =>
      match σ.delete newSet.data k with
      | .error p => .error p
      | .ok σ => SetPtr.Intersect.keys newSet other σ rest
    | .ok true => SetPtr.Intersect.keys newSet other σ rest

/-- The loop `for _, other := range others` of `Intersect`, on the operands not
yet visited, with the `return` statements that end it. -/
def SetPtr.Intersect.range (order : Nat → List T → List T) (s newSet : SetPtr) :
    Nat → Store T → List (Option SetPtr) → Go (Store T × SetPtr)
  | _, σ, [] => .ok (σ, newSet)
  | _, σ, none :: _ => .ok (σ.New [s.mu.IsSafe])
  | i, σ, some other :: rest =>
    match SetPtr.Intersect.keys newSet other σ (rangeMap (order i) (σ.read newSet.data)) with
    | .error p => .error p
    | .ok σ => SetPtr.Intersect.range order s newSet (i + 1) σ rest

/-- Go `(*Set).Intersect(others...)`: the store afterwards and the new set. -/
def SetPtr.Intersect (order : Nat → List T → List T) (σ : Store T) (s : SetPtr)
    (others : List (Option SetPtr)) : Go (Store T × SetPtr) :=
  match s.Clone (order 0) σ with
  | .error p => .error p
  | .ok (σ, newSet) => SetPtr.Intersect.range order s newSet 1 σ others

end set

end gods

/-! ## stack -/

namespace gods

namespace stack

/-- The Go struct `Stack[T]`; `data` is the array the field points to. -/
structure Stack (T : Type) where
  data : array.Array T
  deriving DecidableEq, Repr

variable {T : Type}

/-- Go `New(safe...)`. -/
def New [Inhabited T] (maxLen : Nat) (safe : List Bool) : Go (Stack T) :=
  match array.New maxLen safe with
  | .error p => .error p
  | .ok data => .ok { data := data }

/-- Go `NewFrom(data, safe...)`. -/
def NewFrom (data : List T) (safe : List Bool) : Stack T :=
  { data := array.NewFrom data safe }

/-- Go `(*Stack).Push`: the stack afterwards. -/
def Stack.Push (s : Stack T) (value : T) : Stack T :=
  { data := s.data.PushRight [value] }

/-- Go `(*Stack).Pop`: the value returned and the stack afterwards. -/
def Stack.Pop [Inhabited T] (s : Stack T) : Go (T × Stack T) :=
  match s.data.PopRight with
  | .error p => .error p
  | .ok ((value, _), data) => .ok (value, { data := data })

/-- Go `(*Stack).Size`. -/
def Stack.Size (s : Stack T) : Int := s.data.Size

/-- Go `(*Stack).Peek`: the value returned and the stack afterwards. `Size` and
`Index` only read the array, so the stack afterwards is the receiver as it
was; `s.data.Size() - 1` cannot overflow. -/
def Stack.Peek [Inhabited T] (s : Stack T) : Go (T × Stack T) :=
  match s.data.Index (s.data.Size - 1) with
  | .error p => .error p
  | .ok t => .ok (t, s)

/-- Go `(*Stack).Clone`. -/
def Stack.Clone [Inhabited T] (maxLen : Nat) (s : Stack T) : Go (Stack T) :=
  match s.data.Clone maxLen with
  | .error p => .error p
  | .ok data => .ok { data := data }

/-- Go `(*Stack).IsEmpty`. -/
def Stack.IsEmpty (s : Stack T) : Bool := s.data.Size == 0

end stack

end gods

/-! ## Vocabulary of the specification -/

namespace gods

/-- The effective start of a window, in the words of the specification:
`offset` itself when it is non-negative, `length(array) + offset` otherwise. -/
def effective (n offset : Int) : Int := if offset ≥ 0 then offset else n + offset

/-- The elements `a[lo], ..., a[hi - 1]` of a sequence, in order. -/
def elems {T : Type} (a : List T) (lo hi : Int) : List T := (a.take hi.toNat).drop lo.toNat

end gods

namespace gods

/-- The subsequence of `old` that keeps each value's first occurrence and drops
every later duplicate, values being told apart by `==`: position `i` is kept
exactly when none of `old[0], ..., old[i-1]` is equal to `old[i]`; `start` is the
first position looked at and `count` the number of positions. -/
def firstOccurrencesFrom {T : Type} [Comparable T] (old : List T) (start count : Nat) :
    List T :=
  (List.range' start count).filterMap fun i =>
    match old.get? i with
    | some x => if (old.take i).any (fun y => same y x) then none else some x
    | none => none

/-- The subsequence of `old` that keeps each value's first occurrence. -/
def firstOccurrences {T : Type} [Comparable T] (old : List T) : List T :=
  firstOccurrencesFrom old 0 old.length

end gods

namespace gods

/-- The keys held by a map that may be `nil`. -/
def keysOf {K : Type} [Comparable K] (m : Option (Map K)) : List K :=
  match m with
  | none => []
  | some m => m.keys

end gods

namespace gods

/-- The chunk number `j` (counted from `0`) of a sequence cut into pieces of
`size` elements: the elements `a[j*size], ..., a[min((j+1)*size, n) - 1]`. -/
def chunkAt {T : Type} (a : List T) (size : Int) (j : Nat) : List T :=
  elems a ((j : Int) * size) (min (((j : Int) + 1) * size) (len a))

/-- The ceiling of `n / size`, for `size > 0`. -/
def ceilDiv (n size : Int) : Int := (n + size - 1) / size

end gods

namespace gods

namespace stack

/-- The values returned by `k` successive calls of `Pop`, in the order of the
calls, and the stack after the last of them. -/
def pops {T : Type} [Inhabited T] : Nat → Stack T → Go (List T × Stack T)
  | 0, s => .ok ([], s)
  | k + 1, s =>
    match s.Pop with
    | .error p => .error p
    | .ok (v, s) =>
      match pops k s with
      | .error p => .error p
      | .ok (vs, s) => .ok (v :: vs, s)

end stack

end gods

/-! # Theorems -/

namespace gods

/-! ## Machine integers and primitives -/

theorem wrap_eq {x : Int} (h : IsInt x) : wrap x = x := by
  unfold IsInt minInt maxInt at h
  unfold wrap
  omega

theorem add_eq {x y : Int} (h : IsInt (x + y)) : add x y = x + y := wrap_eq h

theorem sub_eq {x y : Int} (h : IsInt (x - y)) : sub x y = x - y := wrap_eq h

theorem neg_eq {x : Int} (h : IsInt (-x)) : neg x = -x := wrap_eq h

section PrimLemmas

variable {T : Type}

theorem len_nonneg (s : List T) : 0 ≤ len s := by
  unfold len; omega

theorem toNat_len (s : List T) : (len s).toNat = s.length := by
  unfold len; omega

theorem slice_ok (s : List T) (lo hi : Int) (h₀ : 0 ≤ lo) (h₁ : lo ≤ hi) (h₂ : hi ≤ len s) :
    slice s lo hi = .ok ((s.take hi.toNat).drop lo.toNat) := by
  unfold slice
  rw [if_neg (by omega)]

theorem sliceFrom_ok (s : List T) (lo : Int) (h₀ : 0 ≤ lo) (h : lo ≤ len s) :
    sliceFrom s lo = .ok (s.drop lo.toNat) := by
  unfold sliceFrom
  rw [slice_ok s lo (len s) h₀ h le_rfl, toNat_len, List.take_length]

theorem sliceTo_ok (s : List T) (hi : Int) (h₀ : 0 ≤ hi) (h : hi ≤ len s) :
    sliceTo s hi = .ok (s.take hi.toNat) := by
  unfold sliceTo
  rw [slice_ok s 0 hi le_rfl h₀ h]
  simp

theorem index_ok (s : List T) (i : Int) (h₀ : 0 ≤ i) (h : i.toNat < s.length) :
    index s i = .ok (s.get ⟨i.toNat, h⟩) := by
  unfold index
  rw [if_neg (by omega)]
  simp [List.getElem?_eq_getElem h]

theorem setIndex_ok (s : List T) (i : Int) (v : T) (h₀ : 0 ≤ i) (h : i < len s) :
    setIndex s i v = .ok (s.set i.toNat v) := by
  unfold setIndex
  rw [if_neg (by omega)]

theorem make_ok [Inhabited T] (maxLen : Nat) (size : Int) (h₀ : 0 ≤ size)
    (h : size ≤ (maxLen : Int)) :
    make maxLen size = .ok (List.replicate size.toNat (default : T)) := by
  unfold make
  rw [if_neg (by omega)]

theorem copy_replicate (src : List T) (size : Nat) (z : T) (h : size ≤ src.length) :
    copy (List.replicate size z) src = src.take size := by
  unfold copy
  simp [List.drop_eq_nil_of_le, h]

end PrimLemmas

end gods

namespace gods.array

variable {T : Type}

/-! ## SubSlice -/

/-- The last stage of `SubSlice` on a start inside the array and a length whose
sum with the start is representable: the window is clipped to the array. -/
theorem SubSlice.window_ok [Inhabited T] (maxLen : Nat) (a : Array T) (e k : Int)
    (hlen : len a.array ≤ (maxLen : Int)) (he₀ : 0 ≤ e) (he : e ≤ len a.array)
    (hk : 0 ≤ k) (hsum : e + k ≤ maxInt) :
    Array.SubSlice.window maxLen a e k = .ok (some ((a.array.drop e.toNat).take k.toNat)) := by
  have hadd : add e k = e + k := add_eq ⟨by unfold minInt; omega, hsum⟩
  rw [Array.SubSlice.window.eq_1, hadd, sliceFrom_ok _ _ he₀ he]
  have hn := toNat_len a.array
  by_cases hc : e + k > len a.array
  · have hsub : sub (len a.array) e = len a.array - e := by
      apply sub_eq
      unfold IsInt minInt
      unfold maxInt at hsum ⊢
      omega
    rw [if_pos hc, hsub, make_ok _ _ (by omega) (by omega)]
    simp only
    rw [copy_replicate _ _ _ (by simp; omega)]
    congr 2
    rw [List.take_of_length_le (by simp; omega), List.take_of_length_le (by simp; omega)]
  · rw [if_neg hc, make_ok _ _ hk (by omega)]
    simp only
    rw [copy_replicate _ _ _ (by simp; omega)]

/-- A window given by start and length is the run of elements up to the
clipped end. -/
theorem take_drop_eq_elems (a : List T) (e k : Int) (he₀ : 0 ≤ e) (he : e ≤ len a)
    (hk : 0 ≤ k) :
    (a.drop e.toNat).take k.toNat = elems a e (min (e + k) (len a)) := by
  unfold elems
  rw [List.drop_take, List.take_eq_take]
  unfold len at he ⊢
  simp only [List.length_drop]
  omega

/-- A non-negative `size` passes the middle stage unchanged. -/
theorem SubSlice.negative_of_nonneg [Inhabited T] (maxLen : Nat) (a : Array T) (e k : Int)
    (hk : 0 ≤ k) :
    Array.SubSlice.negative maxLen a e k = Array.SubSlice.window maxLen a e k := by
  rw [Array.SubSlice.negative.eq_1, if_neg (by omega)]

/-- The first stage of `SubSlice`: an offset outside `[-n, n]` gives `nil`, and
an offset inside it is replaced by the effective start. -/
theorem SubSlice.first_stage [Inhabited T] (maxLen : Nat) (a : Array T) (offset size : Int)
    (hmax : len a.array ≤ maxInt) (hoff : IsInt offset) :
    (offset > len a.array ∨ offset < -len a.array →
      a.SubSlice maxLen offset [size] = .ok none) ∧
    (-len a.array ≤ offset → offset ≤ len a.array →
      a.SubSlice maxLen offset [size] =
        Array.SubSlice.negative maxLen a (effective (len a.array) offset) size) := by
  have hn := len_nonneg a.array
  have hadd : offset < 0 → add (len a.array) offset = len a.array + offset := by
    intro h
    apply add_eq
    unfold IsInt minInt maxInt at *
    omega
  refine ⟨fun h => ?_, fun h₁ h₂ => ?_⟩
  · rw [Array.SubSlice.eq_2]
    rcases h with h | h
    · rw [if_pos h]
    · rw [if_neg (by omega), if_pos (by omega)]
      simp only
      rw [hadd (by omega), if_pos (by omega)]
  · rw [Array.SubSlice.eq_2, if_neg (by omega)]
    unfold effective
    by_cases hneg : offset < 0
    · rw [if_pos hneg]
      simp only
      rw [hadd hneg, if_neg (by omega), if_neg (by omega)]
    · rw [if_neg hneg, if_pos (by omega)]

/-- The non-negative-length behaviour of `SubSlice` stated in claim C1, on the
inputs where the end `e + k` of the requested window is representable: an offset
outside `[-n, n]` gives `nil`, and otherwise the result is the window
`a[e], ..., a[min(e + k, n) - 1]`. -/
theorem SubSlice_nonneg_length_of_representable [Inhabited T] (maxLen : Nat) (a : Array T)
    (offset k : Int) (hlen : len a.array ≤ (maxLen : Int)) (hmax : (maxLen : Int) ≤ maxInt)
    (hoff : IsInt offset) (hk : 0 ≤ k) :
    (offset > len a.array ∨ offset < -len a.array →
      a.SubSlice maxLen offset [k] = .ok none) ∧
    (-len a.array ≤ offset → offset ≤ len a.array →
      effective (len a.array) offset + k ≤ maxInt →
      a.SubSlice maxLen offset [k] =
        .ok (some (elems a.array (effective (len a.array) offset)
          (min (effective (len a.array) offset + k) (len a.array))))) := by
  have hst := SubSlice.first_stage maxLen a offset k (by omega) hoff
  refine ⟨hst.1, fun h₁ h₂ h₃ => ?_⟩
  have he : 0 ≤ effective (len a.array) offset ∧ effective (len a.array) offset ≤ len a.array := by
    unfold effective; split <;> omega
  rw [hst.2 h₁ h₂, SubSlice.negative_of_nonneg _ _ _ _ hk,
    SubSlice.window_ok maxLen a _ k hlen he.1 he.2 hk h₃,
    take_drop_eq_elems _ _ _ he.1 he.2 hk]

/-- An omitted length behaves as the length `n` of the array. -/
theorem SubSlice_omitted_length [Inhabited T] (maxLen : Nat) (a : Array T) (offset : Int) :
    a.SubSlice maxLen offset [] = a.SubSlice maxLen offset [len a.array] := by
  rw [Array.SubSlice.eq_1, Array.SubSlice.eq_2]

/-- The middle stage of `SubSlice` on a negative length `-k`: the start moves
left by `k` and `k` elements are taken, or the result is `nil` when the start
would become negative. -/
theorem SubSlice.negative_of_neg [Inhabited T] (maxLen : Nat) (a : Array T) (e k : Int)
    (hlen : len a.array ≤ (maxLen : Int)) (hmax : (maxLen : Int) ≤ maxInt)
    (he₀ : 0 ≤ e) (he : e ≤ len a.array) (hk : 0 < k) (hkI : IsInt (-k)) :
    Array.SubSlice.negative maxLen a e (-k) =
      if e - k < 0 then .ok none else .ok (some (elems a.array (e - k) e)) := by
  have hadd : add e (-k) = e - k := by
    have : add e (-k) = e + -k := by
      apply add_eq
      unfold IsInt minInt maxInt at *
      omega
    rw [this]; omega
  rw [Array.SubSlice.negative.eq_1, if_pos (by omega)]
  simp only
  rw [hadd]
  by_cases hc : e - k < 0
  · rw [if_pos hc, if_pos hc]
  · have hneg : neg (-k) = k := by
      have : neg (-k) = - -k := by
        apply neg_eq
        unfold IsInt minInt maxInt at *
        omega
      rw [this]; omega
    rw [if_neg hc, if_neg hc, hneg,
      SubSlice.window_ok maxLen a (e - k) k hlen (by omega) (by omega) (by omega) (by omega),
      take_drop_eq_elems _ _ _ (by omega) (by omega) (by omega)]
    have h₁ : e - k + k = e := by omega
    rw [h₁, min_eq_left he]

/-- Claim C2: for an offset in `[-n, n]` with effective start `e`, `SubSlice` with
the negative length `-k` returns the `k` elements `a[e-k], ..., a[e-1]` when
`e - k >= 0` and `nil` when `e - k < 0`. -/
theorem SubSlice_negative_length [Inhabited T] (maxLen : Nat) (a : Array T) (offset k : Int)
    (hlen : len a.array ≤ (maxLen : Int)) (hmax : (maxLen : Int) ≤ maxInt)
    (hlo : -len a.array ≤ offset) (hhi : offset ≤ len a.array)
    (hk : 0 < k) (hkI : IsInt (-k)) :
    (0 ≤ effective (len a.array) offset - k →
      a.SubSlice maxLen offset [-k] =
        .ok (some (elems a.array (effective (len a.array) offset - k)
          (effective (len a.array) offset)))) ∧
    (effective (len a.array) offset - k < 0 →
      a.SubSlice maxLen offset [-k] = .ok none) := by
  have hoff : IsInt offset := by
    unfold IsInt minInt maxInt at *
    omega
  have he : 0 ≤ effective (len a.array) offset ∧ effective (len a.array) offset ≤ len a.array := by
    unfold effective; split <;> omega
  rw [(SubSlice.first_stage maxLen a offset (-k) (by omega) hoff).2 hlo hhi,
    SubSlice.negative_of_neg maxLen a _ k hlen hmax he.1 he.2 hk hkI]
  constructor
  · intro h
    rw [if_neg (by omega)]
  · intro h
    rw [if_pos h]

/-- Witness for C2 on `[1, 2, 3]`: offset `1` with length `-1` gives `[1]`, and
with length `-2` gives `nil`. -/
theorem SubSlice_negative_length_witness :
    (NewFrom [(1 : Int), 2, 3] []).SubSlice 100 1 [-1] = .ok (some [1]) ∧
    (NewFrom [(1 : Int), 2, 3] []).SubSlice 100 1 [-2] = .ok none :=
  ⟨(SubSlice_negative_length 100 (NewFrom [(1 : Int), 2, 3] []) 1 1
      (by decide) (by decide) (by decide) (by decide) (by decide) (by decide)).1 (by decide),
   (SubSlice_negative_length 100 (NewFrom [(1 : Int), 2, 3] []) 1 2
      (by decide) (by decide) (by decide) (by decide) (by decide) (by decide)).2 (by decide)⟩

/-- Claim C3 fails: on `[1, 2, 3]`, `SubSlice(1, -1)` is `[1]`, not the run
`a[1], ..., a[n-1-1] = [2]` that stops one element from the end. -/
theorem SubSlice_negative_length_not_stop_from_end :
    (NewFrom [(1 : Int), 2, 3] []).SubSlice 100 1 [-1] = .ok (some [1]) ∧
    elems [(1 : Int), 2, 3] 1 (len [(1 : Int), 2, 3] - 1) = [2] ∧
    (NewFrom [(1 : Int), 2, 3] []).SubSlice 100 1 [-1] ≠
      .ok (some (elems [(1 : Int), 2, 3] 1 (len [(1 : Int), 2, 3] - 1))) := by
  decide

/-- Claim C3 as amended: for `0 <= offset <= n` and `k > 0`, `SubSlice` with the
negative length `-k` returns the `k` elements `a[offset-k], ..., a[offset-1]`
that end just before `offset` when `k <= offset`, and `nil` when `k > offset`. -/
theorem SubSlice_negative_length_ends_at_offset [Inhabited T] (maxLen : Nat) (a : Array T)
    (offset k : Int) (hlen : len a.array ≤ (maxLen : Int)) (hmax : (maxLen : Int) ≤ maxInt)
    (hlo : 0 ≤ offset) (hhi : offset ≤ len a.array) (hk : 0 < k) (hkI : IsInt (-k)) :
    a.SubSlice maxLen offset [-k] =
      if k ≤ offset then .ok (some (elems a.array (offset - k) offset)) else .ok none := by
  have hoff : IsInt offset := by
    unfold IsInt minInt maxInt at *
    omega
  have he : effective (len a.array) offset = offset := by
    unfold effective; rw [if_pos (by omega)]
  rw [(SubSlice.first_stage maxLen a offset (-k) (by omega) hoff).2 (by omega) hhi, he,
    SubSlice.negative_of_neg maxLen a _ k hlen hmax hlo hhi hk hkI]
  by_cases hc : k ≤ offset
  · rw [if_neg (by omega), if_pos hc]
  · rw [if_pos (by omega), if_neg hc]

/-- Witness for the amended C3 on `[1, 2, 3]` with offset `1` and length `-1`. -/
theorem SubSlice_negative_length_ends_at_offset_witness :
    (NewFrom [(1 : Int), 2, 3] []).SubSlice 100 1 [-1] =
      if (1 : Int) ≤ 1 then .ok (some (elems [(1 : Int), 2, 3] (1 - 1) 1)) else .ok none :=
  SubSlice_negative_length_ends_at_offset 100 (NewFrom [(1 : Int), 2, 3] []) 1 1
    (by decide) (by decide) (by decide) (by decide) (by decide) (by decide)

/-- Claim C1 at a failing input: on `[1, 2, 3]` with offset `1` and the
non-negative length `maxInt`, the claimed result is the window `[2, 3]`, but the
sum `offset + size` wraps, the length is not clipped and `make` panics (here with
the allocation limit of 8-byte elements, `2^45` of them). -/
theorem SubSlice_nonneg_length_overflow :
    (NewFrom [(1 : Int), 2, 3] []).SubSlice (2 ^ 45) 1 [maxInt] =
      .error .makesliceLenOutOfRange ∧
    elems [(1 : Int), 2, 3] (effective 3 1) (min (effective 3 1 + maxInt) 3) = [2, 3] := by
  decide

/-- Addition that leaves the range on the upper side wraps to a negative value. -/
theorem add_overflow {x y : Int} (hx : x ≤ maxInt) (hy : y ≤ maxInt) (h : maxInt < x + y) :
    add x y = x + y - 2 ^ 64 := by
  unfold maxInt at *
  unfold add wrap
  omega

theorem length_copy (dst src : List T) : (copy dst src).length = dst.length := by
  unfold copy
  simp only [List.length_append, List.length_take, List.length_drop]
  omega

/-- Claim C4 fails on every array: for a start `1 <= offset <= n` and a length
`size <= maxInt` with `offset + size > maxInt`, the sum wraps, `size` is not
clipped, and `SubSlice` panics in `make` when the runtime cannot allocate `size`
elements, and otherwise returns `size` elements. -/
theorem SubSlice_unclipped_on_overflow [Inhabited T] (maxLen : Nat) (a : Array T)
    (offset size : Int) (hlen : len a.array ≤ (maxLen : Int)) (hmax : (maxLen : Int) ≤ maxInt)
    (hlo : 1 ≤ offset) (hhi : offset ≤ len a.array)
    (hsize : size ≤ maxInt) (hsum : maxInt < offset + size) :
    ((maxLen : Int) < size →
      a.SubSlice maxLen offset [size] = .error .makesliceLenOutOfRange) ∧
    (size ≤ (maxLen : Int) →
      ∃ s, a.SubSlice maxLen offset [size] = .ok (some s) ∧ (s.length : Int) = size) := by
  have hoff : IsInt offset := by
    unfold IsInt minInt maxInt at *
    omega
  have he : effective (len a.array) offset = offset := by
    unfold effective; rw [if_pos (by omega)]
  have hadd := add_overflow (by omega) hsize hsum
  have hnot : ¬ add offset size > len a.array := by
    rw [hadd]
    unfold maxInt at *
    omega
  rw [(SubSlice.first_stage maxLen a offset size (by omega) hoff).2 (by omega) hhi, he,
    SubSlice.negative_of_nonneg _ _ _ _ (by omega), Array.SubSlice.window.eq_1, if_neg hnot]
  constructor
  · intro h
    have hmake : make maxLen size = (.error .makesliceLenOutOfRange : Go (List T)) := by
      unfold make
      rw [if_pos (by omega)]
    rw [hmake]
  · intro h
    rw [make_ok _ _ (by omega) h, sliceFrom_ok _ _ (by omega) hhi]
    refine ⟨_, rfl, ?_⟩
    rw [length_copy, List.length_replicate]
    omega

/-- Witness for C4 on `[1, 2, 3]` with offset `1` and length `maxInt`. -/
theorem SubSlice_unclipped_on_overflow_witness :
    (NewFrom [(1 : Int), 2, 3] []).SubSlice (2 ^ 45) 1 [maxInt] =
      .error .makesliceLenOutOfRange :=
  (SubSlice_unclipped_on_overflow (2 ^ 45) (NewFrom [(1 : Int), 2, 3] []) 1 maxInt
    (by decide) (by decide) (by decide) (by decide) (by decide) (by decide)).1 (by decide)

/-! ## Get, Set, InsertBefore, InsertAfter -/

theorem Get_of_lt [Inhabited T] (a : Array T) (j : Int) (h₀ : 0 ≤ j)
    (h : j.toNat < a.array.length) :
    a.Get j = .ok (a.array.get ⟨j.toNat, h⟩, true) := by
  rw [Array.Get.eq_1, if_neg (by unfold len; omega), index_ok _ _ h₀ h]
  rfl

theorem Get_of_out_of_range [Inhabited T] (a : Array T) (j : Int)
    (h : j < 0 ∨ j ≥ len a.array) : a.Get j = .ok (default, false) := by
  rw [Array.Get.eq_1, if_pos h]

theorem Set_of_lt (a : Array T) (i : Int) (v : T) (h₀ : 0 ≤ i) (h : i < len a.array) :
    a.Set i v = .ok (none, { a with array := a.array.set i.toNat v }) := by
  rw [Array.Set.eq_1, if_neg (by omega), setIndex_ok _ _ _ h₀ h]
  rfl

theorem InsertBefore_of_lt (a : Array T) (i : Int) (v : T) (h₀ : 0 ≤ i)
    (h : i < len a.array) :
    a.InsertBefore i v =
      .ok (none, { a with array := a.array.take i.toNat ++ [v] ++ a.array.drop i.toNat }) := by
  rw [Array.InsertBefore.eq_1, if_neg (by omega), sliceFrom_ok _ _ h₀ (by omega),
    slice_ok _ _ _ le_rfl h₀ (by omega)]
  simp [append, bind, Except.bind, pure, Except.pure]

theorem InsertAfter_of_lt (a : Array T) (i : Int) (v : T) (h₀ : 0 ≤ i)
    (h : i < len a.array) :
    a.InsertAfter i v = .ok (none, { a with
      array := a.array.take (Int.toNat (i + 1)) ++ [v] ++ a.array.drop (Int.toNat (i + 1)) }) := by
  rw [Array.InsertAfter.eq_1, if_neg (by omega), sliceFrom_ok _ _ (by omega) (by omega),
    slice_ok _ _ _ le_rfl (by omega) (by omega)]
  simp [append, bind, Except.bind, pure, Except.pure]

/-- Claim C5: for a valid index `i`, `Set(i, v)` returns no error, and afterwards
`Get(i)` is `(v, true)`, `Size()` is unchanged and `Get(j)` is as before for
every `j != i`. -/
theorem Set_then_Get [Inhabited T] (a : Array T) (i : Int) (v : T) (h₀ : 0 ≤ i)
    (h : i < a.Size) :
    ∃ a', a.Set i v = .ok (none, a') ∧ a'.Get i = .ok (v, true) ∧ a'.Size = a.Size ∧
      ∀ j, j ≠ i → a'.Get j = a.Get j := by
  unfold Array.Size at h
  have hi : i.toNat < a.array.length := by unfold len at h; omega
  refine ⟨_, Set_of_lt a i v h₀ h, ?_, ?_, ?_⟩
  · rw [Get_of_lt _ _ h₀ (by simpa using hi)]
    simp
  · simp [Array.Size, len]
  · intro j hj
    by_cases hr : j < 0 ∨ j ≥ len a.array
    · rw [Get_of_out_of_range _ _ (by simpa [len] using hr), Get_of_out_of_range _ _ hr]
    · have hj₀ : 0 ≤ j := by omega
      have hjn : j.toNat < a.array.length := by unfold len at hr; omega
      rw [Get_of_lt _ _ hj₀ (by simpa using hjn), Get_of_lt _ _ hj₀ hjn]
      have hne : i.toNat ≠ j.toNat := by omega
      simp [List.getElem_set_ne hne]

/-- Witness for C5 on `[1, 2, 3]` with index `0` and value `3`. -/
theorem Set_then_Get_witness :
    ∃ a', (NewFrom [(1 : Int), 2, 3] []).Set 0 3 = .ok (none, a') ∧
      a'.Get 0 = .ok (3, true) ∧ a'.Size = (NewFrom [(1 : Int), 2, 3] []).Size ∧
      ∀ j, j ≠ 0 → a'.Get j = (NewFrom [(1 : Int), 2, 3] []).Get j :=
  Set_then_Get (NewFrom [(1 : Int), 2, 3] []) 0 3 (by decide) (by decide)

theorem elems_zero (a : List T) (i : Int) : elems a 0 i = a.take i.toNat := by
  simp [elems]

theorem elems_len (a : List T) (i : Int) : elems a i (len a) = a.drop i.toNat := by
  simp [elems, toNat_len]

/-- Claim C6: each of `Set`, `InsertBefore` and `InsertAfter` returns an error
exactly when `index < 0` or `index >= Size()`, and a call that returns an error
leaves the array as it was. -/
theorem index_error_iff_out_of_range (a : Array T) (index : Int) (v : T) :
    (index < 0 ∨ index ≥ a.Size →
      a.Set index v = .ok (some { index := index, size := a.Size }, a) ∧
      a.InsertBefore index v = .ok (some { index := index, size := a.Size }, a) ∧
      a.InsertAfter index v = .ok (some { index := index, size := a.Size }, a)) ∧
    (¬ (index < 0 ∨ index ≥ a.Size) →
      (∃ a', a.Set index v = .ok (none, a')) ∧
      (∃ a', a.InsertBefore index v = .ok (none, a')) ∧
      (∃ a', a.InsertAfter index v = .ok (none, a'))) := by
  unfold Array.Size
  constructor
  · intro h
    rw [Array.Set.eq_1, Array.InsertBefore.eq_1, Array.InsertAfter.eq_1, if_pos h, if_pos h,
      if_pos h]
    exact ⟨rfl, rfl, rfl⟩
  · intro h
    have h₀ : 0 ≤ index := by omega
    have h₁ : index < len a.array := by omega
    exact ⟨⟨_, Set_of_lt a index v h₀ h₁⟩, ⟨_, InsertBefore_of_lt a index v h₀ h₁⟩,
      ⟨_, InsertAfter_of_lt a index v h₀ h₁⟩⟩

/-- Witness for C6 on `[1, 2, 3]`: index `3` is refused by all three operations
with the array unchanged, index `0` is accepted by all three. -/
theorem index_error_iff_out_of_range_witness :
    ((NewFrom [(1 : Int), 2, 3] []).Set 3 7 =
        .ok (some { index := 3, size := 3 }, NewFrom [(1 : Int), 2, 3] []) ∧
      (NewFrom [(1 : Int), 2, 3] []).InsertBefore 3 7 =
        .ok (some { index := 3, size := 3 }, NewFrom [(1 : Int), 2, 3] []) ∧
      (NewFrom [(1 : Int), 2, 3] []).InsertAfter 3 7 =
        .ok (some { index := 3, size := 3 }, NewFrom [(1 : Int), 2, 3] [])) ∧
    ((∃ a', (NewFrom [(1 : Int), 2, 3] []).Set 0 7 = .ok (none, a')) ∧
      (∃ a', (NewFrom [(1 : Int), 2, 3] []).InsertBefore 0 7 = .ok (none, a')) ∧
      (∃ a', (NewFrom [(1 : Int), 2, 3] []).InsertAfter 0 7 = .ok (none, a'))) :=
  ⟨(index_error_iff_out_of_range (NewFrom [(1 : Int), 2, 3] []) 3 7).1 (by decide),
   (index_error_iff_out_of_range (NewFrom [(1 : Int), 2, 3] []) 0 7).2 (by decide)⟩

/-- Claim C7: for a valid index `i`, `InsertBefore(i, v)` leaves
`old[0..i) ++ [v] ++ old[i..n)` and `InsertAfter(i, v)` leaves
`old[0..i] ++ [v] ++ old[i+1..n)`; both have length `n + 1` and keep the old
elements in their order. -/
theorem Insert_contents (a : Array T) (i : Int) (v : T) (h₀ : 0 ≤ i) (h : i < a.Size) :
    (∃ a', a.InsertBefore i v = .ok (none, a') ∧
      a'.array = elems a.array 0 i ++ [v] ++ elems a.array i a.Size ∧
      a'.Size = a.Size + 1 ∧ a.array.Sublist a'.array) ∧
    (∃ a', a.InsertAfter i v = .ok (none, a') ∧
      a'.array = elems a.array 0 (i + 1) ++ [v] ++ elems a.array (i + 1) a.Size ∧
      a'.Size = a.Size + 1 ∧ a.array.Sublist a'.array) := by
  unfold Array.Size at *
  have hsub : ∀ m : Nat, a.array.Sublist (a.array.take m ++ [v] ++ a.array.drop m) := by
    intro m
    have h₁ : (a.array.take m ++ a.array.drop m).Sublist
        (a.array.take m ++ ([v] ++ a.array.drop m)) :=
      List.Sublist.append_left (List.sublist_append_right _ _) _
    rw [List.take_append_drop] at h₁
    simpa using h₁
  have hlen : ∀ m : Int, 0 ≤ m → m ≤ len a.array →
      len (a.array.take m.toNat ++ [v] ++ a.array.drop m.toNat) = len a.array + 1 := by
    intro m hm₀ hm
    unfold len at *
    simp only [List.length_append, List.length_take, List.length_drop, List.length_singleton]
    omega
  refine ⟨⟨_, InsertBefore_of_lt a i v h₀ h, ?_, ?_, ?_⟩,
    ⟨_, InsertAfter_of_lt a i v h₀ h, ?_, ?_, ?_⟩⟩
  · rw [elems_zero, elems_len]
  · exact hlen i h₀ (by omega)
  · exact hsub _
  · rw [elems_zero, elems_len]
  · exact hlen (i + 1) (by omega) (by omega)
  · exact hsub _

/-- Witness for C7 on `[1, 2, 3]` with index `2` and value `0`. -/
theorem Insert_contents_witness :
    (∃ a', (NewFrom [(1 : Int), 2, 3] []).InsertBefore 2 0 = .ok (none, a') ∧
      a'.array = elems [(1 : Int), 2, 3] 0 2 ++ [0] ++ elems [(1 : Int), 2, 3] 2 3 ∧
      a'.Size = (3 : Int) + 1 ∧ [(1 : Int), 2, 3].Sublist a'.array) ∧
    (∃ a', (NewFrom [(1 : Int), 2, 3] []).InsertAfter 2 0 = .ok (none, a') ∧
      a'.array = elems [(1 : Int), 2, 3] 0 (2 + 1) ++ [0] ++ elems [(1 : Int), 2, 3] (2 + 1) 3 ∧
      a'.Size = (3 : Int) + 1 ∧ [(1 : Int), 2, 3].Sublist a'.array) :=
  Insert_contents (NewFrom [(1 : Int), 2, 3] []) 2 0 (by decide) (by decide)

/-! ## Remove, Search, RemoveValue -/

/-- All three paths of `doRemoveWithoutLock` return the element at `i` and leave
the elements before `i` followed by those after `i`. -/
theorem Remove_of_lt [Inhabited T] (a : Array T) (i : Int) (h₀ : 0 ≤ i)
    (h : i.toNat < a.array.length) :
    a.Remove i = .ok ((a.array.get ⟨i.toNat, h⟩, true),
      { a with array := a.array.take i.toNat ++ a.array.drop (i.toNat + 1) }) := by
  have hlt : i < len a.array := by unfold len; omega
  rw [Array.Remove.eq_1, Array.doRemoveWithoutLock.eq_1, if_neg (by omega)]
  by_cases hz : i = 0
  · subst hz
    rw [if_pos rfl, index_ok _ _ le_rfl h, sliceFrom_ok _ _ (by omega) (by omega)]
    simp [bind, Except.bind, pure, Except.pure]
  · rw [if_neg hz]
    by_cases hl : i = len a.array - 1
    · rw [if_pos hl, index_ok _ _ h₀ h, sliceTo_ok _ _ h₀ (by omega)]
      have hd : a.array.drop (i.toNat + 1) = [] :=
        List.drop_eq_nil_of_le (by unfold len at hl; omega)
      simp [bind, Except.bind, pure, Except.pure, hd]
    · rw [if_neg hl, index_ok _ _ h₀ h, sliceTo_ok _ _ h₀ (by omega),
        sliceFrom_ok _ _ (by omega) (by omega)]
      have ht : (i + 1).toNat = i.toNat + 1 := by omega
      simp [bind, Except.bind, pure, Except.pure, append, ht]

theorem Remove_of_out_of_range [Inhabited T] (a : Array T) (i : Int)
    (h : i < 0 ∨ i ≥ len a.array) : a.Remove i = .ok ((default, false), a) := by
  rw [Array.Remove.eq_1, Array.doRemoveWithoutLock.eq_1, if_pos h]

/-- Claim C8: for a valid index `i`, `Remove(i)` returns `(old[i], true)` and
leaves `old[0..i) ++ old[i+1..n)`, which is `old` with the element at `i` erased,
whichever of the three paths is taken; for an index out of range it returns
`(zero value, false)` and leaves the array unchanged. -/
theorem Remove_spec [Inhabited T] (a : Array T) (i : Int) :
    (0 ≤ i → i < a.Size →
      ∃ x a', a.array.get? i.toNat = some x ∧ a.Remove i = .ok ((x, true), a') ∧
        a'.array = elems a.array 0 i ++ elems a.array (i + 1) a.Size ∧
        a'.array = a.array.eraseIdx i.toNat ∧ a'.mu = a.mu) ∧
    (i < 0 ∨ i ≥ a.Size → a.Remove i = .ok ((default, false), a)) := by
  unfold Array.Size
  refine ⟨fun h₀ h => ?_, Remove_of_out_of_range a i⟩
  have hi : i.toNat < a.array.length := by unfold len at h; omega
  have ht : (i + 1).toNat = i.toNat + 1 := by omega
  refine ⟨_, _, ?_, Remove_of_lt a i h₀ hi, ?_, ?_, rfl⟩
  · exact List.get?_eq_get hi
  · rw [elems_zero, elems_len, ht]
  · exact (List.eraseIdx_eq_take_drop_succ _ _).symm

/-- Witness for C8 on `[1, 2, 3, 4]`: the first, an interior and the last index,
and an index out of range. -/
theorem Remove_spec_witness :
    (NewFrom [(1 : Int), 2, 3, 4] []).Remove 0 = .ok ((1, true), NewFrom [2, 3, 4] []) ∧
    (NewFrom [(1 : Int), 2, 3, 4] []).Remove 1 = .ok ((2, true), NewFrom [1, 3, 4] []) ∧
    (NewFrom [(1 : Int), 2, 3, 4] []).Remove 3 = .ok ((4, true), NewFrom [1, 2, 3] []) ∧
    (NewFrom [(1 : Int), 2, 3, 4] []).Remove 9 =
      .ok ((default, false), NewFrom [(1 : Int), 2, 3, 4] []) := by
  have key : ∀ (i : Int) (x : Int) (l : List Int), 0 ≤ i → i < 4 →
      [(1 : Int), 2, 3, 4].get? i.toNat = some x → [(1 : Int), 2, 3, 4].eraseIdx i.toNat = l →
      (NewFrom [(1 : Int), 2, 3, 4] []).Remove i = .ok ((x, true), NewFrom l []) := by
    intro i x l h₀ h hx hl
    obtain ⟨y, a', hy, hr, -, he, hm⟩ :=
      (Remove_spec (NewFrom [(1 : Int), 2, 3, 4] []) i).1 h₀ h
    have hxy : y = x := Option.some.inj (hy.symm.trans hx)
    have ha : a' = NewFrom l [] := by
      cases a'
      simp only [NewFrom] at *
      subst hm
      subst he
      rw [hl]
    rw [hr, hxy, ha]
  exact ⟨key 0 1 _ (by decide) (by decide) rfl rfl, key 1 2 _ (by decide) (by decide) rfl rfl,
    key 3 4 _ (by decide) (by decide) rfl rfl,
    (Remove_spec (NewFrom [(1 : Int), 2, 3, 4] []) 9).2 (by decide)⟩

/-! ## PushLeft, PushRight, Append -/

/-- Claim C10: `PushLeft(vs...)` leaves `vs ++ old`, `PushRight(vs...)` leaves
`old ++ vs`, and `Append(vs...)` has the effect and the result of
`PushRight(vs...)`; the guard is untouched. -/
theorem Push_contents (a : Array T) (vs : List T) :
    (a.PushLeft vs).array = vs ++ a.array ∧ (a.PushRight vs).array = a.array ++ vs ∧
    a.Append vs = a.PushRight vs ∧
    (a.PushLeft vs).mu = a.mu ∧ (a.PushRight vs).mu = a.mu :=
  ⟨rfl, rfl, rfl, rfl, rfl⟩

end gods.array

namespace gods.array

variable {T : Type}

/-! ## PopLeft, PopRight -/

/-- Claim C11: on a non-empty array `PopLeft` returns `(old[0], true)` and leaves
`old[1..n)`, and `PopRight` returns `(old[n-1], true)` and leaves `old[0..n-1)`;
on an empty array both return `(zero value, false)` and leave it empty. -/
theorem Pop_spec [Inhabited T] (a : Array T) :
    (0 < a.Size →
      ∃ x y, a.array.get? 0 = some x ∧ a.array.get? (a.Size - 1).toNat = some y ∧
        a.PopLeft = .ok ((x, true), { a with array := elems a.array 1 a.Size }) ∧
        a.PopRight = .ok ((y, true), { a with array := elems a.array 0 (a.Size - 1) })) ∧
    (a.Size = 0 →
      a.array = [] ∧ a.PopLeft = .ok ((default, false), a) ∧
        a.PopRight = .ok ((default, false), a)) := by
  unfold Array.Size
  constructor
  · intro h
    have h₀ : (0 : Int).toNat < a.array.length := by unfold len at h; simp; omega
    have h₁ : (len a.array - 1).toNat < a.array.length := by unfold len at h ⊢; omega
    refine ⟨_, _, List.get?_eq_get h₀, List.get?_eq_get h₁, ?_, ?_⟩
    · rw [Array.PopLeft.eq_1, if_neg (by omega), index_ok _ _ le_rfl h₀,
        sliceFrom_ok _ _ (by omega) (by omega), elems_len]
      rfl
    · rw [Array.PopRight.eq_1]
      rw [if_neg (by omega), index_ok _ _ (by omega) h₁, sliceTo_ok _ _ (by omega) (by omega),
        elems_zero]
      rfl
  · intro h
    have hnil : a.array = [] := by
      unfold len at h
      exact List.length_eq_zero.mp (by omega)
    refine ⟨hnil, ?_, ?_⟩
    · rw [Array.PopLeft.eq_1, if_pos h]
    · rw [Array.PopRight.eq_1]
      rw [if_pos (by omega)]

/-- Witness for C11 on `[1, 2]` and on the empty array. -/
theorem Pop_spec_witness :
    (∃ x y, [(1 : Int), 2].get? 0 = some x ∧ [(1 : Int), 2].get? ((2 : Int) - 1).toNat = some y ∧
      (NewFrom [(1 : Int), 2] []).PopLeft =
        .ok ((x, true), { NewFrom [(1 : Int), 2] [] with array := elems [(1 : Int), 2] 1 2 }) ∧
      (NewFrom [(1 : Int), 2] []).PopRight =
        .ok ((y, true), { NewFrom [(1 : Int), 2] [] with
          array := elems [(1 : Int), 2] 0 (2 - 1) })) ∧
    ((NewFrom ([] : List Int) []).array = [] ∧
      (NewFrom ([] : List Int) []).PopLeft = .ok ((default, false), NewFrom [] []) ∧
      (NewFrom ([] : List Int) []).PopRight = .ok ((default, false), NewFrom [] [])) :=
  ⟨(Pop_spec (NewFrom [(1 : Int), 2] [])).1 (by decide),
   (Pop_spec (NewFrom ([] : List Int) [])).2 (by decide)⟩

end gods.array

namespace gods.array

variable {T : Type}

/-! ## Reverse -/

/-- One pass of the body of `Reverse` exchanges positions `i` and `j`. -/
theorem getElem?_swap (arr : List T) (i j k : Nat) (hi : i < arr.length)
    (hj : j < arr.length) (hij : i ≠ j) :
    ((arr.set i arr[j]).set j arr[i])[k]? =
      if k = i then some arr[j] else if k = j then some arr[i] else arr[k]? := by
  rw [List.getElem?_set, List.getElem?_set, List.length_set]
  by_cases h₁ : k = i
  · subst h₁
    rw [if_neg (fun h => hij h.symm), if_pos rfl, if_pos hi, if_pos rfl]
  · by_cases h₂ : k = j
    · subst h₂
      rw [if_pos rfl, if_pos hj, if_neg h₁, if_pos rfl]
    · rw [if_neg (fun h => h₂ h.symm), if_neg (fun h => h₁ h.symm), if_neg h₁, if_neg h₂]

/-- The loop of `Reverse`, entered with the counters at `i` and `n - 1 - i`,
terminates and reverses the part of the array between the counters. -/
theorem Reverse_loop_eq (m : Nat) :
    ∀ (i : Nat) (arr : List T), arr.length ≤ 2 * i + m →
      ∃ r, Array.Reverse.loop (i : Int) ((arr.length : Int) - 1 - i) arr = .ok r ∧
        r.length = arr.length ∧
        ∀ k : Nat, r[k]? =
          if i ≤ k ∧ k + i + 1 ≤ arr.length then arr[arr.length - 1 - k]? else arr[k]? := by
  induction m with
  | zero =>
    intro i arr hm
    refine ⟨arr, ?_, rfl, ?_⟩
    · rw [Array.Reverse.loop.eq_1, if_neg (by omega)]
    · intro k
      rw [if_neg (by omega)]
  | succ m ih =>
    intro i arr hm
    by_cases hlt : (i : Int) < (arr.length : Int) - 1 - i
    · have hjn : ((arr.length : Int) - 1 - i) = ((arr.length - 1 - i : Nat) : Int) := by omega
      have hi : i < arr.length := by omega
      have hj : arr.length - 1 - i < arr.length := by omega
      have hij : i ≠ arr.length - 1 - i := by omega
      have hlen₂ : ((arr.set i arr[arr.length - 1 - i]).set (arr.length - 1 - i) arr[i]).length
          = arr.length := by
        rw [List.length_set, List.length_set]
      obtain ⟨r, hr, hrl, hrk⟩ := ih (i + 1)
        ((arr.set i arr[arr.length - 1 - i]).set (arr.length - 1 - i) arr[i])
        (by rw [hlen₂]; omega)
      rw [hlen₂] at hr hrl hrk
      refine ⟨r, ?_, hrl, ?_⟩
      · rw [Array.Reverse.loop.eq_1, if_pos hlt, hjn,
          index_ok arr _ (by omega) (by simpa using hj),
          index_ok arr _ (by omega) (by simpa using hi)]
        simp only [List.get_eq_getElem, Int.toNat_ofNat]
        rw [setIndex_ok _ _ _ (by omega) (by unfold len; omega)]
        simp only [Int.toNat_ofNat]
        rw [setIndex_ok _ _ _ (by omega) (by unfold len; rw [List.length_set]; omega)]
        simp only [Int.toNat_ofNat]
        have e₁ : ((i : Int) + 1) = ((i + 1 : Nat) : Int) := by push_cast; rfl
        have e₂ : (((arr.length - 1 - i : Nat) : Int) - 1) =
            (arr.length : Int) - 1 - ((i + 1 : Nat) : Int) := by omega
        rw [e₁, e₂]
        exact hr
      · intro k
        rw [hrk k]
        by_cases hk : i + 1 ≤ k ∧ k + (i + 1) + 1 ≤ arr.length
        · rw [if_pos hk, if_pos (by omega), getElem?_swap arr i _ _ hi hj hij,
            if_neg (by omega), if_neg (by omega)]
        · rw [if_neg hk, getElem?_swap arr i _ _ hi hj hij]
          by_cases h₁ : k = i
          · subst h₁
            rw [if_pos rfl, if_pos (by omega), List.getElem?_eq_getElem hj]
          · rw [if_neg h₁]
            by_cases h₂ : k = arr.length - 1 - i
            · rw [if_pos h₂, if_pos (by omega), ← List.getElem?_eq_getElem hi]
              congr 1
              omega
            · rw [if_neg h₂, if_neg (by omega)]
    · refine ⟨arr, ?_, rfl, ?_⟩
      · rw [Array.Reverse.loop.eq_1, if_neg hlt]
      · intro k
        by_cases hk : i ≤ k ∧ k + i + 1 ≤ arr.length
        · rw [if_pos hk]
          congr 1
          omega
        · rw [if_neg hk]

theorem Reverse_eq (a : Array T) : a.Reverse = .ok { a with array := a.array.reverse } := by
  obtain ⟨r, hr, hrl, hrk⟩ := Reverse_loop_eq a.array.length 0 a.array (by omega)
  have hrev : r = a.array.reverse := by
    apply List.ext_getElem?
    intro k
    rw [hrk k]
    by_cases hk : k < a.array.length
    · rw [if_pos (by omega), List.getElem?_reverse hk]
    · rw [if_neg (by omega), List.getElem?_eq_none (by omega),
        List.getElem?_eq_none (by rw [List.length_reverse]; omega)]
  rw [Array.Reverse.eq_1]
  simp only [Nat.cast_zero, sub_zero] at hr
  unfold len
  rw [hr, hrev]

/-- Claim C16: `Reverse()` keeps the length `n` and puts `old[n-1-i]` at every
index `i`; the contents are the reversal of `old`. -/
theorem Reverse_spec [Inhabited T] (a : Array T) :
    ∃ a', a.Reverse = .ok a' ∧ a'.array = a.array.reverse ∧ a'.Size = a.Size ∧
      ∀ i, 0 ≤ i → i < a.Size → a'.Get i = a.Get (a.Size - 1 - i) := by
  refine ⟨_, Reverse_eq a, rfl, ?_, ?_⟩
  · simp [Array.Size, len]
  · intro i h₀ h
    unfold Array.Size len at h ⊢
    have hi : i.toNat < a.array.reverse.length := by rw [List.length_reverse]; omega
    have hj : ((a.array.length : Int) - 1 - i).toNat < a.array.length := by omega
    rw [Get_of_lt _ _ h₀ hi, Get_of_lt _ _ (by omega) hj]
    congr 2
    simp only [List.get_eq_getElem]
    rw [List.getElem_reverse]
    congr 1
    omega

/-- Witness for C16 on `[1, 2, 3]` (odd length) and `[1, 2, 3, 4]` (even length). -/
theorem Reverse_spec_witness :
    (∃ a', (NewFrom [(1 : Int), 2, 3] []).Reverse = .ok a' ∧ a'.array = [3, 2, 1] ∧
      a'.Get 0 = .ok (3, true)) ∧
    (∃ a', (NewFrom [(1 : Int), 2, 3, 4] []).Reverse = .ok a' ∧ a'.array = [4, 3, 2, 1]) := by
  obtain ⟨a₁, h₁, h₂, -, h₃⟩ := Reverse_spec (NewFrom [(1 : Int), 2, 3] [])
  obtain ⟨a₂, h₄, h₅, -⟩ := Reverse_spec (NewFrom [(1 : Int), 2, 3, 4] [])
  refine ⟨⟨a₁, h₁, h₂, ?_⟩, ⟨a₂, h₄, h₅⟩⟩
  rw [h₃ 0 (by decide) (by decide)]
  decide

end gods.array

namespace gods.array

variable {T : Type}

/-! ## Chunk -/

/-- One pass of the loop of `Chunk` whose slice bounds are in range appends the
chunk between them. -/
theorem Chunk_loop_step (arr : List T) (size length i chunks : Int)
    (result : Option (List (List T))) (lo hi : Int) (h : chunks > 0)
    (hlo : mul i size = lo)
    (hhi : (if mul (i + 1) size > length then length else mul (i + 1) size) = hi)
    (h₀ : 0 ≤ lo) (h₁ : lo ≤ hi) (h₂ : hi ≤ len arr) :
    Array.Chunk.loop arr size length i chunks result =
      Array.Chunk.loop arr size length (i + 1) (chunks - 1)
        (some (result.getD [] ++ [elems arr lo hi])) := by
  rw [Array.Chunk.loop.eq_1, if_pos h]
  simp only
  rw [hhi, hlo, slice_ok _ _ _ h₀ h₁ h₂]
  rfl

/-- The loop of `Chunk` stops when the counter `chunks` is used up. -/
theorem Chunk_loop_done (arr : List T) (size length i chunks : Int)
    (result : Option (List (List T))) (h : chunks ≤ 0) :
    Array.Chunk.loop arr size length i chunks result = .ok result := by
  rw [Array.Chunk.loop.eq_1, if_neg (by omega)]

/-- Claim C14 at a failing input: an array of `2^53 + 1` elements of a zero-size
type, chunked by `2^52`. The claim gives `ceil(n / size) = 3` chunks that
together are the whole array; `float64(length)` rounds to `2^53`, the quotient is
`2`, and `Chunk` returns two chunks that leave the last element out. -/
theorem Chunk_count_rounded :
    (Array.mk (rwmutex.Create []) (List.replicate 9007199254740993 ())).Chunk
        4503599627370496 =
      .ok (some [List.replicate 4503599627370496 (), List.replicate 4503599627370496 ()]) ∧
    ((9007199254740993 : Int) + 4503599627370496 - 1) / 4503599627370496 = 3 ∧
    [List.replicate 4503599627370496 (), List.replicate 4503599627370496 ()].flatten ≠
      List.replicate 9007199254740993 () := by
  refine ⟨?_, by decide, ?_⟩
  · have hlen : len (List.replicate 9007199254740993 ()) = 9007199254740993 := by
      unfold len
      rw [List.length_replicate]
      rfl
    have he₁ : elems (List.replicate 9007199254740993 ()) 0 4503599627370496 =
        List.replicate 4503599627370496 () := by
      unfold elems
      rw [List.take_replicate, List.drop_replicate]
      rfl
    have he₂ : elems (List.replicate 9007199254740993 ()) 4503599627370496 9007199254740992 =
        List.replicate 4503599627370496 () := by
      unfold elems
      rw [List.take_replicate, List.drop_replicate]
      rfl
    rw [Array.Chunk.eq_1, if_neg (by decide)]
    simp only
    rw [hlen]
    rw [show F64.toInt (F64.Ceil (F64.div (F64.ofInt 9007199254740993)
      (F64.ofInt 4503599627370496))) = 2 from by decide]
    rw [Chunk_loop_step _ _ _ 0 2 none 0 4503599627370496 (by decide) (by decide) (by decide)
      (by decide) (by decide) (by rw [hlen]; decide)]
    rw [Chunk_loop_step _ _ _ (0 + 1) (2 - 1) _ 4503599627370496 9007199254740992 (by decide)
      (by decide) (by decide) (by decide) (by decide) (by rw [hlen]; decide)]
    rw [Chunk_loop_done _ _ _ _ _ _ (by decide), he₁, he₂]
    rfl
  · intro h
    have h₁ := congrArg List.length h
    rw [List.flatten_cons, List.flatten_cons, List.flatten_nil, List.append_nil,
      List.length_append, List.length_replicate, List.length_replicate] at h₁
    omega

end gods.array

namespace gods

theorem mul_eq {x y : Int} (h : IsInt (x * y)) : mul x y = x * y := wrap_eq h

/-- The ceiling `k` of `n / size` is the least `k` with `n <= k * size`. -/
theorem ceilDiv_bounds (n size : Int) (hsize : 1 ≤ size) :
    (ceilDiv n size - 1) * size < n ∧ n ≤ ceilDiv n size * size := by
  unfold ceilDiv
  have h₁ := Int.ediv_add_emod (n + size - 1) size
  have h₂ := Int.emod_nonneg (n + size - 1) (show size ≠ 0 by omega)
  have h₃ := Int.emod_lt_of_pos (n + size - 1) (show 0 < size by omega)
  have h₄ : ((n + size - 1) / size - 1) * size = size * ((n + size - 1) / size) - size := by ring
  have h₅ : (n + size - 1) / size * size = size * ((n + size - 1) / size) := by ring
  rw [h₄, h₅]
  constructor <;> omega

section ElemsLemmas

variable {T : Type}

theorem length_elems (a : List T) (lo hi : Int) (h₀ : 0 ≤ lo) (h₁ : lo ≤ hi)
    (h₂ : hi ≤ len a) : ((elems a lo hi).length : Int) = hi - lo := by
  unfold elems len at *
  rw [List.length_drop, List.length_take]
  omega

theorem elems_append (a : List T) (lo mid hi : Int) (h₁ : lo ≤ mid) (h₂ : mid ≤ hi) : elems a lo mid ++ elems a mid hi = elems a lo hi := by
  unfold elems
  have e₁ : mid.toNat = lo.toNat + (mid.toNat - lo.toNat) := by omega
  have e₂ : hi.toNat = mid.toNat + (hi.toNat - mid.toNat) := by omega
  have e₃ : hi.toNat = lo.toNat + ((mid.toNat - lo.toNat) + (hi.toNat - mid.toNat)) := by omega
  rw [List.drop_take, List.drop_take, List.drop_take]
  generalize hb : List.drop lo.toNat a = b
  have hd : List.drop mid.toNat a = List.drop (mid.toNat - lo.toNat) b := by
    rw [← hb, List.drop_drop, Nat.add_comm, Nat.sub_add_cancel (by omega)]
  rw [hd]
  have e₄ : hi.toNat - lo.toNat = (mid.toNat - lo.toNat) + (hi.toNat - mid.toNat) := by omega
  rw [e₄, List.take_add]

theorem elems_self (a : List T) (lo : Int) : elems a lo lo = [] := by
  unfold elems
  rw [List.drop_take, Nat.sub_self, List.take_zero]

theorem elems_all (a : List T) (hi : Int) (h : len a ≤ hi) : elems a 0 hi = a := by
  unfold elems len at *
  rw [List.take_of_length_le (by omega)]
  rfl

end ElemsLemmas

end gods

namespace gods.array

variable {T : Type}

/-- The chunks from number `i` on, `m` of them, joined, are the elements from
`i * size` up to the end of the last of them. -/
theorem flatten_chunkAt (arr : List T) (size : Int) (hsize : 1 ≤ size) (m : Nat) :
    ∀ i : Nat, (i : Int) * size ≤ len arr →
      ((List.range' i m).map (chunkAt arr size)).flatten =
        elems arr ((i : Int) * size) (min (((i + m : Nat) : Int) * size) (len arr)) := by
  induction m with
  | zero =>
    intro i hi
    rw [List.range'_zero, List.map_nil, List.flatten_nil, Nat.add_zero, min_eq_left hi,
      elems_self]
  | succ m ih =>
    intro i hi
    have hm : 0 ≤ (m : Int) * size := mul_nonneg (by omega) (by omega)
    have e₁ : ((i + 1 : Nat) : Int) * size = (i : Int) * size + size := by push_cast; ring
    have e₂ : ((i + (m + 1) : Nat) : Int) * size = (i : Int) * size + (m : Int) * size + size := by
      push_cast; ring
    have e₃ : ((i + 1 + m : Nat) : Int) * size = (i : Int) * size + (m : Int) * size + size := by
      push_cast; ring
    have e₄ : ((i : Int) + 1) * size = (i : Int) * size + size := by ring
    rw [List.range'_succ, List.map_cons, List.flatten_cons]
    by_cases hfit : (i : Int) * size + size ≤ len arr
    · rw [ih (i + 1) (by rw [e₁]; exact hfit), chunkAt, e₁, e₂, e₃, e₄, min_eq_left hfit]
      exact elems_append _ _ _ _ (by omega) (le_min (by omega) hfit)
    · have hrest : ((List.range' (i + 1) m).map (chunkAt arr size)).flatten = [] := by
        rw [List.flatten_eq_nil_iff]
        intro l hl
        obtain ⟨j, hj, rfl⟩ := List.mem_map.mp hl
        have hj' := (List.mem_range'_1.mp hj).1
        have hjs : (i : Int) * size + size ≤ (j : Int) * size := by
          have : ((i + 1 : Nat) : Int) * size ≤ (j : Int) * size :=
            mul_le_mul_of_nonneg_right (by exact_mod_cast hj') (by omega)
          rw [e₁] at this
          exact this
        unfold chunkAt elems
        apply List.drop_eq_nil_of_le
        rw [List.length_take]
        unfold len at *
        omega
      rw [hrest, List.append_nil, chunkAt, e₂, e₄, min_eq_right (by omega),
        min_eq_right (by omega)]

/-- The loop of `Chunk`, entered at chunk number `i` with `m` chunks to go, all of
which start inside the array, terminates without panic and appends these chunks. -/
theorem Chunk_loop_eq (arr : List T) (size : Int) (hsize : 1 ≤ size)
    (hsum : len arr + size ≤ maxInt) (m : Nat) :
    ∀ (i : Nat) (result : Option (List (List T))),
      ((i + m : Nat) : Int) * size < len arr + size →
      Array.Chunk.loop arr size (len arr) (i : Int) (m : Int) result =
        .ok (if m = 0 then result
          else some (result.getD [] ++ (List.range' i m).map (chunkAt arr size))) := by
  induction m with
  | zero =>
    intro i result _
    rw [Chunk_loop_done _ _ _ _ _ _ (by omega), if_pos rfl]
  | succ m ih =>
    intro i result hlt
    have hn := len_nonneg arr
    have hi : 0 ≤ (i : Int) * size := mul_nonneg (by omega) (by omega)
    have hm : 0 ≤ (m : Int) * size := mul_nonneg (by omega) (by omega)
    have e₂ : ((i + (m + 1) : Nat) : Int) * size = (i : Int) * size + (m : Int) * size + size := by
      push_cast; ring
    have e₃ : ((i + 1 + m : Nat) : Int) * size = (i : Int) * size + (m : Int) * size + size := by
      push_cast; ring
    have e₄ : ((i : Int) + 1) * size = (i : Int) * size + size := by ring
    rw [e₂] at hlt
    have hlo : mul (i : Int) size = (i : Int) * size :=
      mul_eq ⟨by unfold minInt; omega, by omega⟩
    have hhi : mul ((i : Int) + 1) size = ((i : Int) + 1) * size :=
      mul_eq ⟨by rw [e₄]; unfold minInt; omega, by rw [e₄]; omega⟩
    have hstep := Chunk_loop_step arr size (len arr) (i : Int) ((m + 1 : Nat) : Int) result
      ((i : Int) * size) (min (((i : Int) + 1) * size) (len arr)) (by omega) hlo
      (by
        rw [hhi]
        by_cases hc : ((i : Int) + 1) * size > len arr
        · rw [if_pos hc, min_eq_right (by omega)]
        · rw [if_neg hc, min_eq_left (by omega)])
      hi (le_min (by rw [e₄]; omega) (by omega)) (min_le_right _ _)
    have ec : (((m + 1 : Nat) : Int) - 1) = (m : Int) := by push_cast; omega
    have ei : ((i + 1 : Nat) : Int) = (i : Int) + 1 := by push_cast; rfl
    have hlt' : ((i + 1 + m : Nat) : Int) * size < len arr + size := by rw [e₃]; omega
    have ih' := ih (i + 1)
      (some (result.getD [] ++ [elems arr ((i : Int) * size)
        (min (((i : Int) + 1) * size) (len arr))])) hlt'
    rw [ei] at ih'
    rw [hstep, ec, ih', if_neg (Nat.succ_ne_zero m)]
    congr 1
    by_cases hm₀ : m = 0
    · subst hm₀
      rw [if_pos rfl, List.range'_succ, List.range'_zero]
      rfl
    · rw [if_neg hm₀, Option.getD_some, List.range'_succ, List.map_cons, List.append_assoc]
      rfl

end gods.array

namespace gods.array

variable {T : Type}

/-- `Chunk` with a size below `1` returns `nil`. -/
theorem Chunk_of_size_lt_one (a : Array T) (size : Int) (h : size < 1) :
    a.Chunk size = .ok none := by
  rw [Array.Chunk.eq_1, if_pos h]

/-- The behaviour of `Chunk` stated in claim C14, on the inputs where the chunk
count computed in floating point is the exact ceiling of `n / size` (and
`n + size` is representable): `Chunk` returns without panic the `ceil(n / size)`
chunks `chunkAt 0, chunkAt 1, ...`, which joined give the array; every chunk but
the last has `size` elements and the last has between `1` and `size`. -/
theorem Chunk_of_exact_count (a : Array T) (size : Int) (hsize : 1 ≤ size)
    (hsum : a.Size + size ≤ maxInt)
    (hcount : F64.toInt (F64.Ceil (F64.div (F64.ofInt a.Size) (F64.ofInt size))) =
      ceilDiv a.Size size) :
    ∃ r, a.Chunk size = .ok r ∧
      r.getD [] = (List.range' 0 (ceilDiv a.Size size).toNat).map (chunkAt a.array size) ∧
      ((r.getD []).length : Int) = ceilDiv a.Size size ∧
      (r.getD []).flatten = a.array ∧
      (∀ j : Nat, (j : Int) + 1 < ceilDiv a.Size size →
        ((chunkAt a.array size j).length : Int) = size) ∧
      (∀ j : Nat, (j : Int) + 1 = ceilDiv a.Size size →
        1 ≤ ((chunkAt a.array size j).length : Int) ∧
        ((chunkAt a.array size j).length : Int) ≤ size) := by
  unfold Array.Size at *
  have hn := len_nonneg a.array
  obtain ⟨hb₁, hb₂⟩ := ceilDiv_bounds (len a.array) size hsize
  have hk₀ : 0 ≤ ceilDiv (len a.array) size := by
    by_contra hc
    have : ceilDiv (len a.array) size * size ≤ (-1) * size :=
      mul_le_mul_of_nonneg_right (by omega) (by omega)
    omega
  have hk : ((ceilDiv (len a.array) size).toNat : Int) = ceilDiv (len a.array) size :=
    Int.toNat_of_nonneg hk₀
  have e₁ : (ceilDiv (len a.array) size - 1) * size =
      ceilDiv (len a.array) size * size - size := by ring
  rw [e₁] at hb₁
  have hloop := Chunk_loop_eq a.array size hsize hsum (ceilDiv (len a.array) size).toNat 0 none
    (by rw [Nat.zero_add, hk]; omega)
  rw [hk] at hloop
  have hget : (if (ceilDiv (len a.array) size).toNat = 0 then (none : Option (List (List T)))
      else some ((none : Option (List (List T))).getD [] ++
        (List.range' 0 (ceilDiv (len a.array) size).toNat).map (chunkAt a.array size))).getD []
      = (List.range' 0 (ceilDiv (len a.array) size).toNat).map (chunkAt a.array size) := by
    by_cases hz : (ceilDiv (len a.array) size).toNat = 0
    · rw [if_pos hz, hz]
      rfl
    · rw [if_neg hz]
      rfl
  refine ⟨_, ?_, hget, ?_, ?_, ?_, ?_⟩
  · rw [Array.Chunk.eq_1, if_neg (by omega)]
    simp only
    rw [hcount]
    exact hloop
  · rw [hget, List.length_map, List.length_range', hk]
  · rw [hget, flatten_chunkAt a.array size hsize _ 0 (by simp; exact hn), Nat.zero_add, hk]
    simp only [Nat.cast_zero, zero_mul]
    rw [min_eq_right hb₂]
    exact elems_all _ _ le_rfl
  · intro j hj
    have hj₀ : 0 ≤ (j : Int) * size := mul_nonneg (by omega) (by omega)
    have hjs : ((j : Int) + 1) * size ≤ (ceilDiv (len a.array) size - 1) * size :=
      mul_le_mul_of_nonneg_right (by omega) (by omega)
    have e₂ : ((j : Int) + 1) * size = (j : Int) * size + size := by ring
    rw [e₁, e₂] at hjs
    unfold chunkAt
    rw [length_elems _ _ _ hj₀ (le_min (by omega) (by omega)) (min_le_right _ _),
      min_eq_left (by omega)]
    omega
  · intro j hj
    have hj₀ : 0 ≤ (j : Int) * size := mul_nonneg (by omega) (by omega)
    have e₂ : ((j : Int) + 1) * size = (j : Int) * size + size := by ring
    have e₃ : ceilDiv (len a.array) size * size = (j : Int) * size + size := by
      rw [← hj]; ring
    rw [e₃] at hb₁ hb₂
    unfold chunkAt
    rw [length_elems _ _ _ hj₀ (le_min (by omega) (by omega)) (min_le_right _ _),
      min_eq_right (by omega)]
    omega

end gods.array

namespace gods

/-! ## Floating point -/

/-- The halving search finds the leading binary digit: `2^k <= n < 2^(k+1)`. -/
theorem F64.ilog2_spec (fuel : Nat) :
    ∀ n : Nat, n ≤ fuel → n ≠ 0 →
      2 ^ F64.ilog2 fuel n ≤ n ∧ n < 2 ^ (F64.ilog2 fuel n + 1) := by
  induction fuel with
  | zero =>
    intro n h hn
    omega
  | succ fuel ih =>
    intro n h hn
    rw [F64.ilog2]
    by_cases h₂ : n < 2
    · rw [if_pos h₂]
      have : n = 1 := by omega
      subst this
      decide
    · rw [if_neg h₂]
      obtain ⟨h₃, h₄⟩ := ih (n / 2) (by omega) (by omega)
      rw [pow_succ, pow_succ]
      constructor <;> omega

theorem F64.nearest_ge (num den : Nat) : num / den ≤ F64.nearest num den := by
  unfold F64.nearest
  simp only
  split_ifs <;> omega

theorem F64.nearest_le (num den : Nat) : F64.nearest num den ≤ num / den + 1 := by
  unfold F64.nearest
  simp only
  split_ifs <;> omega

theorem F64.nearest_of_mod_eq_zero (num den : Nat) (hden : 0 < den) (h : num % den = 0) :
    F64.nearest num den = num / den := by
  unfold F64.nearest
  simp only
  rw [h, if_pos (by omega)]

theorem F64.nearest_of_half_lt (num den : Nat) (h : den < 2 * (num % den)) :
    F64.nearest num den = num / den + 1 := by
  unfold F64.nearest
  simp only
  rw [if_neg (by omega), if_pos h]

/-- For a quotient `p / q` below `2^53` the exponent is not positive, and the
scaled quotient is at least `2^52`. -/
theorem F64.exponent_of_lt (p q : Nat) (hp : 0 < p) (hq : 0 < q) (h : p < 2 ^ 53 * q) :
    ∃ t : Nat, F64.exponent p q = -(t : Int) ∧ 2 ^ 52 * q ≤ p * 2 ^ t := by
  obtain ⟨a₁, a₂⟩ := F64.ilog2_spec p p le_rfl (by omega)
  obtain ⟨b₁, b₂⟩ := F64.ilog2_spec q q le_rfl (by omega)
  unfold F64.exponent
  generalize F64.ilog2 p p = a at *
  generalize F64.ilog2 q q = b at *
  simp only
  have hab : a ≤ b + 53 := by
    by_contra hc
    have h₁ : 2 ^ (b + 54) ≤ 2 ^ a := Nat.pow_le_pow_right (by omega) (by omega)
    have h₂ : 2 ^ (b + 54) = 2 ^ 53 * 2 ^ (b + 1) := by rw [← pow_add]; congr 1; omega
    have h₃ : 2 ^ 53 * q < 2 ^ 53 * 2 ^ (b + 1) :=
      Nat.mul_lt_mul_of_pos_left b₂ (by positivity)
    omega
  have hkey : 2 ^ 52 * q < 2 ^ (b + 53) := by
    have h₂ : 2 ^ (b + 53) = 2 ^ 52 * 2 ^ (b + 1) := by rw [← pow_add]; congr 1; omega
    rw [h₂]
    exact Nat.mul_lt_mul_of_pos_left b₂ (by positivity)
  by_cases hcase : a = b + 53
  · have he₀ : ((a : Int) - (b : Int) - 52) = 1 := by omega
    rw [he₀]
    have hfalse : ¬ 2 ^ 52 * (q * 2 ^ (1 : Int).toNat) ≤ p * 2 ^ (-(1 : Int)).toNat := by
      simp only [Int.toNat_one, pow_one, Int.reduceNeg, Int.reduceToNat, pow_zero, mul_one]
      omega
    rw [if_neg hfalse]
    refine ⟨0, by simp, ?_⟩
    rw [pow_zero, mul_one]
    rw [hcase] at a₁
    omega
  · have he₀ : ((a : Int) - (b : Int) - 52) = -((b + 52 - a : Nat) : Int) := by omega
    rw [he₀]
    have h₁ : (-((b + 52 - a : Nat) : Int)).toNat = 0 := by omega
    have h₂ : (- -((b + 52 - a : Nat) : Int)).toNat = b + 52 - a := by omega
    rw [h₁, h₂, pow_zero, mul_one]
    by_cases hc : 2 ^ 52 * q ≤ p * 2 ^ (b + 52 - a)
    · rw [if_pos hc]
      exact ⟨b + 52 - a, rfl, hc⟩
    · rw [if_neg hc]
      refine ⟨b + 52 - a + 1, by push_cast; omega, ?_⟩
      have h₃ : 2 ^ a * 2 ^ (b + 52 - a + 1) = 2 ^ (b + 53) := by
        rw [← pow_add]; congr 1; omega
      have h₄ : 2 ^ a * 2 ^ (b + 52 - a + 1) ≤ p * 2 ^ (b + 52 - a + 1) :=
        Nat.mul_le_mul_right _ a₁
      omega

end gods

namespace gods

/-- Rounding up `m / s` gives `k` when `m` is in `((k - 1) * s, k * s]`. -/
theorem F64.div_ceil_eq (m s k K : Nat) (hK : k * s = K) (hlo : K ≤ m + (s - 1))
    (hhi : m + (s - 1) < K + s) : (m + (s - 1)) / s = k := by
  apply Nat.div_eq_of_lt_le
  · rw [hK]; exact hlo
  · rw [Nat.add_mul, Nat.one_mul, hK]; exact hhi

/-- The arithmetic core of the exactness of the chunk count: `m` is the integer
nearest to `n * s / size` (with a common factor `c` in numerator and
denominator), and the scale `s` is more than half of `size`; then rounding `m / s`
up gives the ceiling of `n / size`. -/
theorem F64.ceil_nearest (n size s c : Nat) (hsize : 0 < size) (hs : 0 < s) (hc : 0 < c)
    (hhalf : size < 2 * s) :
    (F64.nearest (n * s * c) (size * c) + (s - 1)) / s = (n + size - 1) / size := by
  have hnd := Nat.div_add_mod n size
  have hrem : n % size < size := Nat.mod_lt _ hsize
  have hN : n * s * c / (size * c) = n * s / size := Nat.mul_div_mul_right _ _ hc
  have hM : n * s * c % (size * c) = n * s % size * c := Nat.mul_mod_mul_right _ _ _
  have hns : n * s = size * (n / size * s) + n % size * s := by
    have : n * s = (size * (n / size) + n % size) * s := by rw [hnd]
    rw [this]
    ring
  have hdiv : n * s / size = n / size * s + n % size * s / size := by
    rw [hns]
    exact Nat.mul_add_div hsize _ _
  have hmod : n * s % size = n % size * s % size := by
    rw [hns]
    exact Nat.mul_add_mod _ _ _
  have hge := F64.nearest_ge (n * s * c) (size * c)
  have hle := F64.nearest_le (n * s * c) (size * c)
  rw [hN, hdiv] at hge hle
  have hcomm : n / size * size = size * (n / size) := Nat.mul_comm _ _
  by_cases hr : n % size = 0
  · have hmz : n * s * c % (size * c) = 0 := by
      rw [hM, hmod, hr, Nat.zero_mul, Nat.zero_mod, Nat.zero_mul]
    have hm : F64.nearest (n * s * c) (size * c) = n / size * s := by
      rw [F64.nearest_of_mod_eq_zero _ _ (Nat.mul_pos hsize hc) hmz, hN, hdiv, hr, Nat.zero_mul,
        Nat.zero_div, Nat.add_zero]
    have hA := F64.div_ceil_eq (n / size * s) s (n / size) (n / size * s) rfl
      (by omega) (by omega)
    have hB : (n + size - 1) / size = n / size := by
      have h := F64.div_ceil_eq n size (n / size) (size * (n / size)) hcomm
        (by omega) (by omega)
      rw [← h]
      congr 1
      omega
    rw [hm, hA, hB]
  · have hq : n % size * s / size < s := by
      apply Nat.div_lt_of_lt_mul
      exact Nat.mul_lt_mul_of_pos_right hrem hs
    have hlow : n / size * s + 1 ≤ F64.nearest (n * s * c) (size * c) := by
      by_cases hbig : size ≤ n % size * s
      · have h₁ : 1 ≤ n % size * s / size :=
          (Nat.le_div_iff_mul_le hsize).mpr (by rw [Nat.one_mul]; exact hbig)
        exact Nat.le_trans (Nat.add_le_add_left h₁ _) hge
      · have hlt : n % size * s < size := Nat.lt_of_not_le hbig
        have hsmall : s ≤ n % size * s := Nat.le_mul_of_pos_left s (Nat.pos_of_ne_zero hr)
        have hh : size * c < 2 * (n * s * c % (size * c)) := by
          rw [hM, hmod, Nat.mod_eq_of_lt hlt, ← Nat.mul_assoc]
          exact Nat.mul_lt_mul_of_pos_right (by omega) hc
        rw [F64.nearest_of_half_lt _ _ hh, hN, hdiv]
        exact Nat.add_le_add_right (Nat.le_add_right _ _) 1
    generalize F64.nearest (n * s * c) (size * c) = m at *
    generalize hKdef : n / size * s = K at *
    generalize n % size * s / size = q at *
    have hA : (m + (s - 1)) / s = n / size + 1 :=
      F64.div_ceil_eq m s (n / size + 1) (K + s) (by rw [Nat.add_mul, Nat.one_mul, hKdef])
        (by omega) (by omega)
    have hB : (n + size - 1) / size = n / size + 1 := by
      have h := F64.div_ceil_eq n size (n / size + 1) (size * (n / size) + size)
        (by rw [Nat.add_mul, Nat.one_mul, hcomm]) (by omega) (by omega)
      rw [← h]
      congr 1
      omega
    rw [hA, hB]

end gods

namespace gods

/-- A positive integer below `2^53` converts to binary64 exactly. -/
theorem F64.round_of_lt (n : Nat) (hn : 0 < n) (h : n < 2 ^ 53) :
    ∃ t : Nat, F64.round n 1 = { mant := n * 2 ^ t, exp := -(t : Int) } := by
  obtain ⟨t, ht, -⟩ := F64.exponent_of_lt n 1 hn Nat.one_pos (by omega)
  refine ⟨t, ?_⟩
  rw [F64.round, if_neg (by omega)]
  simp only
  rw [ht]
  have h₁ : (- -(t : Int)).toNat = t := by omega
  have h₂ : (-(t : Int)).toNat = 0 := by omega
  rw [h₁, h₂, pow_zero, Nat.mul_one,
    F64.nearest_of_mod_eq_zero _ _ Nat.one_pos (Nat.mod_one _), Nat.div_one]

/-- The floating-point chunk count of `Chunk` is the exact ceiling of `n / size`
when the length and the size are below `2^53`. -/
theorem F64.chunk_count_exact (n size : Nat) (hn : n < 2 ^ 53) (hs₀ : 0 < size)
    (hs : size < 2 ^ 53) :
    F64.toInt (F64.Ceil (F64.div (F64.round n 1) (F64.round size 1))) =
      (((n + size - 1) / size : Nat) : Int) := by
  obtain ⟨t₂, hy⟩ := F64.round_of_lt size hs₀ hs
  by_cases hn₀ : n = 0
  · subst hn₀
    have hx : F64.round 0 1 = { mant := 0, exp := 0 } := by rw [F64.round, if_pos rfl]
    have hd : F64.div { mant := 0, exp := 0 } (F64.round size 1) = { mant := 0, exp := 0 } := by
      rw [F64.div]
      simp only [Nat.zero_mul]
      rw [F64.round, if_pos rfl]
    rw [hx, hd]
    have hz : (0 + size - 1) / size = 0 := Nat.div_eq_of_lt (by omega)
    rw [hz]
    decide
  · have hdivle : (n + size - 1) / size ≤ n := by
      apply Nat.div_le_of_le_mul
      obtain ⟨k, rfl⟩ : ∃ k, n = k + 1 := ⟨n - 1, by omega⟩
      have h₁ : k ≤ size * k := Nat.le_mul_of_pos_left k hs₀
      rw [Nat.mul_succ]
      omega
    obtain ⟨t₁, hx⟩ := F64.round_of_lt n (Nat.pos_of_ne_zero hn₀) hn
    rw [hx, hy, F64.div]
    simp only
    have hc₁ : 2 ^ t₁ * 2 ^ (-(t₁ : Int) - -(t₂ : Int)).toNat = 2 ^ max t₁ t₂ := by
      rw [← pow_add]
      congr 1
      omega
    have hc₂ : 2 ^ t₂ * 2 ^ (-(t₂ : Int) - -(t₁ : Int)).toNat = 2 ^ max t₁ t₂ := by
      rw [← pow_add]
      congr 1
      omega
    rw [Nat.mul_assoc, Nat.mul_assoc, hc₁, hc₂]
    generalize hcdef : 2 ^ max t₁ t₂ = c
    have hc : 0 < c := by rw [← hcdef]; positivity
    have hlt : n * c < 2 ^ 53 * (size * c) := by
      have h₁ : n * c < 2 ^ 53 * c := Nat.mul_lt_mul_of_pos_right hn hc
      have h₂ : 2 ^ 53 * c ≤ 2 ^ 53 * (size * c) :=
        Nat.mul_le_mul_left _ (Nat.le_mul_of_pos_left c hs₀)
      omega
    obtain ⟨t, ht, hnorm⟩ := F64.exponent_of_lt (n * c) (size * c)
      (Nat.mul_pos (Nat.pos_of_ne_zero hn₀) hc) (Nat.mul_pos hs₀ hc) hlt
    rw [F64.round, if_neg (Nat.ne_of_gt (Nat.mul_pos (Nat.pos_of_ne_zero hn₀) hc))]
    simp only
    rw [ht]
    have h₁ : (- -(t : Int)).toNat = t := by omega
    have h₂ : (-(t : Int)).toNat = 0 := by omega
    rw [F64.Ceil]
    simp only
    rw [h₁, h₂, pow_zero, Nat.mul_one, Nat.mul_one]
    generalize hsdef : 2 ^ t = s at *
    have hspos : 0 < s := by rw [← hsdef]; positivity
    have hhalf : size < 2 * s := by
      have h₃ : 2 ^ 52 * size * c ≤ n * s * c := by
        have e₁ : 2 ^ 52 * size * c = 2 ^ 52 * (size * c) := Nat.mul_assoc _ _ _
        have e₂ : n * s * c = n * c * s := Nat.mul_right_comm _ _ _
        rw [e₁, e₂]
        exact hnorm
      have h₄ : 2 ^ 52 * size ≤ n * s := Nat.le_of_mul_le_mul_right h₃ hc
      have h₅ : n * s < 2 ^ 53 * s := Nat.mul_lt_mul_of_pos_right hn hspos
      omega
    have hmant : n * c * s = n * s * c := Nat.mul_right_comm _ _ _
    rw [hmant, F64.ceil_nearest n size s c hs₀ hspos hc hhalf, F64.toInt]
    simp only [Int.toNat_zero, pow_zero, Nat.mul_one, Int.neg_zero, Nat.div_one]
    rw [if_neg]
    unfold maxInt
    omega

end gods

namespace gods.array

variable {T : Type}

/-- The behaviour of `Chunk` stated in claim C14, for every array with fewer than
`2^53` elements and every size from `1` to below `2^53`: the floating-point chunk
count is exact there, so `Chunk` returns without panic the `ceil(n / size)`
chunks, which joined give the array; every chunk but the last has `size`
elements and the last has between `1` and `size`. -/
theorem Chunk_of_lt (a : Array T) (size : Int) (hsize : 1 ≤ size) (hs : size < 2 ^ 53)
    (hn : a.Size < 2 ^ 53) :
    ∃ r, a.Chunk size = .ok r ∧
      r.getD [] = (List.range' 0 (ceilDiv a.Size size).toNat).map (chunkAt a.array size) ∧
      ((r.getD []).length : Int) = ceilDiv a.Size size ∧
      (r.getD []).flatten = a.array ∧
      (∀ j : Nat, (j : Int) + 1 < ceilDiv a.Size size →
        ((chunkAt a.array size j).length : Int) = size) ∧
      (∀ j : Nat, (j : Int) + 1 = ceilDiv a.Size size →
        1 ≤ ((chunkAt a.array size j).length : Int) ∧
        ((chunkAt a.array size j).length : Int) ≤ size) := by
  apply Chunk_of_exact_count a size hsize
  · unfold maxInt
    omega
  · unfold Array.Size len at *
    obtain ⟨s, rfl⟩ : ∃ s : Nat, size = (s : Int) := ⟨size.toNat, by omega⟩
    have h := F64.chunk_count_exact a.array.length s (by omega) (by omega) (by omega)
    unfold F64.ofInt ceilDiv
    rw [Int.toNat_ofNat, Int.toNat_ofNat, h, Int.ofNat_ediv]
    congr 1
    omega

/-- Instances of `Chunk_of_lt` on `[1, 2, 3, 4, 5]`: chunks of `3` and of `100`. -/
theorem Chunk_of_lt_witness :
    (∃ r, (NewFrom [(1 : Int), 2, 3, 4, 5] []).Chunk 3 = .ok r ∧
      r.getD [] = [[1, 2, 3], [4, 5]]) ∧
    (∃ r, (NewFrom [(1 : Int), 2, 3, 4, 5] []).Chunk 100 = .ok r ∧
      r.getD [] = [[1, 2, 3, 4, 5]]) := by
  obtain ⟨r₁, h₁, h₂, -⟩ := Chunk_of_lt (NewFrom [(1 : Int), 2, 3, 4, 5] []) 3
    (by decide) (by decide) (by decide)
  obtain ⟨r₂, h₃, h₄, -⟩ := Chunk_of_lt (NewFrom [(1 : Int), 2, 3, 4, 5] []) 100
    (by decide) (by decide) (by decide)
  exact ⟨⟨r₁, h₁, h₂.trans (by decide)⟩, ⟨r₂, h₃, h₄.trans (by decide)⟩⟩

end gods.array

namespace gods.array

variable {T : Type}

theorem index_concat (init : List T) (d : T) :
    index (init ++ [d]) (len (init ++ [d]) - 1) = .ok d := by
  have h : len (init ++ [d]) - 1 = (init.length : Int) := by unfold len; simp
  rw [h]
  unfold index
  rw [if_neg (by omega)]
  simp

theorem sliceTo_concat (init : List T) (d : T) :
    sliceTo (init ++ [d]) (len (init ++ [d]) - 1) = .ok init := by
  have h : len (init ++ [d]) - 1 = (init.length : Int) := by unfold len; simp
  rw [h, sliceTo_ok _ _ (by omega) (by unfold len; simp)]
  simp

/-- `PopRight` on an array that ends with `d` returns `d` and leaves the rest. -/
theorem PopRight_concat [Inhabited T] (mu : rwmutex.RWMutex) (init : List T) (d : T) :
    (Array.mk mu (init ++ [d])).PopRight = .ok ((d, true), Array.mk mu init) := by
  rw [Array.PopRight.eq_1]
  have h : ¬ len (init ++ [d]) - 1 < 0 := by unfold len; simp
  simp only []
  rw [if_neg h, index_concat, sliceTo_concat]
  rfl

theorem PopRight_nil [Inhabited T] (mu : rwmutex.RWMutex) :
    (Array.mk mu ([] : List T)).PopRight = .ok ((default, false), Array.mk mu []) := by
  rw [Array.PopRight.eq_1]
  rfl

theorem Get_concat [Inhabited T] (mu : rwmutex.RWMutex) (init : List T) (d : T) :
    (Array.mk mu (init ++ [d])).Get (len (init ++ [d]) - 1) = .ok (d, true) := by
  have h : ¬ (len (init ++ [d]) - 1 < 0 ∨ len (init ++ [d]) - 1 ≥ len (init ++ [d])) := by
    unfold len; simp
  rw [Array.Get.eq_1, if_neg h, index_concat]
  rfl

/-- The empty array made by `New`. -/
theorem Array_New_eq [Inhabited T] (maxLen : Nat) (safe : List Bool) :
    (New maxLen safe : Go (Array T)) = .ok (NewFrom [] safe) := by
  unfold New NewSize makeCap
  rw [if_neg (by omega)]
  rfl

/-- `Clone` of an array that fits the allocation limit. -/
theorem Array_Clone_eq [Inhabited T] (maxLen : Nat) (a : Array T) (h : a.array.length ≤ maxLen) :
    a.Clone maxLen = .ok (NewFrom a.array [a.mu.IsSafe]) := by
  unfold Array.Clone
  rw [make_ok maxLen (len a.array) (len_nonneg _) (by unfold len; omega), toNat_len]
  simp only []
  rw [copy_replicate _ _ _ le_rfl, List.take_length]

end gods.array

namespace gods.stack

variable {T : Type}

theorem eq_nil_or_snoc (l : List T) : l = [] ∨ ∃ init d, l = init ++ [d] := by
  rcases List.eq_nil_or_concat l with h | ⟨init, d, h⟩
  · exact Or.inl h
  · exact Or.inr ⟨init, d, by rw [h, List.concat_eq_append]⟩

theorem Pop_concat [Inhabited T] (mu : rwmutex.RWMutex) (init : List T) (d : T) :
    (Stack.mk (array.Array.mk mu (init ++ [d]))).Pop = .ok (d, Stack.mk (array.Array.mk mu init)) := by
  unfold Stack.Pop
  rw [array.PopRight_concat]

theorem Pop_nil [Inhabited T] (mu : rwmutex.RWMutex) :
    (Stack.mk (array.Array.mk mu ([] : List T))).Pop = .ok (default, Stack.mk (array.Array.mk mu [])) := by
  unfold Stack.Pop
  rw [array.PopRight_nil]

theorem Peek_concat [Inhabited T] (mu : rwmutex.RWMutex) (init : List T) (d : T) :
    (Stack.mk (array.Array.mk mu (init ++ [d]))).Peek =
      .ok (d, Stack.mk (array.Array.mk mu (init ++ [d]))) := by
  unfold Stack.Peek array.Array.Index array.Array.Size
  rw [array.Get_concat]

theorem Peek_nil [Inhabited T] (mu : rwmutex.RWMutex) :
    (Stack.mk (array.Array.mk mu ([] : List T))).Peek =
      .ok (default, Stack.mk (array.Array.mk mu [])) := by
  unfold Stack.Peek array.Array.Index array.Array.Size
  have h : len ([] : List T) - 1 < 0 ∨ len ([] : List T) - 1 ≥ len ([] : List T) :=
    Or.inl (by simp [len])
  rw [array.Get_of_out_of_range _ _ h]

/-- Up to `n` successive pops return the last elements, the latest first, and
leave the elements below them. -/
theorem pops_eq [Inhabited T] (mu : rwmutex.RWMutex) (k : Nat) (l : List T)
    (h : k ≤ l.length) :
    pops k (Stack.mk (array.Array.mk mu l)) =
      .ok (l.reverse.take k, Stack.mk (array.Array.mk mu (l.take (l.length - k)))) := by
  induction k generalizing l with
  | zero => simp [pops]
  | succ k ih =>
    rcases eq_nil_or_snoc l with hl | ⟨init, d, hl⟩
    · subst hl
      simp at h
    · subst hl
      have hk : k ≤ init.length := by simpa using h
      rw [pops, Pop_concat]
      simp only []
      rw [ih init hk]
      simp only [List.reverse_append, List.reverse_singleton, List.singleton_append,
        List.take_succ_cons, List.length_append, List.length_singleton, Nat.add_sub_add_right]
      rw [List.take_append_of_le_length (Nat.sub_le _ _)]

/-- Pops on an empty stack return zero values and leave it empty. -/
theorem pops_nil [Inhabited T] (mu : rwmutex.RWMutex) (j : Nat) :
    pops j (Stack.mk (array.Array.mk mu ([] : List T))) =
      .ok (List.replicate j default, Stack.mk (array.Array.mk mu [])) := by
  induction j with
  | zero => rfl
  | succ j ih =>
    rw [pops, Pop_nil]
    simp only []
    rw [ih]
    rfl

/-- Pops in two runs. -/
theorem pops_add [Inhabited T] (k j : Nat) (s s' s'' : Stack T) (vs ws : List T)
    (h₁ : pops k s = .ok (vs, s')) (h₂ : pops j s' = .ok (ws, s'')) :
    pops (k + j) s = .ok (vs ++ ws, s'') := by
  induction k generalizing s vs with
  | zero =>
    simp only [pops, Except.ok.injEq, Prod.mk.injEq] at h₁
    obtain ⟨rfl, rfl⟩ := h₁
    simpa using h₂
  | succ k ih =>
    rw [Nat.add_right_comm, pops]
    rw [pops] at h₁
    cases hp : s.Pop with
    | error p => rw [hp] at h₁; cases h₁
    | ok r =>
      obtain ⟨v, t⟩ := r
      rw [hp] at h₁
      simp only [] at h₁ ⊢
      cases hq : pops k t with
      | error p => rw [hq] at h₁; cases h₁
      | ok r =>
        obtain ⟨us, t'⟩ := r
        rw [hq] at h₁
        simp only [Except.ok.injEq, Prod.mk.injEq] at h₁
        obtain ⟨rfl, rfl⟩ := h₁
        rw [ih t us hq]
        rfl

theorem foldl_Push (mu : rwmutex.RWMutex) (l data : List T) :
    data.foldl Stack.Push (Stack.mk (array.Array.mk mu l)) = Stack.mk (array.Array.mk mu (l ++ data)) := by
  induction data generalizing l with
  | nil => simp
  | cons d rest ih =>
    rw [List.foldl_cons]
    have : (Stack.mk (array.Array.mk mu l)).Push d = Stack.mk (array.Array.mk mu (l ++ [d])) := rfl
    rw [this, ih]
    simp

/-- Claim C24: a stack built by `NewFrom(data)`, or by pushing `d1`, ..., `dn`
on the empty stack made by `New`, has `Size() = n`; `k <= n` successive `Pop`
calls return `dn`, ..., `d(n-k+1)` in that order and leave `d1`, ..., `d(n-k)`,
so each of them lowers `Size()` by one; the pops after the `n`-th return the
zero value and leave the stack empty; on every non-empty stack `Pop` returns
the last element and lowers `Size()` by one; and `Push(v)` followed by `Pop()`
returns `v` and leaves the stack as it was before the push. -/
theorem Stack_LIFO [Inhabited T] (maxLen : Nat) (data : List T) (safe : List Bool)
    (s : Stack T) (v : T) :
    (∃ e : Stack T, New maxLen safe = .ok e ∧ e.Size = 0 ∧
      data.foldl Stack.Push e = NewFrom data safe) ∧
    (NewFrom data safe).Size = data.length ∧
    (∀ k, k ≤ data.length →
      ∃ s', pops k (NewFrom data safe) = .ok (data.reverse.take k, s') ∧
        s' = NewFrom (data.take (data.length - k)) safe ∧
        s'.Size = (data.length : Int) - k) ∧
    (∀ j, pops (data.length + j) (NewFrom data safe) =
      .ok (data.reverse ++ List.replicate j default, NewFrom [] safe)) ∧
    (NewFrom ([] : List T) safe).Pop = .ok (default, NewFrom [] safe) ∧
    (0 < s.Size →
      ∃ top s', s.Pop = .ok (top, s') ∧ s.data.array = s'.data.array ++ [top] ∧
        s'.Size = s.Size - 1) ∧
    (s.Push v).Pop = .ok (v, s) := by
  refine ⟨⟨NewFrom [] safe, ?_, rfl, ?_⟩, rfl, ?_, ?_, Pop_nil _, ?_, ?_⟩
  · unfold New
    rw [array.Array_New_eq]
    rfl
  · exact (foldl_Push _ [] data).trans (by simp [NewFrom, array.NewFrom])
  · intro k hk
    refine ⟨_, pops_eq _ k data hk, rfl, ?_⟩
    simp only [NewFrom, array.NewFrom, Stack.Size, array.Array.Size, len, List.length_take]
    omega
  · intro j
    refine pops_add _ _ _ _ _ _ _ ?_ (pops_nil (rwmutex.Create safe) j)
    have := pops_eq (rwmutex.Create safe) data.length data le_rfl
    rw [List.take_of_length_le (by simp), Nat.sub_self, List.take_zero] at this
    exact this
  · intro h
    obtain ⟨⟨mu, l⟩⟩ := s
    rcases eq_nil_or_snoc l with hl | ⟨init, d, hl⟩
    · subst hl
      simp [Stack.Size, array.Array.Size, len] at h
    · subst hl
      refine ⟨d, _, Pop_concat mu init d, rfl, ?_⟩
      simp [Stack.Size, array.Array.Size, len]
  · obtain ⟨⟨mu, l⟩⟩ := s
    exact Pop_concat mu l v

/-- Witness for C24 on the stack `[1, 2, 3]`: three pops return `3, 2, 1`. -/
theorem Stack_LIFO_witness :
    pops 3 (NewFrom [(1 : Int), 2, 3] []) = .ok ([3, 2, 1], NewFrom [] []) ∧
    ∃ top s', (NewFrom [(1 : Int), 2, 3] []).Pop = .ok (top, s') ∧
      (NewFrom [(1 : Int), 2, 3] []).data.array = s'.data.array ++ [top] ∧
      s'.Size = (NewFrom [(1 : Int), 2, 3] []).Size - 1 :=
  have h := Stack_LIFO 0 [(1 : Int), 2, 3] [] (NewFrom [(1 : Int), 2, 3] []) 0
  ⟨by
    obtain ⟨s', h₁, h₂, _⟩ := h.2.2.1 3 (by decide)
    rw [h₁, h₂]
    rfl,
   h.2.2.2.2.2.1 (by decide)⟩

/-- Claim C25: `Peek()` returns the value that `Pop()` called in its place
returns, and so would an immediately following `Pop()`, since the stack
after `Peek()` is the stack before it, contents and `Size()` included; the
value is the last element pushed and not yet popped on a non-empty stack
and the zero value on an empty one. -/
theorem Peek_spec [Inhabited T] (s : Stack T) (x : T) :
    (∃ v s₁ s₂, s.Peek = .ok (v, s₁) ∧ s₁ = s ∧ s₁.Size = s.Size ∧ s₁.Pop = .ok (v, s₂)) ∧
    (0 < s.Size → ∃ v, s.data.array.getLast? = some v ∧ s.Peek = .ok (v, s)) ∧
    (s.Size = 0 → s.Peek = .ok (default, s)) ∧
    (s.Push x).Peek = .ok (x, s.Push x) := by
  obtain ⟨⟨mu, l⟩⟩ := s
  rcases eq_nil_or_snoc l with hl | ⟨init, d, hl⟩
  · subst hl
    refine ⟨⟨default, _, _, Peek_nil mu, rfl, rfl, Pop_nil mu⟩, ?_, fun _ => Peek_nil mu,
      Peek_concat mu [] x⟩
    intro h
    simp [Stack.Size, array.Array.Size, len] at h
  · subst hl
    refine ⟨⟨d, _, _, Peek_concat mu init d, rfl, rfl, Pop_concat mu init d⟩,
      fun _ => ⟨d, by simp, Peek_concat mu init d⟩, ?_, Peek_concat mu (init ++ [d]) x⟩
    intro h
    simp [Stack.Size, array.Array.Size, len] at h
    omega

/-- Witness for C25 on the stack `[1, 2, 3]`, whose top is `3`, and on the empty
stack. -/
theorem Peek_spec_witness :
    (∃ v, (NewFrom [(1 : Int), 2, 3] []).data.array.getLast? = some v ∧
      (NewFrom [(1 : Int), 2, 3] []).Peek = .ok (v, NewFrom [(1 : Int), 2, 3] [])) ∧
    (NewFrom ([] : List Int) []).Peek = .ok (default, NewFrom [] []) :=
  ⟨(Peek_spec (NewFrom [(1 : Int), 2, 3] []) 0).2.1 (by decide),
   (Peek_spec (NewFrom ([] : List Int) []) 0).2.2.1 (by decide)⟩

end gods.stack

namespace gods

/-! ## Comparable values and maps -/

section SameLemmas

variable {T : Type} [Comparable T]

theorem same_iff (x y : T) : same x y = true ↔ Comparable.eq x y = some true := by
  unfold same
  exact beq_iff_eq

theorem same_comm (x y : T) : same x y = same y x := by
  unfold same
  rw [Comparable.eq_comm]

theorem same_trans {x y z : T} (h₁ : same x y = true) (h₂ : same y z = true) :
    same x z = true := by
  rw [same_iff] at h₁ h₂ ⊢
  exact Comparable.eq_trans x y z h₁ h₂

/-- Values equal under `==` compare alike with every third value. -/
theorem same_congr_left {x y : T} (h : same x y = true) (z : T) : same x z = same y z := by
  rw [Bool.eq_iff_iff]
  constructor
  · intro hx
    exact same_trans ((same_comm y x).trans h) hx
  · intro hy
    exact same_trans h hy

/-- A value equal to some value under `==` is equal to itself. -/
theorem same_self_of_same {x y : T} (h : same x y = true) : same x x = true :=
  same_trans h ((same_comm y x).trans h)

theorem goEq_of_same {x y : T} (h : same x y = true) : goEq x y = .ok true := by
  rw [same_iff] at h
  unfold goEq
  rw [h]

/-- Two values that can be hashed compare without a panic. -/
theorem goEq_of_hashable {x y : T} (hx : Comparable.hashable x = true)
    (hy : Comparable.hashable y = true) : goEq x y = .ok (same x y) := by
  have h := Comparable.eq_of_hashable x y hx hy
  unfold goEq same
  cases he : Comparable.eq x y with
  | none => exact absurd he h
  | some b => cases b <;> rfl

end SameLemmas

section CoverLemmas

variable {T : Type} [Comparable T]

/-- A list of values no two of which are equal under `==`, each equal to some
element of a second list, is not longer than the second list. -/
theorem length_le_of_cover (l₁ : List T) :
    ∀ l₂ : List T, l₁.Pairwise (fun a b => same a b = false) →
      (∀ a, a ∈ l₁ → ∃ b, b ∈ l₂ ∧ same a b = true) → l₁.length ≤ l₂.length := by
  induction l₁ with
  | nil => intro l₂ _ _; exact Nat.zero_le _
  | cons a t ih =>
    intro l₂ hp hc
    obtain ⟨b, hb, hab⟩ := hc a (List.mem_cons_self _ _)
    obtain ⟨u, v, rfl⟩ := List.append_of_mem hb
    have hpt := (List.pairwise_cons.mp hp).2
    have hat := (List.pairwise_cons.mp hp).1
    have hcov : ∀ a', a' ∈ t → ∃ b', b' ∈ u ++ v ∧ same a' b' = true := by
      intro a' ha'
      obtain ⟨b', hb', hab'⟩ := hc a' (List.mem_cons_of_mem _ ha')
      refine ⟨b', ?_, hab'⟩
      rcases List.mem_append.mp hb' with h | h
      · exact List.mem_append_left _ h
      · rcases List.mem_cons.mp h with h | h
        · exfalso
          rw [h] at hab'
          have := same_trans hab ((same_comm b a').trans hab')
          rw [hat a' ha'] at this
          exact absurd this (by decide)
        · exact List.mem_append_right _ h
    have := ih (u ++ v) hpt hcov
    simp only [List.length_append, List.length_cons] at this ⊢
    omega

/-- If moreover the second list is not longer than the first, each of its
elements is equal to some element of the first. -/
theorem cover_of_cover_of_length_le (l₁ : List T) :
    ∀ l₂ : List T, l₁.Pairwise (fun a b => same a b = false) →
      (∀ a, a ∈ l₁ → ∃ b, b ∈ l₂ ∧ same a b = true) → l₂.length ≤ l₁.length →
      ∀ b, b ∈ l₂ → ∃ a, a ∈ l₁ ∧ same a b = true := by
  induction l₁ with
  | nil =>
    intro l₂ _ _ hlen b hb
    have : l₂ = [] := List.length_eq_zero.mp (Nat.le_zero.mp hlen)
    rw [this] at hb
    exact absurd hb (List.not_mem_nil _)
  | cons a t ih =>
    intro l₂ hp hc hlen b' hb'
    obtain ⟨b, hb, hab⟩ := hc a (List.mem_cons_self _ _)
    obtain ⟨u, v, rfl⟩ := List.append_of_mem hb
    have hpt := (List.pairwise_cons.mp hp).2
    have hat := (List.pairwise_cons.mp hp).1
    have hcov : ∀ a', a' ∈ t → ∃ b', b' ∈ u ++ v ∧ same a' b' = true := by
      intro a' ha'
      obtain ⟨b', hb', hab'⟩ := hc a' (List.mem_cons_of_mem _ ha')
      refine ⟨b', ?_, hab'⟩
      rcases List.mem_append.mp hb' with h | h
      · exact List.mem_append_left _ h
      · rcases List.mem_cons.mp h with h | h
        · exfalso
          rw [h] at hab'
          have := same_trans hab ((same_comm b a').trans hab')
          rw [hat a' ha'] at this
          exact absurd this (by decide)
        · exact List.mem_append_right _ h
    have hlen' : (u ++ v).length ≤ t.length := by
      simp only [List.length_append, List.length_cons] at hlen ⊢
      omega
    have hih := ih (u ++ v) hpt hcov hlen'
    rcases List.mem_append.mp hb' with h | h
    · obtain ⟨a', ha', h'⟩ := hih b' (List.mem_append_left _ h)
      exact ⟨a', List.mem_cons_of_mem _ ha', h'⟩
    · rcases List.mem_cons.mp h with h | h
      · exact ⟨a, List.mem_cons_self _ _, h ▸ hab⟩
      · obtain ⟨a', ha', h'⟩ := hih b' (List.mem_append_right _ h)
        exact ⟨a', List.mem_cons_of_mem _ ha', h'⟩

/-- In a list no two elements of which are equal under `==`, two elements that
are equal under `==` are the same element. -/
theorem eq_of_same_of_pairwise {l : List T} (hp : l.Pairwise (fun a b => same a b = false))
    {a b : T} (ha : a ∈ l) (hb : b ∈ l) (h : same a b = true) : a = b := by
  by_contra hne
  have hsymm : Symmetric (fun a b : T => same a b = false) := by
    intro x y hxy
    rw [same_comm]
    exact hxy
  have := hp.forall hsymm ha hb hne
  rw [h] at this
  exact absurd this (by decide)

/-- A list of values equal to themselves, no two of which are equal under `==`,
holds no value twice. -/
theorem nodup_of_pairwise_of_refl {l : List T} (hp : l.Pairwise (fun a b => same a b = false))
    (hr : ∀ a, a ∈ l → same a a = true) : l.Nodup := by
  induction l with
  | nil => exact List.nodup_nil
  | cons a t ih =>
    rw [List.nodup_cons]
    obtain ⟨hat, hpt⟩ := List.pairwise_cons.mp hp
    refine ⟨?_, ih hpt (fun x hx => hr x (List.mem_cons_of_mem _ hx))⟩
    intro ha
    have := hat a ha
    rw [hr a (List.mem_cons_self _ _)] at this
    exact absurd this (by decide)

end CoverLemmas

section MapLemmas

variable {K : Type} [Comparable K]

theorem Map.ext_keys {m₁ m₂ : Map K} (h : m₁.keys = m₂.keys) : m₁ = m₂ := by
  cases m₁; cases m₂; cases h; rfl

theorem Map.contains_iff (m : Map K) (x : K) :
    m.contains x = true ↔ ∃ a, a ∈ m.keys ∧ same a x = true := by
  unfold Map.contains
  rw [List.any_eq_true]

theorem Map.contains_make (k : K) : (Map.make : Map K).contains k = false := by
  simp [Map.contains, Map.make]

theorem Map.keys_insert_of_not_contains (m : Map K) (k : K)
    (hk : Comparable.hashable k = true) (h : m.contains k = false) :
    (m.insert k).keys = m.keys ++ [k] := by
  unfold Map.insert
  rw [dif_pos hk, dif_neg (by rw [h]; decide)]

theorem Map.keys_insert_of_contains (m : Map K) (k : K)
    (hk : Comparable.hashable k = true) (h : m.contains k = true) :
    (m.insert k).keys = m.keys.map (fun a => if same a k = true then k else a) := by
  unfold Map.insert
  rw [dif_pos hk, dif_pos h]

/-- After `m[k] = struct{}{}` the map holds the keys it held and `k`. -/
theorem Map.contains_insert (m : Map K) (k x : K) (hk : Comparable.hashable k = true) :
    (m.insert k).contains x = true ↔ m.contains x = true ∨ same k x = true := by
  by_cases h : m.contains k = true
  · rw [Map.contains_iff, Map.keys_insert_of_contains m k hk h, Map.contains_iff]
    constructor
    · rintro ⟨b, hb, hbx⟩
      obtain ⟨a, ha, rfl⟩ := List.mem_map.mp hb
      by_cases hak : same a k = true
      · rw [if_pos hak] at hbx
        exact Or.inr hbx
      · rw [if_neg hak] at hbx
        exact Or.inl ⟨a, ha, hbx⟩
    · rintro (⟨a, ha, hax⟩ | hkx)
      · by_cases hak : same a k = true
        · refine ⟨k, List.mem_map.mpr ⟨a, ha, by rw [if_pos hak]⟩, ?_⟩
          rw [← same_congr_left hak x]
          exact hax
        · exact ⟨a, List.mem_map.mpr ⟨a, ha, by rw [if_neg hak]⟩, hax⟩
      · obtain ⟨a, ha, hak⟩ := (Map.contains_iff m k).mp h
        exact ⟨k, List.mem_map.mpr ⟨a, ha, by rw [if_pos hak]⟩, hkx⟩
  · have h' : m.contains k = false := Bool.eq_false_iff.mpr h
    rw [Map.contains_iff, Map.keys_insert_of_not_contains m k hk h', Map.contains_iff]
    constructor
    · rintro ⟨b, hb, hbx⟩
      rcases List.mem_append.mp hb with hb | hb
      · exact Or.inl ⟨b, hb, hbx⟩
      · rw [List.mem_singleton.mp hb] at hbx
        exact Or.inr hbx
    · rintro (⟨a, ha, hax⟩ | hkx)
      · exact ⟨a, List.mem_append_left _ ha, hax⟩
      · exact ⟨k, List.mem_append_right _ (List.mem_singleton_self k), hkx⟩

/-- After `delete(m, k)` the map holds the keys it held that are not equal to
`k`. -/
theorem Map.contains_delete (m : Map K) (k x : K) :
    (m.delete k).contains x = true ↔ m.contains x = true ∧ same k x = false := by
  rw [Map.contains_iff, Map.contains_iff]
  unfold Map.delete
  simp only [List.mem_filter, Bool.not_eq_true']
  constructor
  · rintro ⟨a, ⟨ha, hak⟩, hax⟩
    refine ⟨⟨a, ha, hax⟩, ?_⟩
    apply Bool.eq_false_iff.mpr
    intro hkx
    have := same_trans hax ((same_comm x k).trans hkx)
    rw [hak] at this
    exact absurd this (by decide)
  · rintro ⟨⟨a, ha, hax⟩, hkx⟩
    refine ⟨a, ⟨ha, ?_⟩, hax⟩
    apply Bool.eq_false_iff.mpr
    intro hak
    have := same_trans ((same_comm k a).trans hak) hax
    rw [hkx] at this
    exact absurd this (by decide)

/-- Storing a key keeps the number of keys when the map holds it and adds one
when it does not. -/
theorem Map.length_insert (m : Map K) (k : K) (hk : Comparable.hashable k = true) :
    (m.insert k).keys.length = if m.contains k = true then m.keys.length
      else m.keys.length + 1 := by
  by_cases h : m.contains k = true
  · rw [if_pos h, Map.keys_insert_of_contains m k hk h, List.length_map]
  · rw [if_neg h, Map.keys_insert_of_not_contains m k hk (Bool.eq_false_iff.mpr h),
      List.length_append, List.length_singleton]

/-- Storing a key that is in the map, and equal to itself, changes nothing. -/
theorem Map.insert_of_mem (m : Map K) (k : K) (hk : k ∈ m.keys) (hr : same k k = true) :
    m.insert k = m := by
  apply Map.ext_keys
  have hc : m.contains k = true := (Map.contains_iff m k).mpr ⟨k, hk, hr⟩
  rw [Map.keys_insert_of_contains m k (m.hashed k hk) hc]
  conv_rhs => rw [← List.map_id m.keys]
  apply List.map_congr_left
  intro a ha
  by_cases hak : same a k = true
  · rw [if_pos hak]
    exact (eq_of_same_of_pairwise m.distinct ha hk hak).symm
  · rw [if_neg hak]
    rfl

/-- After `m[k] = struct{}{}` the key `k` itself is in the map. -/
theorem Map.mem_insert_self (m : Map K) (k : K) (hk : Comparable.hashable k = true) :
    k ∈ (m.insert k).keys := by
  by_cases h : m.contains k = true
  · rw [Map.keys_insert_of_contains m k hk h]
    obtain ⟨a, ha, hak⟩ := (Map.contains_iff m k).mp h
    exact List.mem_map.mpr ⟨a, ha, by rw [if_pos hak]⟩
  · rw [Map.keys_insert_of_not_contains m k hk (Bool.eq_false_iff.mpr h)]
    exact List.mem_append_right _ (List.mem_singleton_self k)

/-- Deleting a key the map does not hold changes nothing. -/
theorem Map.delete_of_not_contains (m : Map K) (k : K) (h : m.contains k = false) :
    m.delete k = m := by
  apply Map.ext_keys
  unfold Map.delete
  simp only
  apply List.filter_eq_self.mpr
  intro a ha
  cases hak : same a k with
  | false => rfl
  | true =>
    have := (Map.contains_iff m k).mpr ⟨a, ha, hak⟩
    rw [h] at this
    exact absurd this (by decide)

theorem Map.keys_delete (m : Map K) (k : K) :
    (m.delete k).keys = m.keys.filter (fun a => !same a k) := rfl

/-- The keys that a key of a map is equal to are that key alone. -/
theorem Map.same_key_iff (m : Map K) {a b : K} (ha : a ∈ m.keys) (hb : b ∈ m.keys)
    (h : same a b = true) : a = b :=
  eq_of_same_of_pairwise m.distinct ha hb h

end MapLemmas

section NilMapLemmas

variable {K : Type} [Comparable K]

theorem nodup_keysOf (m : Option (Map K)) (hr : ∀ k, k ∈ keysOf m → same k k = true) :
    (keysOf m).Nodup := by
  cases m with
  | none => exact List.nodup_nil
  | some m => exact nodup_of_pairwise_of_refl m.distinct hr

theorem pairwise_keysOf (m : Option (Map K)) :
    (keysOf m).Pairwise (fun a b => same a b = false) := by
  cases m with
  | none => exact List.Pairwise.nil
  | some m => exact m.distinct

theorem hashable_of_mem_keysOf (m : Option (Map K)) (k : K) (h : k ∈ keysOf m) :
    Comparable.hashable k = true := by
  cases m with
  | none => exact absurd h (List.not_mem_nil _)
  | some m => exact m.hashed k h

/-- A lookup finds the keys equal to one of the map; it panics on a key that
cannot be hashed. -/
theorem lookup_iff (m : Option (Map K)) (k : K) :
    lookup m k = .ok true ↔
      Comparable.hashable k = true ∧ ∃ a, a ∈ keysOf m ∧ same a k = true := by
  unfold lookup
  by_cases hk : Comparable.hashable k = true
  · rw [if_pos hk]
    cases m with
    | none => simp [keysOf, hk]
    | some m =>
      simp only [Except.ok.injEq, keysOf, hk, true_and]
      exact Map.contains_iff m k
  · rw [if_neg hk]
    simp [hk]

theorem lookup_of_hashable (m : Option (Map K)) (k : K) (hk : Comparable.hashable k = true) :
    lookup m k = .ok ((keysOf m).any (fun a => same a k)) := by
  unfold lookup
  rw [if_pos hk]
  cases m <;> rfl

theorem lookup_of_not_hashable (m : Option (Map K)) (k : K)
    (hk : Comparable.hashable k = false) : lookup m k = .error .unhashableType := by
  unfold lookup
  rw [if_neg (by rw [hk]; decide)]

theorem lenMap_eq (m : Option (Map K)) : lenMap m = ((keysOf m).length : Int) := by
  cases m with
  | none => rfl
  | some m => rfl

theorem rangeMap_perm (order : List K → List K) (horder : IsOrder order)
    (m : Option (Map K)) : (rangeMap order m).Perm (keysOf m) := by
  cases m with
  | none => exact List.Perm.refl _
  | some m => exact horder m.keys

end NilMapLemmas

end gods
namespace gods.array

variable {T : Type}

/-! ## Search, Contains, RemoveValue -/

/-- The search loop stops at the first element equal to `value` under `==`, when
the comparisons before it are false: it returns the position of that element. -/
theorem Search_range_found [Comparable T] (value : T) (l₁ : List T) (e : T) (l₂ : List T)
    (index result : Int) (h₁ : ∀ x, x ∈ l₁ → Comparable.eq x value = some false)
    (he : Comparable.eq e value = some true) :
    Array.Search.range value (l₁ ++ e :: l₂) index result =
      .ok (index + (l₁.length : Int)) := by
  induction l₁ generalizing index with
  | nil =>
    rw [List.nil_append, Array.Search.range]
    unfold goEq
    rw [he]
    simp
  | cons x xs ih =>
    rw [List.cons_append, Array.Search.range]
    unfold goEq
    rw [h₁ x (List.mem_cons_self _ _)]
    simp only
    rw [ih (index + 1) (fun y hy => h₁ y (List.mem_cons_of_mem _ hy)), List.length_cons]
    push_cast
    congr 1
    omega

/-- The search loop leaves `result` untouched when every comparison is false. -/
theorem Search_range_none [Comparable T] (value : T) (l : List T) (index result : Int)
    (h : ∀ x, x ∈ l → Comparable.eq x value = some false) :
    Array.Search.range value l index result = .ok result := by
  induction l generalizing index with
  | nil => rfl
  | cons x xs ih =>
    rw [Array.Search.range]
    unfold goEq
    rw [h x (List.mem_cons_self _ _)]
    simp only
    exact ih (index + 1) (fun y hy => h y (List.mem_cons_of_mem _ hy))

/-- The search loop panics at the first comparison that panics, when the
comparisons before it are false. -/
theorem Search_range_panic [Comparable T] (value : T) (l₁ : List T) (e : T) (l₂ : List T)
    (index result : Int) (h₁ : ∀ x, x ∈ l₁ → Comparable.eq x value = some false)
    (he : Comparable.eq e value = none) :
    Array.Search.range value (l₁ ++ e :: l₂) index result = .error .uncomparableType := by
  induction l₁ generalizing index with
  | nil =>
    rw [List.nil_append, Array.Search.range]
    unfold goEq
    rw [he]
  | cons x xs ih =>
    rw [List.cons_append, Array.Search.range]
    unfold goEq
    rw [h₁ x (List.mem_cons_self _ _)]
    simp only
    exact ih (index + 1) (fun y hy => h₁ y (List.mem_cons_of_mem _ hy))

/-- Every comparison with `value` is false, or there is a first one that is not. -/
theorem Search_range_cases [Comparable T] (value : T) (l : List T) :
    (∀ x, x ∈ l → Comparable.eq x value = some false) ∨
    ∃ l₁ e l₂, l = l₁ ++ e :: l₂ ∧ (∀ x, x ∈ l₁ → Comparable.eq x value = some false) ∧
      (Comparable.eq e value = some true ∨ Comparable.eq e value = none) := by
  induction l with
  | nil => exact Or.inl (fun x hx => absurd hx (List.not_mem_nil _))
  | cons x xs ih =>
    cases hx : Comparable.eq x value with
    | none => exact Or.inr ⟨[], x, xs, rfl, fun y hy => absurd hy (List.not_mem_nil _), Or.inr hx⟩
    | some b =>
      cases b with
      | true =>
        exact Or.inr ⟨[], x, xs, rfl, fun y hy => absurd hy (List.not_mem_nil _), Or.inl hx⟩
      | false =>
        rcases ih with h | ⟨l₁, e, l₂, hl, h₁, he⟩
        · left
          intro y hy
          rcases List.mem_cons.mp hy with h' | h'
          · rw [h']; exact hx
          · exact h y h'
        · right
          refine ⟨x :: l₁, e, l₂, by rw [hl, List.cons_append], ?_, he⟩
          intro y hy
          rcases List.mem_cons.mp hy with h' | h'
          · rw [h']; exact hx
          · exact h₁ y h'

/-- Claim C15, with `==` for "equals": when some element is equal to `v` and the
comparisons before it are false, `Search(v)` is the index of the first such
element (in range, `Get` there gives that element, the elements at smaller
indices are not equal to `v`) and `Contains(v)` is true; when every comparison
is false, `Search(v)` is `-1` and `Contains(v)` is false; when a comparison
panics before any is true, both panic; one of the three is the case; and
`Contains(v)` is `Search(v) != -1`. -/
theorem Search_spec [Comparable T] [Inhabited T] (a : Array T) (v : T) :
    (∀ l₁ e l₂, a.array = l₁ ++ e :: l₂ →
      (∀ x, x ∈ l₁ → Comparable.eq x v = some false) → Comparable.eq e v = some true →
      a.Search v = .ok (l₁.length : Int) ∧ (l₁.length : Int) < a.Size ∧
        a.Get (l₁.length : Int) = .ok (e, true) ∧
        (∀ j, 0 ≤ j → j < (l₁.length : Int) →
          ∃ w, a.Get j = .ok (w, true) ∧ same w v = false) ∧
        a.Contains v = .ok true) ∧
    ((∀ x, x ∈ a.array → Comparable.eq x v = some false) →
      a.Search v = .ok (-1) ∧ a.Contains v = .ok false) ∧
    (∀ l₁ e l₂, a.array = l₁ ++ e :: l₂ →
      (∀ x, x ∈ l₁ → Comparable.eq x v = some false) → Comparable.eq e v = none →
      a.Search v = .error .uncomparableType ∧ a.Contains v = .error .uncomparableType) ∧
    ((∀ x, x ∈ a.array → Comparable.eq x v = some false) ∨
      ∃ l₁ e l₂, a.array = l₁ ++ e :: l₂ ∧
        (∀ x, x ∈ l₁ → Comparable.eq x v = some false) ∧
        (Comparable.eq e v = some true ∨ Comparable.eq e v = none)) ∧
    (∀ i, a.Search v = .ok i → a.Contains v = .ok (i != -1)) := by
  refine ⟨?_, ?_, ?_, Search_range_cases v a.array, ?_⟩
  · intro l₁ e l₂ hl h₁ he
    have hs : a.Search v = .ok (l₁.length : Int) := by
      rw [Array.Search.eq_1, hl, Search_range_found v l₁ e l₂ 0 (-1) h₁ he]
      simp
    have hlen : a.array.length = l₁.length + (l₂.length + 1) := by
      rw [hl, List.length_append, List.length_cons]
    refine ⟨hs, by unfold Array.Size len; omega, ?_, ?_, ?_⟩
    · have hi : (l₁.length : Int).toNat < a.array.length := by omega
      rw [Get_of_lt a _ (by omega) hi]
      congr 2
      simp only [hl, List.get_eq_getElem, Int.toNat_ofNat]
      rw [List.getElem_append_right (le_refl _)]
      simp
    · intro j hj₀ hj
      have hi : j.toNat < a.array.length := by omega
      have hj₁ : j.toNat < l₁.length := by omega
      refine ⟨_, Get_of_lt a _ hj₀ hi, ?_⟩
      have hmem : a.array.get ⟨j.toNat, hi⟩ ∈ l₁ := by
        simp only [hl, List.get_eq_getElem]
        rw [List.getElem_append_left hj₁]
        exact List.getElem_mem _
      unfold same
      rw [h₁ _ hmem]
      rfl
    · rw [Array.Contains.eq_1, hs]
      simp only [Except.ok.injEq, bne_iff_ne, ne_eq]
      omega
  · intro h
    have hs : a.Search v = .ok (-1) := by
      rw [Array.Search.eq_1, Search_range_none v a.array 0 (-1) h]
    refine ⟨hs, ?_⟩
    rw [Array.Contains.eq_1, hs]
    rfl
  · intro l₁ e l₂ hl h₁ he
    have hs : a.Search v = .error .uncomparableType := by
      rw [Array.Search.eq_1, hl, Search_range_panic v l₁ e l₂ 0 (-1) h₁ he]
    refine ⟨hs, ?_⟩
    rw [Array.Contains.eq_1, hs]
  · intro i hi
    rw [Array.Contains.eq_1, hi]

/-- Witness for C15 on `[1, 2, 3, 2]`: the value `2` is found at index `1`, the
value `0` is not found. -/
theorem Search_spec_witness :
    ((NewFrom [(1 : Int), 2, 3, 2] []).Search 2 = .ok 1 ∧
      (NewFrom [(1 : Int), 2, 3, 2] []).Get 1 = .ok (2, true) ∧
      (NewFrom [(1 : Int), 2, 3, 2] []).Contains 2 = .ok true) ∧
    (NewFrom [(1 : Int), 2, 3, 2] []).Search 0 = .ok (-1) ∧
      (NewFrom [(1 : Int), 2, 3, 2] []).Contains 0 = .ok false := by
  have h := (Search_spec (NewFrom [(1 : Int), 2, 3, 2] []) 2).1 [1] 2 [3, 2] rfl
    (by decide) (by decide)
  have h₀ := (Search_spec (NewFrom [(1 : Int), 2, 3, 2] []) 0).2.1 (by decide)
  exact ⟨⟨h.1, h.2.2.1, h.2.2.2.2⟩, h₀⟩

/-- Claim C15 as stated fails on a NaN: the `float64` array `[NaN]` holds the
value NaN, yet `Search(NaN)` is `-1` and `Contains(NaN)` is false, because
`NaN == NaN` is false. -/
theorem Search_NaN :
    Float64.NaN ∈ (NewFrom [Float64.NaN] []).array ∧
    (NewFrom [Float64.NaN] []).Search Float64.NaN = .ok (-1) ∧
    (NewFrom [Float64.NaN] []).Contains Float64.NaN = .ok false := by
  decide

/-- On the `any` array `[1, []int{1}]`, `Search([]int{1})` panics: the second
comparison is of two slices. -/
theorem Search_uncomparable :
    (NewFrom [Any.int 1, Any.slice [1]] []).Search (Any.slice [1]) =
      .error .uncomparableType := by
  decide

/-- Claim C9, with `==` for "occurs": when some element is equal to `v` and the
comparisons before it are false, `RemoveValue(v)` returns true and removes the
first such element, keeping every other element in order; when every
comparison is false it returns false and leaves the array unchanged; when a
comparison panics before any is true it panics; one of the three is the
case. -/
theorem RemoveValue_spec [Comparable T] [Inhabited T] (a : Array T) (v : T) :
    (∀ l₁ e l₂, a.array = l₁ ++ e :: l₂ →
      (∀ x, x ∈ l₁ → Comparable.eq x v = some false) → Comparable.eq e v = some true →
      a.RemoveValue v = .ok (true, { a with array := l₁ ++ l₂ })) ∧
    ((∀ x, x ∈ a.array → Comparable.eq x v = some false) →
      a.RemoveValue v = .ok (false, a)) ∧
    (∀ l₁ e l₂, a.array = l₁ ++ e :: l₂ →
      (∀ x, x ∈ l₁ → Comparable.eq x v = some false) → Comparable.eq e v = none →
      a.RemoveValue v = .error .uncomparableType) ∧
    ((∀ x, x ∈ a.array → Comparable.eq x v = some false) ∨
      ∃ l₁ e l₂, a.array = l₁ ++ e :: l₂ ∧
        (∀ x, x ∈ l₁ → Comparable.eq x v = some false) ∧
        (Comparable.eq e v = some true ∨ Comparable.eq e v = none)) := by
  refine ⟨?_, ?_, ?_, Search_range_cases v a.array⟩
  · intro l₁ e l₂ hl h₁ he
    have hs : a.Search v = .ok (l₁.length : Int) := by
      rw [Array.Search.eq_1, hl, Search_range_found v l₁ e l₂ 0 (-1) h₁ he]
      simp
    have hi : (l₁.length : Int).toNat < a.array.length := by
      rw [hl, List.length_append, List.length_cons]; omega
    have hrem := Remove_of_lt a (l₁.length : Int) (by omega) hi
    have harr : a.array.take (l₁.length : Int).toNat ++
        a.array.drop ((l₁.length : Int).toNat + 1) = l₁ ++ l₂ := by
      rw [Int.toNat_ofNat, hl]
      simp
    rw [harr] at hrem
    rw [Array.RemoveValue.eq_1, hs]
    simp only
    rw [if_pos (by omega), hrem]
  · intro h
    rw [Array.RemoveValue.eq_1, Array.Search.eq_1, Search_range_none v a.array 0 (-1) h]
    simp
  · intro l₁ e l₂ hl h₁ he
    rw [Array.RemoveValue.eq_1, Array.Search.eq_1, hl,
      Search_range_panic v l₁ e l₂ 0 (-1) h₁ he]

/-- Witness for C9 on `[1, 2, 3, 2]`: the first `2` is removed, `0` is not
found. -/
theorem RemoveValue_spec_witness :
    (NewFrom [(1 : Int), 2, 3, 2] []).RemoveValue 2 =
      .ok (true, { NewFrom [(1 : Int), 2, 3, 2] [] with array := [1] ++ [3, 2] }) ∧
    (NewFrom [(1 : Int), 2, 3, 2] []).RemoveValue 0 =
      .ok (false, NewFrom [(1 : Int), 2, 3, 2] []) :=
  ⟨(RemoveValue_spec (NewFrom [(1 : Int), 2, 3, 2] []) 2).1 [1] 2 [3, 2] rfl
      (by decide) (by decide),
   (RemoveValue_spec (NewFrom [(1 : Int), 2, 3, 2] []) 0).2.1 (by decide)⟩

/-- Claim C9 as stated fails on a NaN: the `float64` array `[NaN]` holds the
value NaN, yet `RemoveValue(NaN)` returns false and removes nothing. -/
theorem RemoveValue_NaN :
    Float64.NaN ∈ (NewFrom [Float64.NaN] []).array ∧
    (NewFrom [Float64.NaN] []).RemoveValue Float64.NaN =
      .ok (false, NewFrom [Float64.NaN] []) := by
  decide

end gods.array
namespace gods

section FirstOccurrences

variable {T : Type} [Comparable T]

theorem firstOccurrencesFrom_zero (old : List T) (k : Nat) :
    firstOccurrencesFrom old k 0 = [] := by
  simp [firstOccurrencesFrom]

theorem firstOccurrencesFrom_succ (old : List T) (k m : Nat) (h : k < old.length) :
    firstOccurrencesFrom old k (m + 1) =
      (if (old.take k).any (fun y => same y old[k]) = true then [] else [old[k]]) ++
        firstOccurrencesFrom old (k + 1) m := by
  unfold firstOccurrencesFrom
  rw [List.range'_succ, List.filterMap_cons]
  simp only [List.get?_eq_getElem?, List.getElem?_eq_getElem h]
  by_cases hm : (old.take k).any (fun y => same y old[k]) = true
  · simp [hm]
  · simp [hm]

theorem mem_firstOccurrencesFrom (old : List T) (k m : Nat) (x : T) :
    x ∈ firstOccurrencesFrom old k m ↔
      ∃ i, k ≤ i ∧ i < k + m ∧ old.get? i = some x ∧
        (old.take i).any (fun y => same y x) = false := by
  unfold firstOccurrencesFrom
  rw [List.mem_filterMap]
  constructor
  · rintro ⟨i, hi, hf⟩
    rw [List.mem_range'_1] at hi
    refine ⟨i, hi.1, hi.2, ?_⟩
    cases hg : old.get? i with
    | none => rw [hg] at hf; exact absurd hf (by simp)
    | some y =>
      rw [hg] at hf
      by_cases hy : (old.take i).any (fun z => same z y) = true
      · simp [hy] at hf
      · simp only [] at hf
        rw [if_neg hy] at hf
        injection hf with hf
        subst hf
        exact ⟨rfl, Bool.eq_false_iff.mpr hy⟩
  · rintro ⟨i, h₁, h₂, hg, hn⟩
    refine ⟨i, List.mem_range'_1.mpr ⟨h₁, h₂⟩, ?_⟩
    rw [hg]
    simp [hn]

theorem firstOccurrencesFrom_sublist (old : List T) (m : Nat) :
    ∀ k, k + m = old.length → (firstOccurrencesFrom old k m).Sublist (old.drop k) := by
  induction m with
  | zero =>
    intro k _
    rw [firstOccurrencesFrom_zero]
    exact List.nil_sublist _
  | succ m ih =>
    intro k hk
    have h : k < old.length := by omega
    rw [firstOccurrencesFrom_succ old k m h, List.drop_eq_getElem_cons h]
    have ih' := ih (k + 1) (by omega)
    by_cases hm : (old.take k).any (fun y => same y old[k]) = true
    · rw [if_pos hm]
      exact List.Sublist.cons _ ih'
    · rw [if_neg hm]
      exact List.Sublist.cons₂ _ ih'

/-- No two of the first occurrences are equal under `==`. -/
theorem pairwise_firstOccurrencesFrom (old : List T) (m : Nat) :
    ∀ k, k + m ≤ old.length →
      (firstOccurrencesFrom old k m).Pairwise (fun a b => same a b = false) := by
  induction m with
  | zero =>
    intro k _
    rw [firstOccurrencesFrom_zero]
    exact List.Pairwise.nil
  | succ m ih =>
    intro k hk
    have h : k < old.length := by omega
    rw [firstOccurrencesFrom_succ old k m h]
    have ih' := ih (k + 1) (by omega)
    by_cases hm : (old.take k).any (fun y => same y old[k]) = true
    · rw [if_pos hm, List.nil_append]
      exact ih'
    · rw [if_neg hm, List.singleton_append, List.pairwise_cons]
      refine ⟨?_, ih'⟩
      intro x hx
      obtain ⟨i, hi₁, -, hg, hn⟩ := (mem_firstOccurrencesFrom old (k + 1) m x).mp hx
      have hmem : old[k] ∈ old.take i := by
        rw [List.mem_take_iff_getElem]
        exact ⟨k, by omega, rfl⟩
      apply Bool.eq_false_iff.mpr
      intro hc
      have hany : (old.take i).any (fun y => same y x) = true :=
        List.any_eq_true.mpr ⟨old[k], hmem, hc⟩
      rw [hn] at hany
      exact absurd hany (by decide)

/-- Every element is a first occurrence or equal under `==` to one. -/
theorem cover_firstOccurrences (old : List T) (i : Nat) :
    ∀ x, old.get? i = some x →
      x ∈ firstOccurrences old ∨ ∃ y, y ∈ firstOccurrences old ∧ same y x = true := by
  induction i using Nat.strong_induction_on with
  | _ i ih =>
    intro x hx
    have hi : i < old.length := by
      by_contra hc
      rw [List.get?_eq_none.mpr (by omega)] at hx
      cases hx
    by_cases hm : (old.take i).any (fun y => same y x) = true
    · obtain ⟨y, hy, hyx⟩ := List.any_eq_true.mp hm
      obtain ⟨j, hj, hjy⟩ := List.mem_take_iff_getElem.mp hy
      have hjlt : j < i := by omega
      have hjold : old.get? j = some y := by
        rw [List.get?_eq_getElem?, List.getElem?_eq_getElem (by omega)]
        exact congrArg some hjy
      rcases ih j hjlt y hjold with h | ⟨z, hz, hzy⟩
      · exact Or.inr ⟨y, h, hyx⟩
      · exact Or.inr ⟨z, hz, same_trans hzy hyx⟩
    · left
      unfold firstOccurrences
      rw [mem_firstOccurrencesFrom]
      exact ⟨i, Nat.zero_le _, by omega, hx, Bool.eq_false_iff.mpr hm⟩

end FirstOccurrences

end gods

namespace gods.array

variable {T : Type}

/-! ## Unique -/

/-- The loop of `Unique`, entered at position `k` with `seen` holding the values
before `k`, runs `m` passes over elements that can be hashed: it appends to
`result` the first occurrences found in them. -/
theorem Unique_loop_steps [Comparable T] (arr : List T) (m : Nat) :
    ∀ (k : Nat) (seen : Map T) (result : List T), k + m ≤ arr.length →
      (∀ x, x ∈ arr.take (k + m) → Comparable.hashable x = true) →
      (∀ x, seen.contains x = true ↔ ∃ y, y ∈ arr.take k ∧ same y x = true) →
      ∃ seen' : Map T,
        (∀ x, seen'.contains x = true ↔ ∃ y, y ∈ arr.take (k + m) ∧ same y x = true) ∧
        Array.Unique.loop arr (k : Int) (some seen) result =
          Array.Unique.loop arr ((k + m : Nat) : Int) (some seen')
            (result ++ firstOccurrencesFrom arr k m) := by
  induction m with
  | zero =>
    intro k seen result _ _ hseen
    refine ⟨seen, hseen, ?_⟩
    rw [firstOccurrencesFrom_zero, List.append_nil]
    rfl
  | succ m ih =>
    intro k seen result hk hh hseen
    have h : k < arr.length := by omega
    have hi : (k : Int).toNat < arr.length := by omega
    have hget : arr.get ⟨(k : Int).toNat, hi⟩ = arr[k] := by
      simp only [List.get_eq_getElem, Int.toNat_ofNat]
    have hcast : ((k : Int) + 1) = ((k + 1 : Nat) : Int) := by push_cast; rfl
    have hkm : k + 1 + m = k + (m + 1) := by omega
    have hmemk : arr[k] ∈ arr.take (k + (m + 1)) := by
      rw [List.mem_take_iff_getElem]
      exact ⟨k, by omega, rfl⟩
    have hhk : Comparable.hashable arr[k] = true := hh _ hmemk
    have htake : ∀ x, (∃ y, y ∈ arr.take (k + 1) ∧ same y x = true) ↔
        (∃ y, y ∈ arr.take k ∧ same y x = true) ∨ same arr[k] x = true := by
      intro x
      rw [List.take_succ, List.getElem?_eq_getElem h]
      simp only [Option.toList_some, List.mem_append, List.mem_singleton]
      constructor
      · rintro ⟨y, hy | hy, hyx⟩
        · exact Or.inl ⟨y, hy, hyx⟩
        · exact Or.inr (hy ▸ hyx)
      · rintro (⟨y, hy, hyx⟩ | hx)
        · exact ⟨y, Or.inl hy, hyx⟩
        · exact ⟨arr[k], Or.inr rfl, hx⟩
    have hh' : ∀ x, x ∈ arr.take (k + 1 + m) → Comparable.hashable x = true := by
      rw [hkm]; exact hh
    rw [Array.Unique.loop.eq_1, if_pos (by unfold len; omega), index_ok _ _ (by omega) hi, hget,
      firstOccurrencesFrom_succ arr k m h, hcast]
    simp only
    have hlook : lookup (some seen) arr[k] = .ok (seen.contains arr[k]) := by
      unfold lookup
      rw [if_pos hhk]
    rw [hlook]
    by_cases hs : seen.contains arr[k] = true
    · have hany : (arr.take k).any (fun y => same y arr[k]) = true := by
        obtain ⟨y, hy, hyk⟩ := (hseen _).mp hs
        exact List.any_eq_true.mpr ⟨y, hy, hyk⟩
      rw [hs, if_pos hany, List.nil_append]
      simp only
      obtain ⟨seen', h₁, h₂⟩ := ih (k + 1) seen result (by omega) hh' (by
        intro x
        rw [htake, hseen]
        constructor
        · exact Or.inl
        · rintro (hx | hx)
          · exact hx
          · obtain ⟨y, hy, hyk⟩ := (hseen _).mp hs
            exact ⟨y, hy, same_trans hyk hx⟩)
      refine ⟨seen', ?_, ?_⟩
      · rw [← hkm]; exact h₁
      · rw [h₂, hkm]
    · have hs' : seen.contains arr[k] = false := Bool.eq_false_iff.mpr hs
      have hany : ¬ (arr.take k).any (fun y => same y arr[k]) = true := by
        intro hc
        obtain ⟨y, hy, hyk⟩ := List.any_eq_true.mp hc
        exact hs ((hseen _).mpr ⟨y, hy, hyk⟩)
      rw [hs', if_neg hany]
      simp only
      have hassign : assign (some seen) arr[k] = .ok (some (seen.insert arr[k])) := by
        unfold assign
        simp only
        rw [if_pos hhk]
      rw [hassign]
      simp only
      obtain ⟨seen', h₁, h₂⟩ := ih (k + 1) (seen.insert arr[k]) (append result [arr[k]])
        (by omega) hh' (by
          intro x
          rw [Map.contains_insert _ _ _ hhk, htake, hseen])
      refine ⟨seen', ?_, ?_⟩
      · rw [← hkm]; exact h₁
      · rw [h₂, hkm]
        simp [append]

/-- On an array whose elements can be hashed, `Unique()` returns and leaves the
elements that are not equal to an earlier one. -/
theorem Unique_eq [Comparable T] (a : Array T)
    (hh : ∀ x, x ∈ a.array → Comparable.hashable x = true) :
    a.Unique = .ok { a with array := firstOccurrences a.array } := by
  obtain ⟨seen', -, h⟩ := Unique_loop_steps a.array a.array.length 0 Map.make []
    (by omega) (by
      intro x hx
      exact hh x (List.mem_of_mem_take hx))
    (by
      intro x
      rw [Map.contains_make]
      simp)
  rw [Array.Unique.eq_1]
  simp only [Nat.cast_zero, Nat.zero_add, List.nil_append] at h
  rw [h, Array.Unique.loop.eq_1, if_neg (by unfold len; omega)]
  rfl

/-- Claim C12, with `==` for "the same value", on an array whose elements can be
hashed: `Unique()` leaves the subsequence of `old` that keeps each element not
equal to an earlier one; no two of its elements are equal, every element of
`old` is in it or equal to one of its elements, and it is a subsequence of
`old`; when every element is equal to itself (no NaN) it holds no value twice
and a value equal to each value of `old`; `[2,3,1,2,1,4]` becomes `[2,3,1,4]`. -/
theorem Unique_spec [Comparable T] (a : Array T)
    (hh : ∀ x, x ∈ a.array → Comparable.hashable x = true) :
    a.Unique = .ok { a with array := firstOccurrences a.array } ∧
    (firstOccurrences a.array).Pairwise (fun x y => same x y = false) ∧
    (∀ x, x ∈ a.array →
      x ∈ firstOccurrences a.array ∨ ∃ y, y ∈ firstOccurrences a.array ∧ same y x = true) ∧
    (firstOccurrences a.array).Sublist a.array ∧
    ((∀ x, x ∈ a.array → same x x = true) →
      (firstOccurrences a.array).Nodup ∧
      ∀ x, x ∈ a.array → ∃ y, y ∈ firstOccurrences a.array ∧ same y x = true) ∧
    firstOccurrences [(2 : Int), 3, 1, 2, 1, 4] = [2, 3, 1, 4] := by
  have hsub : (firstOccurrences a.array).Sublist a.array := by
    have h := firstOccurrencesFrom_sublist a.array a.array.length 0 (by omega)
    simpa [firstOccurrences] using h
  have hpair : (firstOccurrences a.array).Pairwise (fun x y => same x y = false) :=
    pairwise_firstOccurrencesFrom a.array a.array.length 0 (by omega)
  have hcover : ∀ x, x ∈ a.array →
      x ∈ firstOccurrences a.array ∨ ∃ y, y ∈ firstOccurrences a.array ∧ same y x = true := by
    intro x hx
    obtain ⟨i, hi⟩ := List.mem_iff_get?.mp hx
    exact cover_firstOccurrences a.array i x hi
  refine ⟨Unique_eq a hh, hpair, hcover, hsub, ?_, by decide⟩
  · intro hr
    refine ⟨nodup_of_pairwise_of_refl hpair (fun x hx => hr x (hsub.subset hx)), ?_⟩
    intro x hx
    rcases hcover x hx with h | h
    · exact ⟨x, h, hr x hx⟩
    · exact h

/-- Witness for C12 on the `int` array `[2, 3, 1, 2, 1, 4]`. -/
theorem Unique_spec_witness :
    (NewFrom [(2 : Int), 3, 1, 2, 1, 4] []).Unique =
      .ok { NewFrom [(2 : Int), 3, 1, 2, 1, 4] [] with
        array := firstOccurrences [(2 : Int), 3, 1, 2, 1, 4] } ∧
    firstOccurrences [(2 : Int), 3, 1, 2, 1, 4] = [2, 3, 1, 4] :=
  have h := Unique_spec (NewFrom [(2 : Int), 3, 1, 2, 1, 4] []) (fun _ _ => rfl)
  ⟨h.1, h.2.2.2.2.2⟩

/-- Claim C12 as stated fails on a NaN: `Unique()` leaves the `float64` array
`[NaN, NaN, 1, 1]` as `[NaN, NaN, 1]`, which holds the value NaN twice. -/
theorem Unique_NaN :
    (NewFrom [Float64.NaN, Float64.NaN, Float64.ofInt 1, Float64.ofInt 1] []).Unique =
      .ok (NewFrom [Float64.NaN, Float64.NaN, Float64.ofInt 1] []) ∧
    ¬ [Float64.NaN, Float64.NaN, Float64.ofInt 1].Nodup := by
  constructor
  · have h := Unique_eq
      (NewFrom [Float64.NaN, Float64.NaN, Float64.ofInt 1, Float64.ofInt 1] [])
      (fun _ _ => rfl)
    rw [h]
    decide
  · decide

/-- An element that cannot be hashed, after elements that can, makes `Unique()`
panic. -/
theorem Unique_unhashable [Comparable T] (a : Array T) (l₁ : List T) (e : T) (l₂ : List T)
    (hl : a.array = l₁ ++ e :: l₂) (h₁ : ∀ x, x ∈ l₁ → Comparable.hashable x = true)
    (he : Comparable.hashable e = false) : a.Unique = .error .unhashableType := by
  obtain ⟨seen', -, h⟩ := Unique_loop_steps a.array l₁.length 0 Map.make []
    (by rw [hl, List.length_append, List.length_cons]; omega) (by
      intro x hx
      rw [Nat.zero_add, hl, List.take_left' rfl] at hx
      exact h₁ x hx)
    (by
      intro x
      rw [Map.contains_make]
      simp)
  have hlt : l₁.length < a.array.length := by
    rw [hl, List.length_append, List.length_cons]; omega
  have hi : ((l₁.length : Nat) : Int).toNat < a.array.length := by omega
  have hget : a.array.get ⟨((l₁.length : Nat) : Int).toNat, hi⟩ = e := by
    simp only [List.get_eq_getElem, Int.toNat_ofNat, hl]
    rw [List.getElem_append_right (le_refl _)]
    simp
  rw [Array.Unique.eq_1]
  simp only [Nat.cast_zero, Nat.zero_add, List.nil_append] at h
  rw [h, Array.Unique.loop.eq_1, if_pos (by unfold len; omega), index_ok _ _ (by omega) hi, hget]
  simp only
  rw [lookup_of_not_hashable _ _ he]

end gods.array
namespace gods.array

variable {T : Type}

/-! ## Fill -/

theorem appendMax_ok (maxLen : Nat) (s t : List T) (h : s.length + t.length ≤ maxLen) :
    appendMax maxLen s t = .ok (s ++ t) := by
  unfold appendMax
  rw [if_neg (by omega)]

/-- The loop of `Fill`, entered at position `i` inside or at the end of the
array with `m` positions left before `startIndex+num`, none of them beyond
what the runtime allocates, terminates: it overwrites or appends `m` copies of
`value` from `i` on. -/
theorem Fill_loop_eq (maxLen : Nat) (s c : Int) (v : T) (m : Nat) :
    ∀ (i : Nat) (arr : List T), i ≤ arr.length → add s c = ((i + m : Nat) : Int) →
      (i + m ≤ arr.length ∨ i + m ≤ maxLen) →
      Array.Fill.loop maxLen s c v (i : Int) arr =
        .ok (arr.take i ++ List.replicate m v ++ arr.drop (i + m)) := by
  induction m with
  | zero =>
    intro i arr _ hB _
    rw [Array.Fill.loop.eq_1, if_neg (by rw [hB]; omega)]
    simp
  | succ m ih =>
    intro i arr hi hB hlim
    have e₁ : ((i : Int) + 1) = ((i + 1 : Nat) : Int) := by push_cast; rfl
    have hB' : add s c = ((i + 1 + m : Nat) : Int) := by rw [hB]; congr 1; omega
    rw [Array.Fill.loop.eq_1, if_pos (by rw [hB]; omega)]
    by_cases hend : (i : Int) > len arr - 1
    · have hlen : i = arr.length := by unfold len at hend; omega
      rw [if_pos hend, appendMax_ok maxLen arr [v] (by simp; omega)]
      simp only
      rw [e₁, ih (i + 1) (arr ++ [v]) (by simp; omega) hB' (by simp; omega)]
      congr 1
      subst hlen
      rw [List.take_of_length_le (by simp), List.drop_eq_nil_of_le (by simp),
        List.drop_eq_nil_of_le (by omega)]
      simp [List.replicate_succ]
    · have hlt : i < arr.length := by unfold len at hend; omega
      rw [if_neg hend, setIndex_ok _ _ _ (by omega) (by unfold len; omega)]
      simp only [Int.toNat_ofNat]
      rw [e₁, ih (i + 1) (arr.set i v) (by rw [List.length_set]; omega) hB'
        (by rw [List.length_set]; omega)]
      congr 1
      rw [List.drop_set_of_lt _ _ (by omega), List.set_eq_take_append_cons_drop, if_pos hlt,
        List.take_append_eq_append_take, List.length_take, Nat.min_eq_left (by omega)]
      have h₁ : i + 1 - i = 1 := by omega
      have h₂ : i + 1 + m = i + (m + 1) := by omega
      rw [h₁, h₂, List.take_of_length_le (by rw [List.length_take]; omega)]
      simp [List.replicate_succ]

/-- A loop of `Fill` whose bound is not above the counter returns at once. -/
theorem Fill_loop_done (maxLen : Nat) (s c : Int) (v : T) (i : Int) (arr : List T)
    (h : add s c ≤ i) : Array.Fill.loop maxLen s c v i arr = .ok arr := by
  rw [Array.Fill.loop.eq_1, if_neg (by omega)]

/-- A loop of `Fill` whose bound lies beyond what the runtime allocates does not
return: it fills the slice up to that length and the next `append` fails. -/
theorem Fill_loop_beyond (maxLen : Nat) (s c : Int) (v : T) (d : Nat) :
    ∀ (i : Nat) (arr : List T), i ≤ arr.length → arr.length ≤ maxLen →
      (maxLen : Int) < add s c → maxLen - i = d →
      Array.Fill.loop maxLen s c v (i : Int) arr = .error .growsliceLenOutOfRange := by
  induction d with
  | zero =>
    intro i arr hi hlen hB hd
    have hil : i = arr.length := by omega
    have hlm : arr.length = maxLen := by omega
    rw [Array.Fill.loop.eq_1, if_pos (by omega), if_pos (by unfold len; omega)]
    unfold appendMax
    rw [if_pos (by simp; omega)]
  | succ d ih =>
    intro i arr hi hlen hB hd
    have e₁ : ((i : Int) + 1) = ((i + 1 : Nat) : Int) := by push_cast; rfl
    rw [Array.Fill.loop.eq_1, if_pos (by omega)]
    by_cases hend : (i : Int) > len arr - 1
    · have hil : i = arr.length := by unfold len at hend; omega
      rw [if_pos hend, appendMax_ok maxLen arr [v] (by simp; omega)]
      simp only
      rw [e₁]
      exact ih (i + 1) (arr ++ [v]) (by simp; omega) (by simp; omega) hB (by omega)
    · have hlt : i < arr.length := by unfold len at hend; omega
      rw [if_neg hend, setIndex_ok _ _ _ (by omega) (by unfold len; omega)]
      simp only [Int.toNat_ofNat]
      rw [e₁]
      exact ih (i + 1) (arr.set i v) (by rw [List.length_set]; omega)
        (by rw [List.length_set]; omega) hB (by omega)

/-- Claim C13 against the code: on `[1, 2, 3]`, `Fill(1, maxInt, 0)` returns no
error and writes nothing, whatever the runtime can allocate, because
`startIndex+num` wraps below `startIndex` and the loop is never entered; the
claim has positions `1`, `2`, ... hold `0`. -/
theorem Fill_count_overflow (maxLen : Nat) :
    (NewFrom [(1 : Int), 2, 3] []).Fill maxLen 1 maxInt 0 =
      .ok (none, NewFrom [(1 : Int), 2, 3] []) ∧
    (NewFrom [(1 : Int), 2, 3] []).Get 1 = .ok (2, true) ∧
    (NewFrom [(1 : Int), 2, 3] []).Size ≠
      max (NewFrom [(1 : Int), 2, 3] []).Size (1 + maxInt) := by
  refine ⟨?_, by decide, by decide⟩
  rw [Array.Fill.eq_1, if_neg (by decide), Fill_loop_done _ _ _ _ _ _ (by decide)]

/-- What `Fill(s, c, v)` does where the sum `s + c` neither wraps nor exceeds
what the runtime allocates: it returns an error and leaves the array unchanged
exactly when `s < 0` or `s > n`; otherwise it returns no error, for `c >= 0`
with `s + c` at most `n` or at most the largest length allocated the new
contents are `old[0..s) ++ (c copies of v) ++ old[s+c..n)` of length
`max(n, s + c)`, and for `c <= 0` nothing changes. -/
theorem Fill_spec (maxLen : Nat) (a : Array T) (s c : Int) (v : T) (hc : IsInt c) :
    (s < 0 ∨ s > a.Size →
      a.Fill maxLen s c v = .ok (some { index := s, size := a.Size }, a)) ∧
    (0 ≤ s → s ≤ a.Size → s + c ≤ maxInt → s + c ≤ max a.Size (maxLen : Int) →
      ∃ a', a.Fill maxLen s c v = .ok (none, a') ∧
        (0 ≤ c →
          a'.array =
            elems a.array 0 s ++ List.replicate c.toNat v ++ elems a.array (s + c) a.Size ∧
          a'.Size = max a.Size (s + c)) ∧
        (c ≤ 0 → a' = a)) := by
  unfold Array.Size at *
  constructor
  · intro h
    rw [Array.Fill.eq_1, if_pos h]
  · intro hs₀ hs hmax hlim
    have hlenarr : (len a.array).toNat = a.array.length := toNat_len _
    by_cases hrun : 0 < c
    · have hadd : add s c = ((s.toNat + c.toNat : Nat) : Int) := by
        rw [add_eq ⟨by unfold minInt; omega, hmax⟩]
        omega
      have hloop := Fill_loop_eq maxLen s c v c.toNat s.toNat a.array
        (by unfold len at hs; omega) hadd (by unfold len at hlim; omega)
      rw [Int.toNat_of_nonneg hs₀] at hloop
      have harr : a.array.take s.toNat ++ List.replicate c.toNat v ++
          a.array.drop (s.toNat + c.toNat) =
          elems a.array 0 s ++ List.replicate c.toNat v ++ elems a.array (s + c) (len a.array) := by
        rw [elems_zero, elems_len]
        congr 2
        omega
      refine ⟨⟨a.mu, a.array.take s.toNat ++ List.replicate c.toNat v ++
          a.array.drop (s.toNat + c.toNat)⟩, ?_, ?_, ?_⟩
      · rw [Array.Fill.eq_1, if_neg (by omega), hloop]
      · intro _
        refine ⟨harr, ?_⟩
        unfold len at *
        simp only [List.length_append, List.length_take, List.length_drop,
          List.length_replicate]
        omega
      · intro h
        omega
    · have hdone : add s c ≤ s := by
        rw [add_eq ⟨by unfold IsInt minInt at *; omega, by omega⟩]
        omega
      refine ⟨a, ?_, ?_, fun _ => rfl⟩
      · rw [Array.Fill.eq_1, if_neg (by omega), Fill_loop_done _ _ _ _ _ _ hdone]
      · intro h₁
        have hc₀ : c = 0 := by omega
        subst hc₀
        rw [elems_zero, elems_len]
        unfold len at *
        simp only [add_zero, Int.toNat_zero, List.replicate_zero, List.append_nil,
          List.take_append_drop, true_and]
        omega

/-- Instances of `Fill_spec` on `[1, 2, 3, 4]`: `Fill(1, 2, 0)` overwrites,
`Fill(4, 2, 0)` appends, `Fill(-1, 2, 0)` is refused. -/
theorem Fill_spec_witness :
    (∃ a', (NewFrom [(1 : Int), 2, 3, 4] []).Fill 6 1 2 0 = .ok (none, a') ∧
      a'.array = [1, 0, 0, 4]) ∧
    (∃ a', (NewFrom [(1 : Int), 2, 3, 4] []).Fill 6 4 2 0 = .ok (none, a') ∧
      a'.array = [1, 2, 3, 4, 0, 0]) ∧
    (NewFrom [(1 : Int), 2, 3, 4] []).Fill 6 (-1) 2 0 =
      .ok (some { index := -1, size := 4 }, NewFrom [(1 : Int), 2, 3, 4] []) := by
  obtain ⟨a₁, h₁, h₂, -⟩ := (Fill_spec 6 (NewFrom [(1 : Int), 2, 3, 4] []) 1 2 0
    (by decide)).2 (by decide) (by decide) (by decide) (by decide)
  obtain ⟨a₂, h₃, h₄, -⟩ := (Fill_spec 6 (NewFrom [(1 : Int), 2, 3, 4] []) 4 2 0
    (by decide)).2 (by decide) (by decide) (by decide) (by decide)
  exact ⟨⟨a₁, h₁, (h₂ (by decide)).1⟩, ⟨a₂, h₃, (h₄ (by decide)).1⟩,
    (Fill_spec 6 (NewFrom [(1 : Int), 2, 3, 4] []) (-1) 2 0 (by decide)).1
      (by decide)⟩

/-- Beyond what the runtime allocates `Fill` does not return: when `s + c` does
not wrap and exceeds both the length of the array and the largest length
allocated, the loop fills the slice up to that length and the next `append`
fails. -/
theorem Fill_beyond_limit (maxLen : Nat) (a : Array T) (s c : Int) (v : T)
    (hs₀ : 0 ≤ s) (hs : s ≤ a.Size) (hlen : a.array.length ≤ maxLen)
    (hmax : s + c ≤ maxInt) (hbig : (maxLen : Int) < s + c) :
    a.Fill maxLen s c v = .error .growsliceLenOutOfRange := by
  unfold Array.Size at hs
  have hadd : add s c = s + c := add_eq ⟨by unfold minInt; unfold len at hs; omega, hmax⟩
  have hloop := Fill_loop_beyond maxLen s c v (maxLen - s.toNat) s.toNat a.array
    (by unfold len at hs; omega) hlen (by rw [hadd]; exact hbig) rfl
  rw [Int.toNat_of_nonneg hs₀] at hloop
  rw [Array.Fill.eq_1, if_neg (by omega), hloop]

end gods.array
namespace gods

section InsertLemmas

variable {K : Type} [Comparable K]

/-- Storing a key equal to one the map holds leaves the membership of the map
as it is. -/
theorem Map.contains_insert_of_contains (m : Map K) (k : K)
    (hk : Comparable.hashable k = true) (h : m.contains k = true) (x : K) :
    (m.insert k).contains x = m.contains x := by
  rw [Bool.eq_iff_iff, Map.contains_insert m k x hk]
  constructor
  · rintro (hx | hx)
    · exact hx
    · obtain ⟨a, ha, hak⟩ := (Map.contains_iff m k).mp h
      exact (Map.contains_iff m x).mpr ⟨a, ha, same_trans hak hx⟩
  · exact Or.inl

/-- A map holds no key equal to a value that differs from itself. -/
theorem Map.contains_of_not_refl (m : Map K) (x : K) (h : same x x = false) :
    m.contains x = false := by
  apply Bool.eq_false_iff.mpr
  intro hc
  obtain ⟨a, -, hax⟩ := (Map.contains_iff m x).mp hc
  have := same_self_of_same ((same_comm x a).trans hax)
  rw [h] at this
  exact absurd this (by decide)

end InsertLemmas

end gods

namespace gods.set

variable {T : Type} [Comparable T]

/-! ## NewFrom, Add, Remove, Contains -/

theorem NewFrom_range_eq (data : Option (Map T)) (items : List T) :
    NewFrom.range data items = Set.Add.range data items := by
  induction items generalizing data with
  | nil => rfl
  | cons item rest ih =>
    rw [NewFrom.range, Set.Add.range]
    cases assign data item with
    | error p => rfl
    | ok d => exact ih d

theorem assign_some (m : Map T) (k : T) (hk : Comparable.hashable k = true) :
    assign (some m) k = .ok (some (m.insert k)) := by
  simp only [assign, hk, if_true]

theorem delete_some (m : Map T) (k : T) (hk : Comparable.hashable k = true) :
    delete (some m) k = .ok (some (m.delete k)) := by
  unfold delete
  rw [if_pos hk]

theorem delete_none (k : T) (hk : Comparable.hashable k = true) :
    delete (none : Option (Map T)) k = .ok none := by
  unfold delete
  rw [if_pos hk]

/-- Membership in a set, read off its keys. -/
theorem Contains_iff (s : Set T) (x : T) :
    s.Contains x = .ok true ↔
      Comparable.hashable x = true ∧ ∃ a, a ∈ keysOf s.data ∧ same a x = true := by
  rw [Set.Contains.eq_1]
  exact lookup_iff s.data x

theorem Contains_some (mu : rwmutex.RWMutex) (m : Map T) (x : T)
    (hx : Comparable.hashable x = true) :
    (Set.mk mu (some m)).Contains x = .ok (m.contains x) := by
  rw [Set.Contains.eq_1]
  unfold lookup
  rw [if_pos hx]

theorem Contains_of_some (s : Set T) (m : Map T) (hd : s.data = some m) (x : T) :
    s.Contains x = .ok true ↔ Comparable.hashable x = true ∧ m.contains x = true := by
  rw [Contains_iff, hd, Map.contains_iff]
  rfl

/-- Two sets whose maps hold keys equal to the same values answer `Contains`
alike. -/
theorem Contains_congr_some (s o : Set T) (m m' : Map T) (hs : s.data = some m)
    (ho : o.data = some m') (h : ∀ x, m.contains x = m'.contains x) (y : T) :
    s.Contains y = o.Contains y := by
  rw [Set.Contains.eq_1, Set.Contains.eq_1, hs, ho]
  simp only [lookup, h y]

/-- Two sets whose keys are equal to the same values answer `Contains` alike. -/
theorem Contains_congr (s o : Set T)
    (h : ∀ x, (∃ a, a ∈ keysOf s.data ∧ same a x = true) ↔
      ∃ b, b ∈ keysOf o.data ∧ same b x = true) (x : T) :
    s.Contains x = o.Contains x := by
  rw [Set.Contains.eq_1, Set.Contains.eq_1]
  by_cases hx : Comparable.hashable x = true
  · rw [lookup_of_hashable _ _ hx, lookup_of_hashable _ _ hx]
    congr 1
    rw [Bool.eq_iff_iff, List.any_eq_true, List.any_eq_true]
    exact h x
  · rw [lookup_of_not_hashable _ _ (Bool.eq_false_iff.mpr hx),
      lookup_of_not_hashable _ _ (Bool.eq_false_iff.mpr hx)]

/-- The insertion loop on a non-nil map, over items that can be hashed, does not
panic and adds exactly the items. -/
theorem Add_range_some (m : Map T) (items : List T)
    (hh : ∀ v, v ∈ items → Comparable.hashable v = true) :
    ∃ m', Set.Add.range (some m) items = .ok (some m') ∧
      ∀ x, m'.contains x = true ↔
        m.contains x = true ∨ ∃ v, v ∈ items ∧ same v x = true := by
  induction items generalizing m with
  | nil => exact ⟨m, rfl, fun x => by simp⟩
  | cons item rest ih =>
    have hitem := hh item (List.mem_cons_self _ _)
    obtain ⟨m', h₁, h₂⟩ := ih (m.insert item) (fun v hv => hh v (List.mem_cons_of_mem _ hv))
    refine ⟨m', ?_, ?_⟩
    · rw [Set.Add.range, assign_some m item hitem]
      exact h₁
    · intro x
      rw [h₂ x, Map.contains_insert m item x hitem]
      constructor
      · rintro ((h | h) | ⟨v, hv, h⟩)
        · exact Or.inl h
        · exact Or.inr ⟨item, List.mem_cons_self _ _, h⟩
        · exact Or.inr ⟨v, List.mem_cons_of_mem _ hv, h⟩
      · rintro (h | ⟨v, hv, h⟩)
        · exact Or.inl (Or.inl h)
        · rcases List.mem_cons.mp hv with hv | hv
          · exact Or.inl (Or.inr (hv ▸ h))
          · exact Or.inr ⟨v, hv, h⟩

/-- The insertion loop over items the map holds keeps its membership and its
size. -/
theorem Add_range_of_all_contained (m : Map T) (items : List T)
    (hh : ∀ v, v ∈ items → Comparable.hashable v = true)
    (h : ∀ v, v ∈ items → m.contains v = true) :
    ∃ m', Set.Add.range (some m) items = .ok (some m') ∧
      m'.keys.length = m.keys.length ∧ ∀ x, m'.contains x = m.contains x := by
  induction items generalizing m with
  | nil => exact ⟨m, rfl, rfl, fun _ => rfl⟩
  | cons item rest ih =>
    have hitem := hh item (List.mem_cons_self _ _)
    have hc := h item (List.mem_cons_self _ _)
    have hsame := Map.contains_insert_of_contains m item hitem hc
    obtain ⟨m', h₁, h₂, h₃⟩ := ih (m.insert item)
      (fun v hv => hh v (List.mem_cons_of_mem _ hv))
      (fun v hv => by rw [hsame]; exact h v (List.mem_cons_of_mem _ hv))
    refine ⟨m', ?_, ?_, ?_⟩
    · rw [Set.Add.range, assign_some m item hitem]
      exact h₁
    · rw [h₂, Map.length_insert m item hitem, if_pos hc]
    · intro x
      rw [h₃ x, hsame x]

/-- The deletion loop on a non-nil map, over items that can be hashed, does not
panic and removes exactly the keys equal to an item. -/
theorem Remove_range_some (m : Map T) (items : List T)
    (hh : ∀ v, v ∈ items → Comparable.hashable v = true) :
    ∃ m', Set.Remove.range (some m) items = .ok (some m') ∧
      ∀ x, m'.contains x = true ↔
        m.contains x = true ∧ ∀ v, v ∈ items → same v x = false := by
  induction items generalizing m with
  | nil => exact ⟨m, rfl, fun x => by simp⟩
  | cons item rest ih =>
    have hitem := hh item (List.mem_cons_self _ _)
    obtain ⟨m', h₁, h₂⟩ := ih (m.delete item) (fun v hv => hh v (List.mem_cons_of_mem _ hv))
    refine ⟨m', ?_, ?_⟩
    · rw [Set.Remove.range, delete_some m item hitem]
      exact h₁
    · intro x
      rw [h₂ x, Map.contains_delete]
      constructor
      · rintro ⟨⟨h, hi⟩, hrest⟩
        refine ⟨h, ?_⟩
        intro v hv
        rcases List.mem_cons.mp hv with hv | hv
        · rw [hv]; exact hi
        · exact hrest v hv
      · rintro ⟨h, hall⟩
        exact ⟨⟨h, hall item (List.mem_cons_self _ _)⟩,
          fun v hv => hall v (List.mem_cons_of_mem _ hv)⟩

/-- The deletion loop leaves a map that holds none of the items as it is. -/
theorem Remove_range_of_none_contained (m : Map T) (items : List T)
    (hh : ∀ v, v ∈ items → Comparable.hashable v = true)
    (h : ∀ v, v ∈ items → m.contains v = false) :
    Set.Remove.range (some m) items = .ok (some m) := by
  induction items with
  | nil => rfl
  | cons item rest ih =>
    rw [Set.Remove.range, delete_some m item (hh item (List.mem_cons_self _ _)),
      Map.delete_of_not_contains m item (h item (List.mem_cons_self _ _))]
    exact ih (fun v hv => hh v (List.mem_cons_of_mem _ hv))
      (fun v hv => h v (List.mem_cons_of_mem _ hv))

theorem Remove_range_none (items : List T)
    (hh : ∀ v, v ∈ items → Comparable.hashable v = true) :
    Set.Remove.range (none : Option (Map T)) items = .ok none := by
  induction items with
  | nil => rfl
  | cons item rest ih =>
    rw [Set.Remove.range, delete_none item (hh item (List.mem_cons_self _ _))]
    exact ih (fun v hv => hh v (List.mem_cons_of_mem _ hv))

/-- The map with which `Add` starts: the map of the set, or a new one. -/
theorem Add_start (s : Set T) :
    ∃ m : Map T, (if s.data.isNone then some Map.make else s.data) = some m ∧
      m.keys = keysOf s.data := by
  cases hd : s.data with
  | none => exact ⟨Map.make, rfl, rfl⟩
  | some m => exact ⟨m, rfl, rfl⟩

theorem Add_eq (s : Set T) (vs : List T)
    (hh : ∀ v, v ∈ vs → Comparable.hashable v = true) :
    ∃ m', s.Add vs = .ok { s with data := some m' } ∧
      ∀ x, m'.contains x = true ↔
        (∃ a, a ∈ keysOf s.data ∧ same a x = true) ∨ ∃ v, v ∈ vs ∧ same v x = true := by
  obtain ⟨m, hm, hk⟩ := Add_start s
  obtain ⟨m', h₁, h₂⟩ := Add_range_some m vs hh
  refine ⟨m', ?_, ?_⟩
  · rw [Set.Add.eq_1, hm, h₁]
  · intro x
    rw [h₂ x, Map.contains_iff, hk]

theorem Slice_range_eq {T : Type} (slice l : List T) : Set.Slice.range slice l = slice ++ l := by
  induction l generalizing slice with
  | nil => simp [Set.Slice.range]
  | cons k rest ih =>
    rw [Set.Slice.range, ih]
    simp [append]

theorem Slice_perm (order : List T → List T) (horder : IsOrder order) (s : Set T) :
    (s.Slice order).Perm (keysOf s.data) := by
  rw [Set.Slice.eq_1, Slice_range_eq, List.nil_append]
  exact rangeMap_perm order horder s.data

/-- Claim C17, with `==` for "occurs", for items that can be hashed:
`NewFrom(items)` contains `x` exactly when some item is equal to `x`; after
`Add(vs...)` the set contains `x` exactly when it did before or some value of
`vs` is equal to `x`; after `Remove(vs...)` exactly when it did before and no
value of `vs` is equal to `x`; `Remove` repeated changes nothing; `Add`
repeated changes no membership, and not the size when every value of `vs` is
equal to itself; adding a value already present leaves membership and `Size()`
unchanged and removing an absent value leaves the set unchanged. -/
theorem Set_membership (items vs : List T) (safe : List Bool) (s : Set T) (x : T)
    (hitems : ∀ v, v ∈ items → Comparable.hashable v = true)
    (hvs : ∀ v, v ∈ vs → Comparable.hashable v = true) :
    (∃ s₀, NewFrom items safe = .ok s₀ ∧
      (s₀.Contains x = .ok true ↔
        Comparable.hashable x = true ∧ ∃ v, v ∈ items ∧ same v x = true)) ∧
    (∃ s₁, s.Add vs = .ok s₁ ∧
      (s₁.Contains x = .ok true ↔
        s.Contains x = .ok true ∨
          (Comparable.hashable x = true ∧ ∃ v, v ∈ vs ∧ same v x = true)) ∧
      ∃ s₂, s₁.Add vs = .ok s₂ ∧ (∀ y, s₂.Contains y = s₁.Contains y) ∧
        ((∀ v, v ∈ vs → same v v = true) → s₂.Size = s₁.Size)) ∧
    (∃ s₃, s.Remove vs = .ok s₃ ∧
      (s₃.Contains x = .ok true ↔
        s.Contains x = .ok true ∧ ∀ v, v ∈ vs → same v x = false) ∧
      s₃.Remove vs = .ok s₃) ∧
    (s.Contains x = .ok true →
      ∃ s₂, s.Add [x] = .ok s₂ ∧ (∀ y, s₂.Contains y = s.Contains y) ∧ s₂.Size = s.Size) ∧
    (s.Contains x = .ok false → s.Remove [x] = .ok s) := by
  refine ⟨?_, ?_, ?_, ?_, ?_⟩
  · obtain ⟨m', h₁, h₂⟩ := Add_range_some (Map.make : Map T) items hitems
    refine ⟨{ mu := rwmutex.Create safe, data := some m' }, ?_, ?_⟩
    · rw [NewFrom.eq_1, NewFrom_range_eq, h₁]
    · rw [Contains_of_some _ m' rfl, h₂ x, Map.contains_make]
      simp
  · obtain ⟨m', h₁, h₂⟩ := Add_eq s vs hvs
    refine ⟨_, h₁, ?_, ?_⟩
    · rw [Contains_of_some _ m' rfl, h₂ x, Contains_iff]
      constructor
      · rintro ⟨hx, h | h⟩
        · exact Or.inl ⟨hx, h⟩
        · exact Or.inr ⟨hx, h⟩
      · rintro (⟨hx, h⟩ | ⟨hx, h⟩)
        · exact ⟨hx, Or.inl h⟩
        · exact ⟨hx, Or.inr h⟩
    · have hall : ∀ v, v ∈ vs → same v v = true → m'.contains v = true := by
        intro v hv hr
        exact (h₂ v).mpr (Or.inr ⟨v, hv, hr⟩)
      obtain ⟨m'', h₃, h₄⟩ := Add_range_some m' vs hvs
      have hsame : ∀ y, m''.contains y = m'.contains y := by
        intro y
        rw [Bool.eq_iff_iff, h₄ y]
        constructor
        · rintro (h | ⟨v, hv, h⟩)
          · exact h
          · exact (h₂ y).mpr (Or.inr ⟨v, hv, h⟩)
        · exact Or.inl
      refine ⟨{ s with data := some m'' }, ?_, ?_, ?_⟩
      · rw [Set.Add.eq_1]
        simp only [Option.isNone_some, Bool.false_eq_true, if_false]
        rw [h₃]
      · exact Contains_congr_some _ _ m'' m' rfl rfl hsame
      · intro hr
        obtain ⟨m₃, h₅, h₆, -⟩ := Add_range_of_all_contained m' vs hvs
          (fun v hv => hall v hv (hr v hv))
        have hm : m₃ = m'' := by
          rw [h₅] at h₃
          injection h₃ with h₃
          injection h₃
        rw [Set.Size.eq_1, Set.Size.eq_1]
        simp only [lenMap, Map.len]
        rw [← hm, h₆]
  · cases hd : s.data with
    | none =>
      refine ⟨s, ?_, ?_, ?_⟩
      · rw [Set.Remove.eq_1, if_neg (by rw [hd]; simp)]
      · rw [Contains_iff, hd]
        simp [keysOf]
      · rw [Set.Remove.eq_1, if_neg (by rw [hd]; simp)]
    | some m =>
      obtain ⟨m', h₁, h₂⟩ := Remove_range_some m vs hvs
      have hnone : ∀ v, v ∈ vs → m'.contains v = false := by
        intro v hv
        apply Bool.eq_false_iff.mpr
        intro hc
        have hr : same v v = true := by
          obtain ⟨a, -, hav⟩ := (Map.contains_iff m' v).mp hc
          exact same_self_of_same ((same_comm v a).trans hav)
        have := ((h₂ v).mp hc).2 v hv
        rw [hr] at this
        exact absurd this (by decide)
      refine ⟨{ s with data := some m' }, ?_, ?_, ?_⟩
      · rw [Set.Remove.eq_1, if_pos (by rw [hd]; simp), hd, h₁]
      · rw [Contains_of_some _ m' rfl, Contains_of_some s m hd, h₂ x]
        constructor
        · rintro ⟨hx, h, hall⟩
          exact ⟨⟨hx, h⟩, hall⟩
        · rintro ⟨⟨hx, h⟩, hall⟩
          exact ⟨hx, h, hall⟩
      · rw [Set.Remove.eq_1]
        simp only [Option.isSome_some, if_true]
        rw [Remove_range_of_none_contained m' vs hvs hnone]
  · intro hx
    obtain ⟨hhx, a, ha, hax⟩ := (Contains_iff s x).mp hx
    cases hd : s.data with
    | none => rw [hd] at ha; exact absurd ha (List.not_mem_nil _)
    | some m =>
      rw [hd] at ha
      have hc : m.contains x = true := (Map.contains_iff m x).mpr ⟨a, ha, hax⟩
      obtain ⟨m', h₁, h₂, h₃⟩ := Add_range_of_all_contained m [x]
        (fun v hv => by rw [List.mem_singleton.mp hv]; exact hhx)
        (fun v hv => by rw [List.mem_singleton.mp hv]; exact hc)
      refine ⟨{ s with data := some m' }, ?_, ?_, ?_⟩
      · rw [Set.Add.eq_1, hd]
        simp only [Option.isNone_some, Bool.false_eq_true, if_false]
        rw [h₁]
      · exact Contains_congr_some _ s m' m rfl hd h₃
      · rw [Set.Size.eq_1, Set.Size.eq_1, hd]
        simp only [lenMap, Map.len]
        rw [h₂]
  · intro hx
    cases hd : s.data with
    | none => rw [Set.Remove.eq_1, if_neg (by rw [hd]; simp)]
    | some m =>
      have hhx : Comparable.hashable x = true := by
        by_contra hc
        rw [Set.Contains.eq_1, lookup_of_not_hashable _ _ (Bool.eq_false_iff.mpr hc)] at hx
        cases hx
      have hc : m.contains x = false := by
        rw [Set.Contains.eq_1, hd] at hx
        unfold lookup at hx
        rw [if_pos hhx] at hx
        injection hx
      rw [Set.Remove.eq_1, if_pos (by rw [hd]; simp), hd,
        Remove_range_of_none_contained m [x]
          (fun v hv => by rw [List.mem_singleton.mp hv]; exact hhx)
          (fun v hv => by rw [List.mem_singleton.mp hv]; exact hc)]
      cases s
      simp only at hd
      rw [hd]

/-- Witness for C17: in the `int` set `{1, 2}`, the value `2` is added again
and the absent value `5` is removed. -/
theorem Set_membership_witness :
    (∃ s₂, (Set.mk (rwmutex.Create []) (some (((Map.make : Map Int).insert 1).insert 2))).Add [2]
        = .ok s₂ ∧
      (∀ y, s₂.Contains y =
        (Set.mk (rwmutex.Create []) (some (((Map.make : Map Int).insert 1).insert 2))).Contains y) ∧
      s₂.Size =
        (Set.mk (rwmutex.Create []) (some (((Map.make : Map Int).insert 1).insert 2))).Size) ∧
    (Set.mk (rwmutex.Create []) (some (((Map.make : Map Int).insert 1).insert 2))).Remove [5] =
      .ok (Set.mk (rwmutex.Create []) (some (((Map.make : Map Int).insert 1).insert 2))) :=
  ⟨(Set_membership [1, 2, 3, 2] [2] []
      (Set.mk (rwmutex.Create []) (some (((Map.make : Map Int).insert 1).insert 2))) 2
      (fun _ _ => rfl) (fun _ _ => rfl)).2.2.2.1 (by decide),
   (Set_membership [1, 2, 3, 2] [5] []
      (Set.mk (rwmutex.Create []) (some (((Map.make : Map Int).insert 1).insert 2))) 5
      (fun _ _ => rfl) (fun _ _ => rfl)).2.2.2.2 (by decide)⟩

/-- Claim C17 as stated fails on a NaN: the value NaN occurs in the items of
`NewFrom([NaN])`, yet the set does not contain it, and `Add(NaN)` applied a
second time adds a second entry. -/
theorem Set_membership_NaN :
    Float64.NaN ∈ [Float64.NaN] ∧
    (∃ s₀, NewFrom [Float64.NaN] [] = .ok s₀ ∧ s₀.Contains Float64.NaN = .ok false) ∧
    ∃ s₁ s₂, (New [] : Set Float64).Add [Float64.NaN] = .ok s₁ ∧
      s₁.Add [Float64.NaN] = .ok s₂ ∧ s₁.Size = 1 ∧ s₂.Size = 2 :=
  ⟨by decide, ⟨_, rfl, by decide⟩, ⟨_, _, rfl, rfl, by decide, by decide⟩⟩

end gods.set
namespace gods.set

variable {T : Type} [Comparable T]

/-! ## Size, Slice -/

theorem pairwise_of_perm {l₁ l₂ : List T} (h : l₁.Perm l₂)
    (hp : l₂.Pairwise (fun a b => same a b = false)) :
    l₁.Pairwise (fun a b => same a b = false) := by
  refine (h.pairwise_iff ?_).mpr hp
  intro x y hxy
  rw [same_comm]
  exact hxy

/-- Claim C18, with `==` for "distinct": in every state of a set `Slice()`,
whatever the order of the visit, has length `Size()`, no two of its elements
are equal, and `Contains(x)` holds exactly when one of them is equal to `x`;
when every key is equal to itself (no NaN) it holds no value twice, each of
its elements is a member, and `Size()` is the number of members that differ
from one another: every list of members no two of which are equal, and to one
of which every member is equal, has `Size()` elements. -/
theorem Set_no_duplicates (order : List T → List T) (horder : IsOrder order) (s : Set T) :
    ((s.Slice order).length : Int) = s.Size ∧
    (s.Slice order).Pairwise (fun a b => same a b = false) ∧
    (∀ x, s.Contains x = .ok true ↔
      Comparable.hashable x = true ∧ ∃ k, k ∈ s.Slice order ∧ same k x = true) ∧
    ((∀ k, k ∈ keysOf s.data → same k k = true) →
      (s.Slice order).Nodup ∧
      (∀ k, k ∈ s.Slice order → s.Contains k = .ok true) ∧
      ∀ l : List T, l.Pairwise (fun a b => same a b = false) →
        (∀ x, x ∈ l → s.Contains x = .ok true) →
        (∀ x, s.Contains x = .ok true → ∃ y, y ∈ l ∧ same y x = true) →
        (l.length : Int) = s.Size) := by
  have hperm := Slice_perm order horder s
  have hpair := pairwise_of_perm hperm (pairwise_keysOf s.data)
  refine ⟨?_, hpair, ?_, ?_⟩
  · rw [Set.Size.eq_1, lenMap_eq, hperm.length_eq]
  · intro x
    rw [Contains_iff]
    constructor
    · rintro ⟨hx, a, ha, hax⟩
      exact ⟨hx, a, hperm.mem_iff.mpr ha, hax⟩
    · rintro ⟨hx, a, ha, hax⟩
      exact ⟨hx, a, hperm.mem_iff.mp ha, hax⟩
  · intro hr
    have hmem : ∀ k, k ∈ keysOf s.data → s.Contains k = .ok true := by
      intro k hk
      exact (Contains_iff s k).mpr ⟨hashable_of_mem_keysOf _ k hk, k, hk, hr k hk⟩
    refine ⟨?_, ?_, ?_⟩
    · exact nodup_of_pairwise_of_refl hpair (fun a ha => hr a (hperm.mem_iff.mp ha))
    · intro k hk
      exact hmem k (hperm.mem_iff.mp hk)
    · intro l hl hin hcover
      rw [Set.Size.eq_1, lenMap_eq]
      congr 1
      apply Nat.le_antisymm
      · apply length_le_of_cover l (keysOf s.data) hl
        intro a ha
        obtain ⟨-, k, hk, hka⟩ := (Contains_iff s a).mp (hin a ha)
        exact ⟨k, hk, (same_comm a k).trans hka⟩
      · apply length_le_of_cover (keysOf s.data) l (pairwise_keysOf s.data)
        intro k hk
        obtain ⟨y, hy, hyk⟩ := hcover k (hmem k hk)
        exact ⟨y, hy, (same_comm k y).trans hyk⟩

/-- Witness for C18: the `int` set `{1, 2}` visited in reverse order. -/
theorem Set_no_duplicates_witness :
    ((Set.mk (rwmutex.Create []) (some (((Map.make : Map Int).insert 1).insert 2))).Slice
      List.reverse).Nodup ∧
    (((Set.mk (rwmutex.Create []) (some (((Map.make : Map Int).insert 1).insert 2))).Slice
      List.reverse).length : Int) =
      (Set.mk (rwmutex.Create []) (some (((Map.make : Map Int).insert 1).insert 2))).Size :=
  have h := Set_no_duplicates List.reverse (fun l => List.reverse_perm l)
    (Set.mk (rwmutex.Create []) (some (((Map.make : Map Int).insert 1).insert 2)))
  ⟨(h.2.2.2 (by decide)).1, h.1⟩

/-- Claim C18 as stated fails on a NaN: `NewFrom([NaN, NaN])` has `Size()` two
and `Slice()` holds NaN twice, yet `Contains(x)` is false of every `x`. -/
theorem Set_duplicates_NaN :
    ∃ s, NewFrom [Float64.NaN, Float64.NaN] [] = .ok s ∧ s.Size = 2 ∧
      s.Slice List.reverse = [Float64.NaN, Float64.NaN] ∧
      ∀ x, s.Contains x = .ok false := by
  refine ⟨_, rfl, by decide, by decide, ?_⟩
  intro x
  cases x with
  | NaN => decide
  | ofInt v => rfl

/-! ## Equal, IsSubsetOf -/

/-- The loop of `Equal`, over keys that can be hashed, does not panic and
answers true exactly when every visited key is in `other`. -/
theorem Equal_range_iff (other : Set T) (l : List T)
    (hl : ∀ k, k ∈ l → Comparable.hashable k = true) :
    ∃ b, Set.Equal.range other l = .ok b ∧
      (b = true ↔ ∀ k, k ∈ l → other.Contains k = .ok true) := by
  induction l with
  | nil => exact ⟨true, rfl, by simp⟩
  | cons key rest ih =>
    have hkey := hl key (List.mem_cons_self _ _)
    obtain ⟨b, h₁, h₂⟩ := ih (fun k hk => hl k (List.mem_cons_of_mem _ hk))
    have hlook : lookup other.data key = .ok ((keysOf other.data).any (fun a => same a key)) :=
      lookup_of_hashable _ _ hkey
    cases hk : (keysOf other.data).any (fun a => same a key) with
    | false =>
      refine ⟨false, ?_, ?_⟩
      · rw [Set.Equal.range, hlook, hk]
      · constructor
        · intro h; cases h
        · intro h
          have := h key (List.mem_cons_self _ _)
          rw [Set.Contains.eq_1, hlook, hk] at this
          cases this
    | true =>
      refine ⟨b, ?_, ?_⟩
      · rw [Set.Equal.range, hlook, hk]
        exact h₁
      · rw [h₂]
        constructor
        · intro h k hmem
          rcases List.mem_cons.mp hmem with h' | h'
          · rw [h', Set.Contains.eq_1, hlook, hk]
          · exact h k h'
        · intro h k hmem
          exact h k (List.mem_cons_of_mem _ hmem)

/-- The loop of `IsSubsetOf`, over keys that can be hashed, does not panic and
answers true exactly when every visited key is in `other`. -/
theorem IsSubsetOf_range_iff (other : Set T) (l : List T)
    (hl : ∀ k, k ∈ l → Comparable.hashable k = true) :
    ∃ b, Set.IsSubsetOf.range other l = .ok b ∧
      (b = true ↔ ∀ k, k ∈ l → other.Contains k = .ok true) := by
  induction l with
  | nil => exact ⟨true, rfl, by simp⟩
  | cons key rest ih =>
    have hkey := hl key (List.mem_cons_self _ _)
    obtain ⟨b, h₁, h₂⟩ := ih (fun k hk => hl k (List.mem_cons_of_mem _ hk))
    have hlook : lookup other.data key = .ok ((keysOf other.data).any (fun a => same a key)) :=
      lookup_of_hashable _ _ hkey
    cases hk : (keysOf other.data).any (fun a => same a key) with
    | false =>
      refine ⟨false, ?_, ?_⟩
      · rw [Set.IsSubsetOf.range, hlook, hk]
      · constructor
        · intro h; cases h
        · intro h
          have := h key (List.mem_cons_self _ _)
          rw [Set.Contains.eq_1, hlook, hk] at this
          cases this
    | true =>
      refine ⟨b, ?_, ?_⟩
      · rw [Set.IsSubsetOf.range, hlook, hk]
        exact h₁
      · rw [h₂]
        constructor
        · intro h k hmem
          rcases List.mem_cons.mp hmem with h' | h'
          · rw [h', Set.Contains.eq_1, hlook, hk]
          · exact h k h'
        · intro h k hmem
          exact h k (List.mem_cons_of_mem _ hmem)

/-- The keys of a set, each of them in a second set, are equal to keys of the
second. -/
theorem cover_of_all_contained (s o : Set T)
    (h : ∀ k, k ∈ keysOf s.data → o.Contains k = .ok true) :
    ∀ a, a ∈ keysOf s.data → ∃ b, b ∈ keysOf o.data ∧ same a b = true := by
  intro a ha
  obtain ⟨-, b, hb, hba⟩ := (Contains_iff o a).mp (h a ha)
  exact ⟨b, hb, (same_comm a b).trans hba⟩

/-- When the keys of a set are equal to keys of a second, the second contains
what the first contains. -/
theorem Contains_of_cover (s o : Set T)
    (h : ∀ a, a ∈ keysOf s.data → ∃ b, b ∈ keysOf o.data ∧ same a b = true) (x : T)
    (hx : s.Contains x = .ok true) : o.Contains x = .ok true := by
  obtain ⟨hh, a, ha, hax⟩ := (Contains_iff s x).mp hx
  obtain ⟨b, hb, hab⟩ := h a ha
  exact (Contains_iff o x).mpr ⟨hh, b, hb, same_trans ((same_comm b a).trans hab) hax⟩

/-- A set whose keys are equal to themselves contains each of them. -/
theorem Contains_key (s : Set T) (hr : ∀ k, k ∈ keysOf s.data → same k k = true) (k : T)
    (hk : k ∈ keysOf s.data) : s.Contains k = .ok true :=
  (Contains_iff s k).mpr ⟨hashable_of_mem_keysOf _ k hk, k, hk, hr k hk⟩

/-- Sets with the same members, none of them a NaN, have the same size. -/
theorem Size_eq_of_same_members (s o : Set T)
    (hs : ∀ k, k ∈ keysOf s.data → same k k = true)
    (ho : ∀ k, k ∈ keysOf o.data → same k k = true)
    (h : ∀ x, s.Contains x = o.Contains x) : s.Size = o.Size := by
  rw [Set.Size.eq_1, Set.Size.eq_1, lenMap_eq, lenMap_eq]
  congr 1
  apply Nat.le_antisymm
  · apply length_le_of_cover _ _ (pairwise_keysOf s.data)
    apply cover_of_all_contained
    intro k hk
    rw [← h k]
    exact Contains_key s hs k hk
  · apply length_le_of_cover _ _ (pairwise_keysOf o.data)
    apply cover_of_all_contained
    intro k hk
    rw [h k]
    exact Contains_key o ho k hk

/-- Sets whose members agree answer every `Contains` alike, panics included. -/
theorem Contains_eq_of_iff (s o : Set T)
    (h : ∀ x, s.Contains x = .ok true ↔ o.Contains x = .ok true) (x : T) :
    s.Contains x = o.Contains x := by
  by_cases hx : Comparable.hashable x = true
  · have hs : s.Contains x = .ok ((keysOf s.data).any (fun a => same a x)) := by
      rw [Set.Contains.eq_1]; exact lookup_of_hashable _ _ hx
    have ho : o.Contains x = .ok ((keysOf o.data).any (fun a => same a x)) := by
      rw [Set.Contains.eq_1]; exact lookup_of_hashable _ _ hx
    have := h x
    rw [hs, ho] at this ⊢
    congr 1
    rw [Bool.eq_iff_iff]
    constructor
    · intro hb
      have := this.mp (by rw [hb])
      injection this
    · intro hb
      have := this.mpr (by rw [hb])
      injection this
  · rw [Set.Contains.eq_1, Set.Contains.eq_1,
      lookup_of_not_hashable _ _ (Bool.eq_false_iff.mpr hx),
      lookup_of_not_hashable _ _ (Bool.eq_false_iff.mpr hx)]

/-- What `Equal` answers on a pointer to another set. -/
theorem Equal_ptr (order : List T → List T) (horder : IsOrder order) (s o : Set T) :
    ∃ b, s.Equal order (.ptr o) = .ok b ∧
      (b = true ↔ lenMap s.data = lenMap o.data ∧
        ∀ k, k ∈ keysOf s.data → o.Contains k = .ok true) := by
  have hperm := rangeMap_perm order horder s.data
  obtain ⟨b, h₁, h₂⟩ := Equal_range_iff o (rangeMap order s.data)
    (fun k hk => hashable_of_mem_keysOf s.data k (hperm.mem_iff.mp hk))
  by_cases hlen : lenMap s.data ≠ lenMap o.data
  · refine ⟨false, ?_, ?_⟩
    · simp only [Set.Equal]
      rw [if_pos hlen]
    · constructor
      · intro h; cases h
      · intro h; exact absurd h.1 hlen
  · refine ⟨b, ?_, ?_⟩
    · simp only [Set.Equal]
      rw [if_neg hlen]
      exact h₁
    · rw [h₂]
      constructor
      · intro h
        exact ⟨not_not.mp hlen, fun k hk => h k (hperm.mem_iff.mpr hk)⟩
      · intro h k hk
        exact h.2 k (hperm.mem_iff.mp hk)

/-- Claim C19, for sets without NaN keys in its second half: for a non-nil
`other`, `s.Equal(other)` does not panic; when it is true, `s` and `other`
have the same members; and when `s` and `other` have the same members and
every key of both is equal to itself, it is true; `s.Equal(s)` is true and
`s.Equal(nil)` is false. -/
theorem Set_Equal_iff (order : List T → List T) (horder : IsOrder order) (s : Set T)
    (other : Ref T) :
    (∀ o, other.deref s = some o →
      ∃ b, s.Equal order other = .ok b ∧
        (b = true → ∀ x, s.Contains x = o.Contains x) ∧
        ((∀ k, k ∈ keysOf s.data → same k k = true) →
          (∀ k, k ∈ keysOf o.data → same k k = true) →
          (∀ x, s.Contains x = o.Contains x) → b = true)) ∧
    s.Equal order .self = .ok true ∧ s.Equal order .nil = .ok false := by
  refine ⟨?_, rfl, rfl⟩
  intro o ho
  cases other with
  | nil => exact absurd ho (by simp [Ref.deref])
  | self =>
    simp only [Ref.deref, Option.some.injEq] at ho
    subst ho
    exact ⟨true, rfl, fun _ _ => rfl, fun _ _ _ => rfl⟩
  | ptr other =>
    simp only [Ref.deref, Option.some.injEq] at ho
    subst ho
    obtain ⟨b, h₁, h₂⟩ := Equal_ptr order horder s other
    refine ⟨b, h₁, ?_, ?_⟩
    · intro hb
      obtain ⟨hlen, hall⟩ := h₂.mp hb
      have hcov := cover_of_all_contained s other hall
      have hlen' : (keysOf other.data).length ≤ (keysOf s.data).length := by
        rw [lenMap_eq, lenMap_eq] at hlen
        omega
      have hback := cover_of_cover_of_length_le (keysOf s.data) (keysOf other.data)
        (pairwise_keysOf s.data) hcov hlen'
      apply Contains_eq_of_iff
      intro x
      constructor
      · exact Contains_of_cover s other hcov x
      · apply Contains_of_cover other s
        intro a ha
        obtain ⟨c, hc, hca⟩ := hback a ha
        exact ⟨c, hc, (same_comm a c).trans hca⟩
    · intro hs hother hmem
      apply h₂.mpr
      refine ⟨?_, ?_⟩
      · have := Size_eq_of_same_members s other hs hother hmem
        rw [Set.Size.eq_1, Set.Size.eq_1] at this
        exact this
      · intro k hk
        rw [← hmem k]
        exact Contains_key s hs k hk

/-- Witness for C19: the `int` sets `{1, 2}` and `{2, 1}`, visited in reverse
order, are equal. -/
theorem Set_Equal_iff_witness :
    ∃ b, (Set.mk (rwmutex.Create []) (some (((Map.make : Map Int).insert 1).insert 2))).Equal
        List.reverse
        (.ptr (Set.mk (rwmutex.Create []) (some (((Map.make : Map Int).insert 2).insert 1)))) =
        .ok b ∧
      (b = true → ∀ x,
        (Set.mk (rwmutex.Create []) (some (((Map.make : Map Int).insert 1).insert 2))).Contains x =
        (Set.mk (rwmutex.Create []) (some (((Map.make : Map Int).insert 2).insert 1))).Contains
          x) := by
  obtain ⟨b, h₁, h₂, -⟩ := (Set_Equal_iff List.reverse (fun l => List.reverse_perm l)
    (Set.mk (rwmutex.Create []) (some (((Map.make : Map Int).insert 1).insert 2)))
    (.ptr (Set.mk (rwmutex.Create []) (some (((Map.make : Map Int).insert 2).insert 1))))).1
    _ rfl
  exact ⟨b, h₁, h₂⟩

/-- Claim C19 as stated fails on a NaN: two sets made by `NewFrom([NaN])` have
the same members (none) and the same size, yet `Equal` is false. -/
theorem Set_Equal_NaN :
    ∃ s o, NewFrom [Float64.NaN] [] = .ok s ∧ NewFrom [Float64.NaN] [] = .ok o ∧
      (∀ x, s.Contains x = o.Contains x) ∧ s.Size = o.Size ∧
      s.Equal List.reverse (.ptr o) = .ok false :=
  ⟨_, _, rfl, rfl, fun _ => rfl, rfl, by decide⟩

/-- Claim C20, for sets without NaN keys in its second half: for a non-nil
`other`, `s.IsSubsetOf(other)` does not panic; when it is true, every member
of `s` is a member of `other`; and when every member of `s` is a member of
`other` and every key of `s` is equal to itself, it is true, so it is true of
an empty `s`; `s.IsSubsetOf(s)` is true, and `s.IsSubsetOf(nil)` is false,
also of an empty `s`. -/
theorem Set_IsSubsetOf_iff (order : List T → List T) (horder : IsOrder order) (s : Set T)
    (other : Ref T) :
    (∀ o, other.deref s = some o →
      ∃ b, s.IsSubsetOf order other = .ok b ∧
        (b = true → ∀ x, s.Contains x = .ok true → o.Contains x = .ok true) ∧
        ((∀ k, k ∈ keysOf s.data → same k k = true) →
          (∀ x, s.Contains x = .ok true → o.Contains x = .ok true) → b = true) ∧
        (keysOf s.data = [] → b = true)) ∧
    s.IsSubsetOf order .self = .ok true ∧ s.IsSubsetOf order .nil = .ok false ∧
    (New [] : Set T).IsSubsetOf order .nil = .ok false := by
  refine ⟨?_, rfl, rfl, rfl⟩
  intro o ho
  cases other with
  | nil => exact absurd ho (by simp [Ref.deref])
  | self =>
    simp only [Ref.deref, Option.some.injEq] at ho
    subst ho
    exact ⟨true, rfl, fun _ _ h => h, fun _ _ => rfl, fun _ => rfl⟩
  | ptr other =>
    simp only [Ref.deref, Option.some.injEq] at ho
    subst ho
    have hperm := rangeMap_perm order horder s.data
    obtain ⟨b, h₁, h₂⟩ := IsSubsetOf_range_iff other (rangeMap order s.data)
      (fun k hk => hashable_of_mem_keysOf s.data k (hperm.mem_iff.mp hk))
    refine ⟨b, h₁, ?_, ?_, ?_⟩
    · intro hb x hx
      have hall := h₂.mp hb
      exact Contains_of_cover s other
        (cover_of_all_contained s other (fun k hk => hall k (hperm.mem_iff.mpr hk))) x hx
    · intro hs hsub
      apply h₂.mpr
      intro k hk
      exact hsub k (Contains_key s hs k (hperm.mem_iff.mp hk))
    · intro hnil
      apply h₂.mpr
      intro k hk
      have := hperm.mem_iff.mp hk
      rw [hnil] at this
      exact absurd this (List.not_mem_nil _)

/-- Witness for C20: the `int` set `{1}` is a subset of `{1, 2}`. -/
theorem Set_IsSubsetOf_iff_witness :
    ∃ b, (Set.mk (rwmutex.Create []) (some ((Map.make : Map Int).insert 1))).IsSubsetOf
        List.reverse
        (.ptr (Set.mk (rwmutex.Create []) (some (((Map.make : Map Int).insert 1).insert 2)))) =
        .ok b ∧
      (b = true → ∀ x,
        (Set.mk (rwmutex.Create []) (some ((Map.make : Map Int).insert 1))).Contains x =
          .ok true →
        (Set.mk (rwmutex.Create []) (some (((Map.make : Map Int).insert 1).insert 2))).Contains
          x = .ok true) := by
  obtain ⟨b, h₁, h₂, -⟩ := (Set_IsSubsetOf_iff List.reverse (fun l => List.reverse_perm l)
    (Set.mk (rwmutex.Create []) (some ((Map.make : Map Int).insert 1)))
    (.ptr (Set.mk (rwmutex.Create []) (some (((Map.make : Map Int).insert 1).insert 2))))).1
    _ rfl
  exact ⟨b, h₁, h₂⟩

/-- Claim C20 as stated fails on a NaN: the set made by `NewFrom([NaN])` has no
member, so each of its members is a member of the empty set, yet `IsSubsetOf`
the empty set is false. -/
theorem Set_IsSubsetOf_NaN :
    ∃ s, NewFrom [Float64.NaN] [] = .ok s ∧
      (∀ x, s.Contains x = .ok true → (New [] : Set Float64).Contains x = .ok true) ∧
      s.IsSubsetOf List.reverse (.ptr (New [])) = .ok false := by
  refine ⟨_, rfl, ?_, by decide⟩
  intro x hx
  cases x with
  | NaN => exact absurd hx (by decide)
  | ofInt v => cases hx

end gods.set
namespace gods

variable {K : Type} [Comparable K]

/-! ## Maps: a run of stores, a run of deletions -/

theorem any_same_congr (l : List K) {a x : K} (h : same a x = true) :
    l.any (fun k => same k a) = l.any (fun k => same k x) := by
  induction l with
  | nil => rfl
  | cons k rest ih =>
    rw [List.any_cons, List.any_cons, ih, same_comm k a, same_comm k x, same_congr_left h k]

theorem Map.mem_keys_delete (m : Map K) (k a : K) :
    a ∈ (m.delete k).keys ↔ a ∈ m.keys ∧ same a k = false := by
  rw [Map.keys_delete, List.mem_filter]
  simp

theorem Map.contains_foldl_insert (ks : List K)
    (hks : ∀ k, k ∈ ks → Comparable.hashable k = true) :
    ∀ (m : Map K) (x : K), (ks.foldl Map.insert m).contains x = true ↔
      m.contains x = true ∨ ∃ k, k ∈ ks ∧ same k x = true := by
  induction ks with
  | nil => intro m x; simp
  | cons k rest ih =>
    intro m x
    rw [List.foldl_cons, ih (fun c hc => hks c (List.mem_cons_of_mem _ hc)),
      Map.contains_insert m k x (hks k (List.mem_cons_self _ _))]
    constructor
    · rintro ((h | h) | ⟨c, hc, h⟩)
      · exact Or.inl h
      · exact Or.inr ⟨k, List.mem_cons_self _ _, h⟩
      · exact Or.inr ⟨c, List.mem_cons_of_mem _ hc, h⟩
    · rintro (h | ⟨c, hc, h⟩)
      · exact Or.inl (Or.inl h)
      · rcases List.mem_cons.mp hc with e | hc
        · exact Or.inl (Or.inr (e ▸ h))
        · exact Or.inr ⟨c, hc, h⟩

/-- Storing keys that differ from one another and from the keys already there
adds them one after the other. -/
theorem Map.keys_foldl_insert_fresh (ks : List K)
    (hks : ∀ k, k ∈ ks → Comparable.hashable k = true)
    (hp : ks.Pairwise (fun a b => same a b = false)) :
    ∀ m : Map K, (∀ k, k ∈ ks → m.contains k = false) →
      (ks.foldl Map.insert m).keys = m.keys ++ ks := by
  induction ks with
  | nil => intro m _; simp
  | cons k rest ih =>
    intro m hm
    have hk := hks k (List.mem_cons_self _ _)
    have hkeys := Map.keys_insert_of_not_contains m k hk (hm k (List.mem_cons_self _ _))
    rw [List.foldl_cons, ih (fun c hc => hks c (List.mem_cons_of_mem _ hc))
      (List.Pairwise.of_cons hp), hkeys, List.append_assoc]
    · rfl
    · intro c hc
      rw [← Bool.not_eq_true, Map.contains_insert m k c hk]
      rintro (h | h)
      · rw [hm c (List.mem_cons_of_mem _ hc)] at h
        cases h
      · rw [List.rel_of_pairwise_cons hp hc] at h
        cases h

theorem Map.mem_keys_foldl_delete (ks : List K) :
    ∀ (m : Map K) (a : K), a ∈ (ks.foldl Map.delete m).keys ↔
      a ∈ m.keys ∧ ∀ k, k ∈ ks → same a k = false := by
  induction ks with
  | nil => intro m a; simp
  | cons k rest ih =>
    intro m a
    rw [List.foldl_cons, ih, Map.mem_keys_delete]
    constructor
    · rintro ⟨⟨h₁, h₂⟩, h₃⟩
      refine ⟨h₁, ?_⟩
      intro c hc
      rcases List.mem_cons.mp hc with e | hc
      · rw [e]; exact h₂
      · exact h₃ c hc
    · rintro ⟨h₁, h₂⟩
      exact ⟨⟨h₁, h₂ k (List.mem_cons_self _ _)⟩, fun c hc => h₂ c (List.mem_cons_of_mem _ hc)⟩

/-- From the keys of a map to its members, for a map that keeps the keys of
another with a property that equal values share. -/
theorem Map.contains_of_keys (m m' : Map K) (p : K → Prop)
    (hp : ∀ a x, same a x = true → (p a ↔ p x))
    (h : ∀ a, a ∈ m'.keys ↔ a ∈ m.keys ∧ p a) (x : K) :
    m'.contains x = true ↔ m.contains x = true ∧ p x := by
  rw [Map.contains_iff, Map.contains_iff]
  constructor
  · rintro ⟨a, ha, hax⟩
    obtain ⟨ha', hpa⟩ := (h a).mp ha
    exact ⟨⟨a, ha', hax⟩, (hp a x hax).mp hpa⟩
  · rintro ⟨⟨a, ha, hax⟩, hpx⟩
    exact ⟨a, (h a).mpr ⟨ha, (hp a x hax).mpr hpx⟩, hax⟩

/-- What a range over a map does not find. -/
theorem any_false_iff_of_perm {ks keys : List K} (hperm : ks.Perm keys) (a : K) :
    (∀ k, k ∈ ks → same a k = false) ↔ keys.any (fun k => same k a) = false := by
  rw [← Bool.not_eq_true, List.any_eq_true]
  constructor
  · rintro h ⟨k, hk, hka⟩
    rw [same_comm, h k (hperm.mem_iff.mpr hk)] at hka
    cases hka
  · intro h k hk
    rw [← Bool.not_eq_true]
    intro hak
    exact h ⟨k, hperm.mem_iff.mp hk, (same_comm k a).trans hak⟩

/-- The keys that a pass of `Intersect` over an operand keeps: those the operand
holds and those that differ from themselves. -/
theorem kept_iff {ks keys : List K} (hperm : ks.Perm keys) (kb : List K) (a : K)
    (ha : a ∈ keys) :
    (∀ k, k ∈ ks → kb.any (fun b => same b k) = false → same a k = false) ↔
      (kb.any (fun b => same b a) = true ∨ same a a = false) := by
  constructor
  · intro h
    by_cases haa : same a a = true
    · left
      by_contra hb
      have := h a (hperm.mem_iff.mpr ha) (Bool.eq_false_iff.mpr hb)
      rw [haa] at this
      cases this
    · right
      exact Bool.eq_false_iff.mpr haa
  · rintro (h | h) k _ hk
    · rw [← Bool.not_eq_true]
      intro hak
      rw [any_same_congr kb hak, hk] at h
      cases h
    · rw [← Bool.not_eq_true]
      intro hak
      rw [same_self_of_same hak] at h
      cases h

end gods

namespace gods.set

variable {T : Type} [Comparable T]

/-! ## The store of maps -/

theorem Store.read_new (l : List (Map T)) (m : Map T) :
    (Store.mk (l ++ [m])).read (some l.length) = some m := by
  simp [Store.read]

theorem Store.read_append (l ext : List (Map T)) (p : SetPtr)
    (h : p.valid (Store.mk l) = true) :
    (Store.mk (l ++ ext)).read p.data = (Store.mk l).read p.data := by
  unfold SetPtr.valid at h
  cases hd : p.data with
  | none => rfl
  | some a =>
    rw [hd] at h
    simp only [decide_eq_true_eq] at h
    simp only [Store.read, List.get?_eq_getElem?]
    exact List.getElem?_append_left h

theorem valid_append (l ext : List (Map T)) (p : SetPtr) (h : p.valid (Store.mk l) = true) :
    p.valid (Store.mk (l ++ ext)) = true := by
  unfold SetPtr.valid at h ⊢
  cases hd : p.data with
  | none => rfl
  | some a =>
    rw [hd] at h
    simp only [decide_eq_true_eq, List.length_append] at h ⊢
    omega

theorem valid_of_validAll (σ : Store T) (others : List (Option SetPtr)) (B : SetPtr)
    (h : validAll σ others = true) (hB : some B ∈ others) : B.valid σ = true := by
  unfold validAll at h
  exact (List.all_eq_true.mp h) (some B) hB

theorem validAll_tail (σ : Store T) (other : Option SetPtr) (rest : List (Option SetPtr))
    (h : validAll σ (other :: rest) = true) : validAll σ rest = true := by
  unfold validAll at h ⊢
  rw [List.all_cons, Bool.and_eq_true] at h
  exact h.2

theorem validAll_single (σ : Store T) (B : SetPtr) (hB : B.valid σ = true) :
    validAll σ [some B] = true := by
  simp only [validAll, List.all_cons, List.all_nil, Bool.and_true]
  exact hB

/-- A set of the store is a set of every larger store, with the same mode and
the same map. -/
theorem load_append (l ext : List (Map T)) (p : SetPtr) (h : p.valid (Store.mk l) = true) :
    p.load (Store.mk (l ++ ext)) = p.load (Store.mk l) := by
  unfold SetPtr.load
  rw [Store.read_append l ext p h]

/-- The set that points to the newest map. -/
theorem load_new (l : List (Map T)) (m : Map T) (mu : rwmutex.RWMutex) :
    (SetPtr.mk mu (some l.length)).load (Store.mk (l ++ [m])) = Set.mk mu (some m) := by
  simp only [SetPtr.load, Store.read_new]

theorem load_of_read (σ : Store T) (mu : rwmutex.RWMutex) (a : Nat) (m : Map T)
    (h : σ.read (some a) = some m) : (SetPtr.mk mu (some a)).load σ = Set.mk mu (some m) := by
  simp only [SetPtr.load, h]

/-- The set made by `New` in a store is empty. -/
theorem Store_New_eq (l : List (Map T)) (safe : List Bool) :
    (Store.mk l).New safe =
      (Store.mk (l ++ [Map.make]), SetPtr.mk (rwmutex.Create safe) (some l.length)) := rfl

theorem valid_of_read (σ : Store T) (mu : rwmutex.RWMutex) (a : Nat) (m : Map T)
    (h : σ.read (some a) = some m) : (SetPtr.mk mu (some a)).valid σ = true := by
  simp only [Store.read] at h
  simp only [SetPtr.valid, decide_eq_true_eq]
  by_contra hlt
  rw [List.get?_eq_none.mpr (by omega)] at h
  cases h

theorem Store.assign_new (l : List (Map T)) (m : Map T) (k : T)
    (hk : Comparable.hashable k = true) :
    (Store.mk (l ++ [m])).assign (some l.length) k = .ok (Store.mk (l ++ [m.insert k])) := by
  rw [Store.assign, Store.read_new, assign_some m k hk]
  simp [Store.write]

theorem Store.delete_new (l : List (Map T)) (m : Map T) (k : T)
    (hk : Comparable.hashable k = true) :
    (Store.mk (l ++ [m])).delete (some l.length) k = .ok (Store.mk (l ++ [m.delete k])) := by
  rw [Store.delete, Store.read_new, delete_some m k hk]
  simp [Store.write]

/-- The mode handed on by `s.mu.IsSafe()`. -/
theorem IsSafe_Create (b : Bool) : (rwmutex.Create [b]).IsSafe = b := by
  cases b <;> rfl

/-- What `Contains` answers, for a value that can be hashed. -/
theorem Contains_of_hashable (s : Set T) (x : T) (hx : Comparable.hashable x = true) :
    s.Contains x = .ok ((keysOf s.data).any (fun a => same a x)) := by
  rw [Set.Contains.eq_1]
  exact lookup_of_hashable _ _ hx

theorem Contains_true_iff (s : Set T) (x : T) :
    s.Contains x = .ok true ↔
      Comparable.hashable x = true ∧ (keysOf s.data).any (fun a => same a x) = true := by
  rw [Contains_iff, List.any_eq_true]

theorem Contains_false_iff (s : Set T) (x : T) :
    s.Contains x = .ok false ↔
      Comparable.hashable x = true ∧ (keysOf s.data).any (fun a => same a x) = false := by
  by_cases hx : Comparable.hashable x = true
  · rw [Contains_of_hashable s x hx]
    constructor
    · intro h
      injection h with h
      exact ⟨hx, h⟩
    · rintro ⟨-, h⟩
      rw [h]
  · constructor
    · intro h
      rw [Set.Contains.eq_1, lookup_of_not_hashable _ _ (Bool.eq_false_iff.mpr hx)] at h
      cases h
    · rintro ⟨h, -⟩
      exact absurd h hx

theorem hashable_of_Contains (s : Set T) (x : T) (b : Bool) (h : s.Contains x = .ok b) :
    Comparable.hashable x = true := by
  by_contra hx
  rw [Set.Contains.eq_1, lookup_of_not_hashable _ _ (Bool.eq_false_iff.mpr hx)] at h
  cases h

/-! ## NewFrom and Clone in a store -/

/-- The insertion loop of `NewFrom` stores into the new map only, one item
after the other. -/
theorem Store_NewFrom_range (l : List (Map T)) (items : List T)
    (hitems : ∀ v, v ∈ items → Comparable.hashable v = true) :
    ∀ m : Map T, Store.NewFrom.range (some l.length) (Store.mk (l ++ [m])) items =
      .ok (Store.mk (l ++ [items.foldl Map.insert m])) := by
  induction items with
  | nil => intro m; rfl
  | cons item rest ih =>
    intro m
    rw [Store.NewFrom.range, Store.assign_new l m item (hitems item (List.mem_cons_self _ _))]
    exact ih (fun v hv => hitems v (List.mem_cons_of_mem _ hv)) (m.insert item)

/-- Go `NewFrom` in a store: a new map that has received the items, the maps
already there untouched. -/
theorem Store_NewFrom_eq (l : List (Map T)) (items : List T) (safe : List Bool)
    (hitems : ∀ v, v ∈ items → Comparable.hashable v = true) :
    (Store.mk l).NewFrom items safe =
      .ok (Store.mk (l ++ [items.foldl Map.insert Map.make]),
        SetPtr.mk (rwmutex.Create safe) (some l.length)) := by
  simp only [Store.NewFrom, Store.make]
  rw [Store_NewFrom_range l items hitems]

/-- Go `Clone` in a store: a new map with the keys of the receiver, in the order
in which `Slice` has visited them. -/
theorem Set_Clone_eq (order : List T → List T) (horder : IsOrder order) (l : List (Map T))
    (s : SetPtr) :
    ∃ m', s.Clone order (Store.mk l) =
        .ok (Store.mk (l ++ [m']), SetPtr.mk (rwmutex.Create [s.mu.IsSafe]) (some l.length)) ∧
      m'.keys = (s.load (Store.mk l)).Slice order := by
  have hperm := Slice_perm order horder (s.load (Store.mk l))
  have hh : ∀ v, v ∈ (s.load (Store.mk l)).Slice order → Comparable.hashable v = true :=
    fun v hv => hashable_of_mem_keysOf _ v (hperm.mem_iff.mp hv)
  refine ⟨_, Store_NewFrom_eq l _ [s.mu.IsSafe] hh, ?_⟩
  rw [Map.keys_foldl_insert_fresh _ hh (pairwise_of_perm hperm (pairwise_keysOf _))]
  · rfl
  · intro k _
    exact Map.contains_make k

/-- The keys of a clone are the keys of the receiver. -/
theorem Clone_keys_perm (order : List T → List T) (horder : IsOrder order) (s : Set T)
    (m' : Map T) (h : m'.keys = s.Slice order) : m'.keys.Perm (keysOf s.data) := by
  rw [h]
  exact Slice_perm order horder s

/-- The keys visited by a range over the map of an operand, read in a larger
store. -/
theorem rangeMap_append_perm (order : List T → List T) (horder : IsOrder order)
    (l ext : List (Map T)) (B : SetPtr) (hB : B.valid (Store.mk l) = true) :
    (rangeMap order ((Store.mk (l ++ ext)).read B.data)).Perm
      (keysOf (B.load (Store.mk l)).data) := by
  rw [Store.read_append l ext B hB]
  exact rangeMap_perm order horder _

end gods.set

namespace gods.set

variable {T : Type} [Comparable T]

/-! ## Union -/

/-- The inner loop of `Union` stores into the new map only, one key after the
other. -/
theorem Union_keys_eq (l : List (Map T)) (mu : rwmutex.RWMutex) (ks : List T)
    (hks : ∀ k, k ∈ ks → Comparable.hashable k = true) :
    ∀ m : Map T, SetPtr.Union.keys (SetPtr.mk mu (some l.length)) (Store.mk (l ++ [m])) ks =
      .ok (Store.mk (l ++ [ks.foldl Map.insert m])) := by
  induction ks with
  | nil => intro m; rfl
  | cons k rest ih =>
    intro m
    rw [SetPtr.Union.keys, Store.assign_new l m k (hks k (List.mem_cons_self _ _))]
    exact ih (fun v hv => hks v (List.mem_cons_of_mem _ hv)) (m.insert k)

/-- The outer loop of `Union` adds the members of every non-nil operand. -/
theorem Union_range_eq (order : Nat → List T → List T) (horder : ∀ i, IsOrder (order i))
    (l : List (Map T)) (mu : rwmutex.RWMutex) (others : List (Option SetPtr))
    (hv : validAll (Store.mk l) others = true) (m : Map T) (i : Nat) :
    ∃ m', SetPtr.Union.range order (SetPtr.mk mu (some l.length)) i (Store.mk (l ++ [m]))
          others = .ok (Store.mk (l ++ [m'])) ∧
      ∀ x, m'.contains x = true ↔
        m.contains x = true ∨ ∃ B, some B ∈ others ∧
          (keysOf (B.load (Store.mk l)).data).any (fun k => same k x) = true := by
  induction others generalizing m i with
  | nil => exact ⟨m, rfl, fun x => by simp⟩
  | cons other rest ih =>
    have hrest := validAll_tail _ other rest hv
    cases other with
    | none =>
      obtain ⟨m', h₁, h₂⟩ := ih hrest m i
      refine ⟨m', ?_, ?_⟩
      · rw [SetPtr.Union.range]
        exact h₁
      · intro x
        rw [h₂ x]
        simp
    | some B =>
      have hB := valid_of_validAll _ _ B hv (List.mem_cons_self _ _)
      have hperm := rangeMap_append_perm (order i) (horder i) l [m] B hB
      have hks : ∀ k, k ∈ rangeMap (order i) ((Store.mk (l ++ [m])).read B.data) →
          Comparable.hashable k = true :=
        fun k hk => hashable_of_mem_keysOf _ k (hperm.mem_iff.mp hk)
      have h₁ := Union_keys_eq l mu _ hks m
      obtain ⟨m', h₃, h₄⟩ := ih hrest
        ((rangeMap (order i) ((Store.mk (l ++ [m])).read B.data)).foldl Map.insert m) (i + 1)
      refine ⟨m', ?_, ?_⟩
      · rw [SetPtr.Union.range, h₁]
        exact h₃
      · intro x
        rw [h₄ x, Map.contains_foldl_insert _ hks]
        have hB' : (∃ k, k ∈ rangeMap (order i) ((Store.mk (l ++ [m])).read B.data) ∧
            same k x = true) ↔
            (keysOf (B.load (Store.mk l)).data).any (fun k => same k x) = true := by
          rw [List.any_eq_true]
          constructor
          · rintro ⟨k, hk, h⟩
            exact ⟨k, hperm.mem_iff.mp hk, h⟩
          · rintro ⟨k, hk, h⟩
            exact ⟨k, hperm.mem_iff.mpr hk, h⟩
        rw [hB']
        simp only [List.mem_cons, Option.some.injEq]
        constructor
        · rintro ((h | h) | ⟨C, hC, h⟩)
          · exact Or.inl h
          · exact Or.inr ⟨B, Or.inl rfl, h⟩
          · exact Or.inr ⟨C, Or.inr hC, h⟩
        · rintro (h | ⟨C, hC | hC, h⟩)
          · exact Or.inl (Or.inl h)
          · exact Or.inl (Or.inr (hC ▸ h))
          · exact Or.inr ⟨C, hC, h⟩

/-- Go `Union` in a store: one new map, holding the members of the receiver and
of the non-nil operands. -/
theorem Union_eq (order : Nat → List T → List T) (horder : ∀ i, IsOrder (order i))
    (l : List (Map T)) (A : SetPtr) (Bs : List (Option SetPtr))
    (hBs : validAll (Store.mk l) Bs = true) :
    ∃ m', A.Union order (Store.mk l) Bs =
        .ok (Store.mk (l ++ [m']), SetPtr.mk (rwmutex.Create [A.mu.IsSafe]) (some l.length)) ∧
      ∀ x, m'.contains x = true ↔
        (keysOf (A.load (Store.mk l)).data).any (fun k => same k x) = true ∨
          ∃ B, some B ∈ Bs ∧
            (keysOf (B.load (Store.mk l)).data).any (fun k => same k x) = true := by
  obtain ⟨m₀, h₁, h₂⟩ := Set_Clone_eq (order 0) (horder 0) l A
  obtain ⟨m', h₃, h₄⟩ := Union_range_eq order horder l (rwmutex.Create [A.mu.IsSafe]) Bs hBs m₀ 1
  have hperm := Clone_keys_perm (order 0) (horder 0) _ m₀ h₂
  refine ⟨m', ?_, ?_⟩
  · rw [SetPtr.Union, h₁]
    simp only []
    rw [h₃]
  · intro x
    rw [h₄ x]
    have : m₀.contains x = (keysOf (A.load (Store.mk l)).data).any (fun k => same k x) := by
      rw [Map.contains, Bool.eq_iff_iff, List.any_eq_true, List.any_eq_true]
      constructor
      · rintro ⟨k, hk, h⟩
        exact ⟨k, hperm.mem_iff.mp hk, h⟩
      · rintro ⟨k, hk, h⟩
        exact ⟨k, hperm.mem_iff.mpr hk, h⟩
    rw [this]

/-! ## Diff -/

/-- The inner loop of `Diff` deletes from the new map only, one key after the
other. -/
theorem Diff_keys_eq (l : List (Map T)) (mu : rwmutex.RWMutex) (ks : List T)
    (hks : ∀ k, k ∈ ks → Comparable.hashable k = true) :
    ∀ m : Map T, SetPtr.Diff.keys (SetPtr.mk mu (some l.length)) (Store.mk (l ++ [m])) ks =
      .ok (Store.mk (l ++ [ks.foldl Map.delete m])) := by
  induction ks with
  | nil => intro m; rfl
  | cons k rest ih =>
    intro m
    rw [SetPtr.Diff.keys, Store.delete_new l m k (hks k (List.mem_cons_self _ _))]
    exact ih (fun v hv => hks v (List.mem_cons_of_mem _ hv)) (m.delete k)

/-- The outer loop of `Diff` removes the keys that a non-nil operand holds. -/
theorem Diff_range_eq (order : Nat → List T → List T) (horder : ∀ i, IsOrder (order i))
    (l : List (Map T)) (mu : rwmutex.RWMutex) (others : List (Option SetPtr))
    (hv : validAll (Store.mk l) others = true) (m : Map T) (i : Nat) :
    ∃ m', SetPtr.Diff.range order (SetPtr.mk mu (some l.length)) i (Store.mk (l ++ [m]))
          others = .ok (Store.mk (l ++ [m'])) ∧
      ∀ a, a ∈ m'.keys ↔
        a ∈ m.keys ∧ ∀ B, some B ∈ others →
          (keysOf (B.load (Store.mk l)).data).any (fun k => same k a) = false := by
  induction others generalizing m i with
  | nil => exact ⟨m, rfl, fun x => by simp⟩
  | cons other rest ih =>
    have hrest := validAll_tail _ other rest hv
    cases other with
    | none =>
      obtain ⟨m', h₁, h₂⟩ := ih hrest m i
      refine ⟨m', ?_, ?_⟩
      · rw [SetPtr.Diff.range]
        exact h₁
      · intro x
        rw [h₂ x]
        simp
    | some B =>
      have hB := valid_of_validAll _ _ B hv (List.mem_cons_self _ _)
      have hperm := rangeMap_append_perm (order i) (horder i) l [m] B hB
      have hks : ∀ k, k ∈ rangeMap (order i) ((Store.mk (l ++ [m])).read B.data) →
          Comparable.hashable k = true :=
        fun k hk => hashable_of_mem_keysOf _ k (hperm.mem_iff.mp hk)
      have h₁ := Diff_keys_eq l mu _ hks m
      obtain ⟨m', h₃, h₄⟩ := ih hrest
        ((rangeMap (order i) ((Store.mk (l ++ [m])).read B.data)).foldl Map.delete m) (i + 1)
      refine ⟨m', ?_, ?_⟩
      · rw [SetPtr.Diff.range, h₁]
        exact h₃
      · intro a
        rw [h₄ a, Map.mem_keys_foldl_delete, any_false_iff_of_perm hperm]
        simp only [List.mem_cons, Option.some.injEq]
        constructor
        · rintro ⟨⟨h, hB'⟩, hrest'⟩
          refine ⟨h, ?_⟩
          rintro C (hC | hC)
          · exact hC ▸ hB'
          · exact hrest' C hC
        · rintro ⟨h, hall⟩
          exact ⟨⟨h, hall B (Or.inl rfl)⟩, fun C hC => hall C (Or.inr hC)⟩

/-- Go `Diff` in a store: one new map, holding the keys of the receiver that no
non-nil operand holds. -/
theorem Diff_eq (order : Nat → List T → List T) (horder : ∀ i, IsOrder (order i))
    (l : List (Map T)) (A : SetPtr) (Bs : List (Option SetPtr))
    (hBs : validAll (Store.mk l) Bs = true) :
    ∃ m', A.Diff order (Store.mk l) Bs =
        .ok (Store.mk (l ++ [m']), SetPtr.mk (rwmutex.Create [A.mu.IsSafe]) (some l.length)) ∧
      ∀ a, a ∈ m'.keys ↔
        a ∈ keysOf (A.load (Store.mk l)).data ∧ ∀ B, some B ∈ Bs →
          (keysOf (B.load (Store.mk l)).data).any (fun k => same k a) = false := by
  obtain ⟨m₀, h₁, h₂⟩ := Set_Clone_eq (order 0) (horder 0) l A
  obtain ⟨m', h₃, h₄⟩ := Diff_range_eq order horder l (rwmutex.Create [A.mu.IsSafe]) Bs hBs m₀ 1
  have hperm := Clone_keys_perm (order 0) (horder 0) _ m₀ h₂
  refine ⟨m', ?_, ?_⟩
  · rw [SetPtr.Diff, h₁]
    simp only []
    rw [h₃]
  · intro a
    rw [h₄ a, hperm.mem_iff]

/-! ## Intersect -/

/-- The inner loop of `Intersect` deletes from the new map only: the visited
keys that the operand does not hold. -/
theorem Intersect_keys_eq (l : List (Map T)) (mu : rwmutex.RWMutex) (B : SetPtr)
    (hB : B.valid (Store.mk l) = true) (ks : List T)
    (hks : ∀ k, k ∈ ks → Comparable.hashable k = true) :
    ∀ m : Map T, ∃ m',
      SetPtr.Intersect.keys (SetPtr.mk mu (some l.length)) B (Store.mk (l ++ [m])) ks =
        .ok (Store.mk (l ++ [m'])) ∧
      ∀ a, a ∈ m'.keys ↔ a ∈ m.keys ∧ ∀ k, k ∈ ks →
        (keysOf (B.load (Store.mk l)).data).any (fun b => same b k) = false →
          same a k = false := by
  induction ks with
  | nil => intro m; exact ⟨m, rfl, fun a => by simp⟩
  | cons k rest ih =>
    intro m
    have hk := hks k (List.mem_cons_self _ _)
    have hread : lookup ((Store.mk (l ++ [m])).read B.data) k =
        .ok ((keysOf (B.load (Store.mk l)).data).any (fun b => same b k)) := by
      rw [Store.read_append l [m] B hB]
      exact lookup_of_hashable _ _ hk
    cases hb : (keysOf (B.load (Store.mk l)).data).any (fun b => same b k) with
    | false =>
      obtain ⟨m', h₁, h₂⟩ := ih (fun v hv => hks v (List.mem_cons_of_mem _ hv)) (m.delete k)
      refine ⟨m', ?_, ?_⟩
      · rw [SetPtr.Intersect.keys, hread, hb]
        simp only []
        rw [Store.delete_new l m k hk]
        exact h₁
      · intro a
        rw [h₂ a, Map.mem_keys_delete]
        constructor
        · rintro ⟨⟨h, hne⟩, hrest⟩
          refine ⟨h, ?_⟩
          intro c hc hcb
          rcases List.mem_cons.mp hc with e | hc
          · rw [e]; exact hne
          · exact hrest c hc hcb
        · rintro ⟨h, hall⟩
          exact ⟨⟨h, hall k (List.mem_cons_self _ _) hb⟩,
            fun c hc hcb => hall c (List.mem_cons_of_mem _ hc) hcb⟩
    | true =>
      obtain ⟨m', h₁, h₂⟩ := ih (fun v hv => hks v (List.mem_cons_of_mem _ hv)) m
      refine ⟨m', ?_, ?_⟩
      · rw [SetPtr.Intersect.keys, hread, hb]
        exact h₁
      · intro a
        rw [h₂ a]
        constructor
        · rintro ⟨h, hrest⟩
          refine ⟨h, ?_⟩
          intro c hc hcb
          rcases List.mem_cons.mp hc with e | hc
          · rw [e, hb] at hcb
            cases hcb
          · exact hrest c hc hcb
        · rintro ⟨h, hall⟩
          exact ⟨h, fun c hc hcb => hall c (List.mem_cons_of_mem _ hc) hcb⟩

/-- The outer loop of `Intersect`: a nil operand ends it with a new empty set,
and otherwise the new map keeps the keys that every operand holds, and the keys
that differ from themselves. -/
theorem Intersect_range_eq (order : Nat → List T → List T) (horder : ∀ i, IsOrder (order i))
    (l : List (Map T)) (s : SetPtr) (others : List (Option SetPtr))
    (hv : validAll (Store.mk l) others = true) (m : Map T) (i : Nat) :
    ∃ ext m' a,
      SetPtr.Intersect.range order s (SetPtr.mk (rwmutex.Create [s.mu.IsSafe]) (some l.length)) i
          (Store.mk (l ++ [m])) others =
        .ok (Store.mk (l ++ ext), SetPtr.mk (rwmutex.Create [s.mu.IsSafe]) (some a)) ∧
      (Store.mk (l ++ ext)).read (some a) = some m' ∧ l.length ≤ a ∧
      (others = [] → m' = m) ∧
      ∀ x, x ∈ m'.keys ↔
        none ∉ others ∧ x ∈ m.keys ∧
          ∀ B, some B ∈ others →
            ((keysOf (B.load (Store.mk l)).data).any (fun k => same k x) = true ∨
              same x x = false) := by
  induction others generalizing m i with
  | nil =>
    exact ⟨[m], m, l.length, rfl, Store.read_new l m, le_rfl, fun _ => rfl, fun x => by simp⟩
  | cons other rest ih =>
    have hrest := validAll_tail _ other rest hv
    cases other with
    | none =>
      refine ⟨[m] ++ [Map.make], Map.make, (l ++ [m]).length, ?_, ?_, ?_, ?_, ?_⟩
      · rw [SetPtr.Intersect.range, Store_New_eq, List.append_assoc]
      · rw [← List.append_assoc]
        exact Store.read_new (l ++ [m]) Map.make
      · simp
      · intro h; cases h
      · intro x
        simp [Map.make]
    | some B =>
      have hB := valid_of_validAll _ _ B hv (List.mem_cons_self _ _)
      have hperm : (rangeMap (order i) ((Store.mk (l ++ [m])).read (some l.length))).Perm
          m.keys := by
        rw [Store.read_new]
        exact rangeMap_perm (order i) (horder i) (some m)
      have hks : ∀ k, k ∈ rangeMap (order i) ((Store.mk (l ++ [m])).read (some l.length)) →
          Comparable.hashable k = true :=
        fun k hk => m.hashed k (hperm.mem_iff.mp hk)
      obtain ⟨m₁, h₁, h₂⟩ := Intersect_keys_eq l (rwmutex.Create [s.mu.IsSafe]) B hB _ hks m
      obtain ⟨ext, m', a, h₃, h₄, h₅, -, h₆⟩ := ih hrest m₁ (i + 1)
      refine ⟨ext, m', a, ?_, h₄, h₅, ?_, ?_⟩
      · rw [SetPtr.Intersect.range, h₁]
        exact h₃
      · intro h; cases h
      · intro x
        rw [h₆ x, h₂ x]
        simp only [List.mem_cons, Option.some.injEq]
        constructor
        · rintro ⟨hn, ⟨h, hBx⟩, hall⟩
          refine ⟨?_, h, ?_⟩
          · rintro (e | e)
            · cases e
            · exact hn e
          · rintro C (hC | hC)
            · rw [hC]
              exact (kept_iff hperm _ x h).mp hBx
            · exact hall C hC
        · rintro ⟨hn, h, hall⟩
          exact ⟨fun e => hn (Or.inr e), ⟨h, (kept_iff hperm _ x h).mpr (hall B (Or.inl rfl))⟩,
            fun C hC => hall C (Or.inr hC)⟩

/-- Go `Intersect` in a store: the maps already there are untouched, and the
new set holds the keys of the receiver that every operand holds or that differ
from themselves, none at all when an operand is nil. -/
theorem Intersect_eq (order : Nat → List T → List T) (horder : ∀ i, IsOrder (order i))
    (l : List (Map T)) (A : SetPtr) (Bs : List (Option SetPtr))
    (hBs : validAll (Store.mk l) Bs = true) :
    ∃ ext m' a, A.Intersect order (Store.mk l) Bs =
        .ok (Store.mk (l ++ ext), SetPtr.mk (rwmutex.Create [A.mu.IsSafe]) (some a)) ∧
      (Store.mk (l ++ ext)).read (some a) = some m' ∧ l.length ≤ a ∧
      (Bs = [] → m'.keys.Perm (keysOf (A.load (Store.mk l)).data)) ∧
      ∀ x, x ∈ m'.keys ↔
        none ∉ Bs ∧ x ∈ keysOf (A.load (Store.mk l)).data ∧
          ∀ B, some B ∈ Bs →
            ((keysOf (B.load (Store.mk l)).data).any (fun k => same k x) = true ∨
              same x x = false) := by
  obtain ⟨m₀, h₁, h₂⟩ := Set_Clone_eq (order 0) (horder 0) l A
  obtain ⟨ext, m', a, h₃, h₄, h₅, h₆, h₇⟩ := Intersect_range_eq order horder l A Bs hBs m₀ 1
  have hperm := Clone_keys_perm (order 0) (horder 0) _ m₀ h₂
  refine ⟨ext, m', a, ?_, h₄, h₅, ?_, ?_⟩
  · rw [SetPtr.Intersect, h₁]
    simp only []
    rw [h₃]
  · intro hnil
    rw [h₆ hnil]
    exact hperm
  · intro x
    rw [h₇ x, hperm.mem_iff]

end gods.set
namespace gods

/-- A duplicate-free list is as long as the two duplicate-free lists that split
its members between them. -/
theorem length_eq_add_of_split {K : Type} (p : K → Prop) {ka kd ki : List K} (hka : ka.Nodup)
    (hkd : kd.Nodup) (hki : ki.Nodup) (hd : ∀ x, x ∈ kd ↔ x ∈ ka ∧ ¬ p x)
    (hi : ∀ x, x ∈ ki ↔ x ∈ ka ∧ p x) : ka.length = kd.length + ki.length := by
  have hnd : (kd ++ ki).Nodup :=
    List.Nodup.append hkd hki (fun x hx hy => ((hd x).mp hx).2 ((hi x).mp hy).2)
  have hperm : ka.Perm (kd ++ ki) := by
    apply (List.perm_ext_iff_of_nodup hka hnd).mpr
    intro x
    rw [List.mem_append, hd x, hi x]
    tauto
  rw [hperm.length_eq, List.length_append]

end gods

namespace gods.set

variable {T : Type} [Comparable T]

/-! ## The laws of Union, Diff and Intersect -/

/-- Sets with the same keys, in whatever order, answer `Contains` alike. -/
theorem Contains_eq_of_perm (s o : Set T) (h : (keysOf s.data).Perm (keysOf o.data)) (x : T) :
    s.Contains x = o.Contains x := by
  apply Contains_congr
  intro y
  constructor
  · rintro ⟨a, ha, hay⟩
    exact ⟨a, h.mem_iff.mp ha, hay⟩
  · rintro ⟨a, ha, hay⟩
    exact ⟨a, h.mem_iff.mpr ha, hay⟩

/-- A key that is equal to itself is a member. -/
theorem any_of_mem_of_refl (l : List T) (a : T) (ha : a ∈ l) (hr : same a a = true) :
    l.any (fun k => same k a) = true :=
  List.any_eq_true.mpr ⟨a, ha, hr⟩

/-- A key that differs from itself is no member of any set. -/
theorem any_of_not_refl (l : List T) (a : T) (hr : same a a = false) :
    l.any (fun k => same k a) = false := by
  rw [← Bool.not_eq_true, List.any_eq_true]
  rintro ⟨k, _, h⟩
  rw [same_self_of_same ((same_comm a k).trans h)] at hr
  cases hr

/-- Claim C21: `A.Union(B1, ..., Bn)` returns a set that contains `x` exactly
when `A` contains `x` or some non-nil `Bi` does; nil operands add nothing; and
after the call `A` and every `Bi` (which may be `A` itself) are as they were
before it. -/
theorem Union_spec (order : Nat → List T → List T) (horder : ∀ i, IsOrder (order i))
    (σ : Store T) (A : SetPtr) (Bs : List (Option SetPtr))
    (hA : A.valid σ = true) (hBs : validAll σ Bs = true) :
    ∃ σ' r, A.Union order σ Bs = .ok (σ', r) ∧
      (∀ x, (r.load σ').Contains x = .ok true ↔
        (A.load σ).Contains x = .ok true ∨
          ∃ B, some B ∈ Bs ∧ (B.load σ).Contains x = .ok true) ∧
      A.load σ' = A.load σ ∧
      ∀ B, some B ∈ Bs → B.load σ' = B.load σ := by
  obtain ⟨l⟩ := σ
  obtain ⟨m', h₁, h₂⟩ := Union_eq order horder l A Bs hBs
  refine ⟨_, _, h₁, ?_, load_append l [m'] A hA, ?_⟩
  · intro x
    rw [load_new, Contains_of_some _ m' rfl, h₂ x]
    simp only [Contains_true_iff]
    constructor
    · rintro ⟨hx, h | ⟨B, hB, h⟩⟩
      · exact Or.inl ⟨hx, h⟩
      · exact Or.inr ⟨B, hB, hx, h⟩
    · rintro (⟨hx, h⟩ | ⟨B, hB, hx, h⟩)
      · exact ⟨hx, Or.inl h⟩
      · exact ⟨hx, Or.inr ⟨B, hB, h⟩⟩
  · intro B hB
    exact load_append l [m'] B (valid_of_validAll _ _ B hBs hB)

/-- Witness for C21: `{1, 2}.Union({2, 3}, itself, nil)`, every range running
through the keys in reverse. -/
theorem Union_spec_witness :
    ∃ σ' r,
      (SetPtr.mk (rwmutex.Create []) (some 0)).Union (fun _ => List.reverse)
        (Store.mk [((Map.make : Map Int).insert 1).insert 2,
          ((Map.make : Map Int).insert 2).insert 3])
        [some (SetPtr.mk (rwmutex.Create []) (some 1)),
          some (SetPtr.mk (rwmutex.Create []) (some 0)), none] = .ok (σ', r) ∧
      (∀ x, (r.load σ').Contains x = .ok true ↔
        ((SetPtr.mk (rwmutex.Create []) (some 0)).load
            (Store.mk [((Map.make : Map Int).insert 1).insert 2,
              ((Map.make : Map Int).insert 2).insert 3])).Contains x = .ok true ∨
          ∃ B, some B ∈ [some (SetPtr.mk (rwmutex.Create []) (some 1)),
              some (SetPtr.mk (rwmutex.Create []) (some 0)), none] ∧
            (B.load (Store.mk [((Map.make : Map Int).insert 1).insert 2,
              ((Map.make : Map Int).insert 2).insert 3])).Contains x = .ok true) ∧
      (SetPtr.mk (rwmutex.Create []) (some 0)).load σ' =
        (SetPtr.mk (rwmutex.Create []) (some 0)).load
          (Store.mk [((Map.make : Map Int).insert 1).insert 2,
            ((Map.make : Map Int).insert 2).insert 3]) ∧
      ∀ B, some B ∈ [some (SetPtr.mk (rwmutex.Create []) (some 1)),
          some (SetPtr.mk (rwmutex.Create []) (some 0)), none] →
        B.load σ' = B.load (Store.mk [((Map.make : Map Int).insert 1).insert 2,
          ((Map.make : Map Int).insert 2).insert 3]) :=
  Union_spec (fun _ => List.reverse) (fun _ l => List.reverse_perm l) _ _ _
    (by decide) (by decide)

/-- Claim C22, with the last part for sets without NaN keys: `A.Diff(B1, ...,
Bn)` returns a set that contains `x` exactly when `A` contains `x` and no
non-nil `Bi` does; nil operands remove nothing; after the call `A` and every
`Bi` are as they were before it; and `A.Diff(A)` has no member, its keys are
the keys of `A` that differ from themselves, and it is empty (`Size()` is zero)
when every key of `A` is equal to itself. -/
theorem Diff_spec (order : Nat → List T → List T) (horder : ∀ i, IsOrder (order i))
    (σ : Store T) (A : SetPtr) (Bs : List (Option SetPtr))
    (hA : A.valid σ = true) (hBs : validAll σ Bs = true) :
    (∃ σ' r, A.Diff order σ Bs = .ok (σ', r) ∧
      (∀ x, (r.load σ').Contains x = .ok true ↔
        (A.load σ).Contains x = .ok true ∧
          ∀ B, some B ∈ Bs → (B.load σ).Contains x = .ok false) ∧
      A.load σ' = A.load σ ∧
      ∀ B, some B ∈ Bs → B.load σ' = B.load σ) ∧
    ∃ σ' r, A.Diff order σ [some A] = .ok (σ', r) ∧
      (∀ x, (r.load σ').Contains x ≠ .ok true) ∧
      (∀ k, k ∈ keysOf (r.load σ').data ↔ k ∈ keysOf (A.load σ).data ∧ same k k = false) ∧
      ((∀ k, k ∈ keysOf (A.load σ).data → same k k = true) → (r.load σ').Size = 0) ∧
      A.load σ' = A.load σ := by
  obtain ⟨l⟩ := σ
  constructor
  · obtain ⟨m', h₁, h₂⟩ := Diff_eq order horder l A Bs hBs
    refine ⟨_, _, h₁, ?_, load_append l [m'] A hA, ?_⟩
    · intro x
      have hc := Map.contains_of_keys
        (Map.mk (keysOf (A.load (Store.mk l)).data)
          (fun k hk => hashable_of_mem_keysOf _ k hk) (pairwise_keysOf _)) m'
        (fun a => ∀ B, some B ∈ Bs →
          (keysOf (B.load (Store.mk l)).data).any (fun k => same k a) = false)
        (fun a y hay => by
          constructor
          · intro h B hB
            rw [← any_same_congr _ hay]
            exact h B hB
          · intro h B hB
            rw [any_same_congr _ hay]
            exact h B hB)
        h₂ x
      rw [load_new, Contains_of_some _ m' rfl, hc, Contains_true_iff]
      simp only [Contains_false_iff, Map.contains]
      constructor
      · rintro ⟨hx, h, hall⟩
        exact ⟨⟨hx, h⟩, fun B hB => ⟨hx, hall B hB⟩⟩
      · rintro ⟨⟨hx, h⟩, hall⟩
        exact ⟨hx, h, fun B hB => (hall B hB).2⟩
    · intro B hB
      exact load_append l [m'] B (valid_of_validAll _ _ B hBs hB)
  · obtain ⟨m', h₁, h₂⟩ := Diff_eq order horder l A [some A] (validAll_single _ A hA)
    have hkeys : ∀ k, k ∈ m'.keys ↔ k ∈ keysOf (A.load (Store.mk l)).data ∧ same k k = false := by
      intro k
      rw [h₂ k]
      constructor
      · rintro ⟨hk, hall⟩
        refine ⟨hk, ?_⟩
        rw [← Bool.not_eq_true]
        intro hr
        have := hall A (List.mem_cons_self _ _)
        rw [any_of_mem_of_refl _ k hk hr] at this
        cases this
      · rintro ⟨hk, hr⟩
        refine ⟨hk, ?_⟩
        intro B _
        exact any_of_not_refl _ k hr
    refine ⟨_, _, h₁, ?_, ?_, ?_, load_append l [m'] A hA⟩
    · intro x hx
      rw [load_new, Contains_of_some _ m' rfl, Map.contains_iff] at hx
      obtain ⟨-, a, ha, hax⟩ := hx
      have := ((hkeys a).mp ha).2
      rw [same_self_of_same hax] at this
      cases this
    · intro k
      rw [load_new]
      exact hkeys k
    · intro hr
      rw [load_new, Set.Size.eq_1, lenMap_eq]
      have : m'.keys = [] := by
        apply List.eq_nil_iff_forall_not_mem.mpr
        intro k hk
        obtain ⟨hk', hne⟩ := (hkeys k).mp hk
        rw [hr k hk'] at hne
        cases hne
      simp only [keysOf, this]
      rfl

/-- Witness for C22: `{1, 2}.Diff({2, 3}, nil)`, every range running through
the keys in reverse. -/
theorem Diff_spec_witness :
    (∃ σ' r,
      (SetPtr.mk (rwmutex.Create []) (some 0)).Diff (fun _ => List.reverse)
        (Store.mk [((Map.make : Map Int).insert 1).insert 2,
          ((Map.make : Map Int).insert 2).insert 3])
        [some (SetPtr.mk (rwmutex.Create []) (some 1)), none] = .ok (σ', r) ∧
      (∀ x, (r.load σ').Contains x = .ok true ↔
        ((SetPtr.mk (rwmutex.Create []) (some 0)).load
            (Store.mk [((Map.make : Map Int).insert 1).insert 2,
              ((Map.make : Map Int).insert 2).insert 3])).Contains x = .ok true ∧
          ∀ B, some B ∈ [some (SetPtr.mk (rwmutex.Create []) (some 1)), none] →
            (B.load (Store.mk [((Map.make : Map Int).insert 1).insert 2,
              ((Map.make : Map Int).insert 2).insert 3])).Contains x = .ok false)) ∧
    ∃ σ' r,
      (SetPtr.mk (rwmutex.Create []) (some 0)).Diff (fun _ => List.reverse)
        (Store.mk [((Map.make : Map Int).insert 1).insert 2,
          ((Map.make : Map Int).insert 2).insert 3])
        [some (SetPtr.mk (rwmutex.Create []) (some 0))] = .ok (σ', r) ∧
      (∀ x, (r.load σ').Contains x ≠ .ok true) ∧ (r.load σ').Size = 0 := by
  obtain ⟨⟨σ₁, r₁, h₁, h₂, -⟩, σ₂, r₂, h₃, h₄, -, h₅, -⟩ :=
    Diff_spec (fun _ => List.reverse) (fun _ l => List.reverse_perm l)
      (Store.mk [((Map.make : Map Int).insert 1).insert 2,
        ((Map.make : Map Int).insert 2).insert 3])
      (SetPtr.mk (rwmutex.Create []) (some 0))
      [some (SetPtr.mk (rwmutex.Create []) (some 1)), none] (by decide) (by decide)
  exact ⟨⟨σ₁, r₁, h₁, h₂⟩, σ₂, r₂, h₃, h₄, h₅ (by decide)⟩

/-- Claim C22 as stated fails on a NaN: for the set `A` made of a NaN,
`A.Diff(A)` still holds the NaN: its `Size()` is one and its `Slice()` is not
empty. -/
theorem Diff_self_NaN :
    ∃ σ' r,
      (SetPtr.mk (rwmutex.Create []) (some 0)).Diff (fun _ l => l)
        (Store.mk [(Map.make : Map Float64).insert Float64.NaN])
        [some (SetPtr.mk (rwmutex.Create []) (some 0))] = .ok (σ', r) ∧
      (r.load σ').Size = 1 ∧ (r.load σ').Slice (fun l => l) = [Float64.NaN] :=
  ⟨_, _, rfl, rfl, rfl⟩

/-- Claim C23: `A.Intersect(B1, ..., Bn)` returns a set that contains `x`
exactly when no `Bi` is nil, `A` contains `x` and every `Bi` contains `x`; so
a nil operand anywhere makes the result empty; with no operands the result
has the keys of `A`, so its members and its size, and is `Equal` to `A` when
every key of `A` is equal to itself; and after the call `A` and every `Bi` are
as they were before it. -/
theorem Intersect_spec (order : Nat → List T → List T) (horder : ∀ i, IsOrder (order i))
    (σ : Store T) (A : SetPtr) (Bs : List (Option SetPtr))
    (hA : A.valid σ = true) (hBs : validAll σ Bs = true) :
    (∃ σ' r, A.Intersect order σ Bs = .ok (σ', r) ∧
      (∀ x, (r.load σ').Contains x = .ok true ↔
        none ∉ Bs ∧ (A.load σ).Contains x = .ok true ∧
          ∀ B, some B ∈ Bs → (B.load σ).Contains x = .ok true) ∧
      (none ∈ Bs → keysOf (r.load σ').data = [] ∧
        (∀ x, Comparable.hashable x = true → (r.load σ').Contains x = .ok false) ∧
        (r.load σ').Size = 0) ∧
      A.load σ' = A.load σ ∧
      ∀ B, some B ∈ Bs → B.load σ' = B.load σ) ∧
    ∃ σ' r, A.Intersect order σ [] = .ok (σ', r) ∧
      (keysOf (r.load σ').data).Perm (keysOf (A.load σ').data) ∧
      (∀ x, (r.load σ').Contains x = (A.load σ').Contains x) ∧
      (r.load σ').Size = (A.load σ').Size ∧
      ∀ order', IsOrder order' → (∀ k, k ∈ keysOf (A.load σ).data → same k k = true) →
        (r.load σ').Equal order' (.ptr (A.load σ')) = .ok true := by
  obtain ⟨l⟩ := σ
  constructor
  · obtain ⟨ext, m', a, h₁, h₂, _, _, h₄⟩ := Intersect_eq order horder l A Bs hBs
    have hload := load_of_read _ (rwmutex.Create [A.mu.IsSafe]) a m' h₂
    refine ⟨_, _, h₁, ?_, ?_, load_append l ext A hA, ?_⟩
    · intro x
      rw [hload, Contains_of_some _ m' rfl, Map.contains_iff]
      simp only [Contains_true_iff]
      constructor
      · rintro ⟨hx, k, hk, hkx⟩
        obtain ⟨hn, hkA, hall⟩ := (h₄ k).mp hk
        have hkk := same_self_of_same hkx
        refine ⟨hn, ⟨hx, List.any_eq_true.mpr ⟨k, hkA, hkx⟩⟩, ?_⟩
        intro B hB
        refine ⟨hx, ?_⟩
        rcases hall B hB with h | h
        · rw [← any_same_congr _ hkx]
          exact h
        · rw [hkk] at h
          cases h
      · rintro ⟨hn, ⟨hx, hAx⟩, hall⟩
        obtain ⟨k, hk, hkx⟩ := List.any_eq_true.mp hAx
        refine ⟨hx, k, (h₄ k).mpr ⟨hn, hk, ?_⟩, hkx⟩
        intro B hB
        left
        rw [any_same_congr _ hkx]
        exact (hall B hB).2
    · intro hnil
      have hempty : m'.keys = [] := by
        apply List.eq_nil_iff_forall_not_mem.mpr
        intro k hk
        exact ((h₄ k).mp hk).1 hnil
      rw [hload]
      refine ⟨hempty, ?_, ?_⟩
      · intro x hx
        rw [Contains_of_hashable _ x hx]
        simp only [keysOf, hempty, List.any_nil]
      · rw [Set.Size.eq_1, lenMap_eq]
        simp only [keysOf, hempty]
        rfl
    · intro B hB
      exact load_append l ext B (valid_of_validAll _ _ B hBs hB)
  · obtain ⟨ext, m', a, h₁, h₂, _, h₃, _⟩ := Intersect_eq order horder l A [] rfl
    have hload := load_of_read _ (rwmutex.Create [A.mu.IsSafe]) a m' h₂
    have hperm : (keysOf ((SetPtr.mk (rwmutex.Create [A.mu.IsSafe]) (some a)).load
        (Store.mk (l ++ ext))).data).Perm (keysOf (A.load (Store.mk (l ++ ext))).data) := by
      rw [hload, load_append l ext A hA]
      exact h₃ rfl
    have hmem := Contains_eq_of_perm _ _ hperm
    have hsize : ((SetPtr.mk (rwmutex.Create [A.mu.IsSafe]) (some a)).load
        (Store.mk (l ++ ext))).Size = (A.load (Store.mk (l ++ ext))).Size := by
      rw [Set.Size.eq_1, Set.Size.eq_1, lenMap_eq, lenMap_eq, hperm.length_eq]
    refine ⟨_, _, h₁, hperm, hmem, hsize, ?_⟩
    intro order' horder' hr
    obtain ⟨b, hb₁, hb₂⟩ := Equal_ptr order' horder'
      ((SetPtr.mk (rwmutex.Create [A.mu.IsSafe]) (some a)).load (Store.mk (l ++ ext)))
      (A.load (Store.mk (l ++ ext)))
    have hb : b = true := by
      apply hb₂.mpr
      refine ⟨?_, ?_⟩
      · rw [Set.Size.eq_1, Set.Size.eq_1] at hsize
        exact hsize
      · intro k hk
        have hk' := hperm.mem_iff.mp hk
        refine Contains_key _ ?_ k hk'
        intro c hc
        rw [load_append l ext A hA] at hc
        exact hr c hc
    rw [hb₁, hb]

/-- Witness for C23: `{1, 2}.Intersect({2, 3}, nil)`, every range running
through the keys in reverse, is empty. -/
theorem Intersect_spec_witness :
    ∃ σ' r,
      (SetPtr.mk (rwmutex.Create []) (some 0)).Intersect (fun _ => List.reverse)
        (Store.mk [((Map.make : Map Int).insert 1).insert 2,
          ((Map.make : Map Int).insert 2).insert 3])
        [some (SetPtr.mk (rwmutex.Create []) (some 1)), none] = .ok (σ', r) ∧
      keysOf (r.load σ').data = [] ∧ (r.load σ').Size = 0 := by
  obtain ⟨σ', r, h₁, _, h₃, _⟩ :=
    (Intersect_spec (fun _ => List.reverse) (fun _ l => List.reverse_perm l)
      (Store.mk [((Map.make : Map Int).insert 1).insert 2,
        ((Map.make : Map Int).insert 2).insert 3])
      (SetPtr.mk (rwmutex.Create []) (some 0))
      [some (SetPtr.mk (rwmutex.Create []) (some 1)), none] (by decide) (by decide)).1
  exact ⟨σ', r, h₁, (h₃ (by simp)).1, (h₃ (by simp)).2.2⟩

/-- Claim C28, with the sizes for sets without NaN keys: for a non-nil `B`,
calling `A.Diff(B)` and then `A.Intersect(B)` gives two sets that split the
members of `A`: every member of `A` is in exactly one of them, neither
contains a value outside `A`, and `A.Size()` is the sum of their sizes when
every key of `A` is equal to itself. -/
theorem Diff_Intersect_partition (order₁ order₂ : Nat → List T → List T)
    (horder₁ : ∀ i, IsOrder (order₁ i)) (horder₂ : ∀ i, IsOrder (order₂ i))
    (σ : Store T) (A B : SetPtr) (hA : A.valid σ = true) (hB : B.valid σ = true) :
    ∃ σ₁ d σ₂ i, A.Diff order₁ σ [some B] = .ok (σ₁, d) ∧
      A.Intersect order₂ σ₁ [some B] = .ok (σ₂, i) ∧
      (∀ x, (A.load σ₂).Contains x = .ok true →
        ((d.load σ₂).Contains x = .ok true ∧ (i.load σ₂).Contains x = .ok false) ∨
        ((d.load σ₂).Contains x = .ok false ∧ (i.load σ₂).Contains x = .ok true)) ∧
      (∀ x, (d.load σ₂).Contains x = .ok true → (A.load σ₂).Contains x = .ok true) ∧
      (∀ x, (i.load σ₂).Contains x = .ok true → (A.load σ₂).Contains x = .ok true) ∧
      ((∀ k, k ∈ keysOf (A.load σ).data → same k k = true) →
        (A.load σ₂).Size = (d.load σ₂).Size + (i.load σ₂).Size) ∧
      A.load σ₂ = A.load σ ∧ B.load σ₂ = B.load σ := by
  obtain ⟨l⟩ := σ
  obtain ⟨md, h₁, h₂⟩ := Diff_eq order₁ horder₁ l A [some B] (validAll_single _ B hB)
  have hA₁ := valid_append l [md] A hA
  have hB₁ := valid_append l [md] B hB
  obtain ⟨ext, mi, a, h₃, h₄, _, _, h₆⟩ :=
    Intersect_eq order₂ horder₂ (l ++ [md]) A [some B] (validAll_single _ B hB₁)
  have hAl : A.load (Store.mk (l ++ [md] ++ ext)) = A.load (Store.mk l) := by
    rw [load_append (l ++ [md]) ext A hA₁, load_append l [md] A hA]
  have hBl : B.load (Store.mk (l ++ [md] ++ ext)) = B.load (Store.mk l) := by
    rw [load_append (l ++ [md]) ext B hB₁, load_append l [md] B hB]
  have hdv : (SetPtr.mk (rwmutex.Create [A.mu.IsSafe]) (some l.length)).valid
      (Store.mk (l ++ [md])) = true := valid_of_read _ _ _ md (Store.read_new l md)
  have hdl : (SetPtr.mk (rwmutex.Create [A.mu.IsSafe]) (some l.length)).load
      (Store.mk (l ++ [md] ++ ext)) = Set.mk (rwmutex.Create [A.mu.IsSafe]) (some md) := by
    rw [load_append (l ++ [md]) ext _ hdv, load_new]
  have hil := load_of_read _ (rwmutex.Create [A.mu.IsSafe]) a mi h₄
  have hdk : ∀ x, x ∈ md.keys ↔ x ∈ keysOf (A.load (Store.mk l)).data ∧
      (keysOf (B.load (Store.mk l)).data).any (fun k => same k x) = false := by
    intro x
    rw [h₂ x]
    simp
  have hik : ∀ x, x ∈ mi.keys ↔ x ∈ keysOf (A.load (Store.mk l)).data ∧
      ((keysOf (B.load (Store.mk l)).data).any (fun k => same k x) = true ∨
        same x x = false) := by
    intro x
    rw [h₆ x, load_append l [md] A hA]
    simp [load_append l [md] B hB]
  have hd : ∀ x, Comparable.hashable x = true →
      (md.contains x = true ↔ (keysOf (A.load (Store.mk l)).data).any (fun k => same k x) = true ∧
        (keysOf (B.load (Store.mk l)).data).any (fun k => same k x) = false) := by
    intro x _
    have hc := Map.contains_of_keys
      (Map.mk (keysOf (A.load (Store.mk l)).data)
        (fun k hk => hashable_of_mem_keysOf _ k hk) (pairwise_keysOf _)) md
      (fun c => (keysOf (B.load (Store.mk l)).data).any (fun k => same k c) = false)
      (fun c y hcy => by beta_reduce; rw [any_same_congr _ hcy]) hdk x
    rw [hc]
    rfl
  have hi : ∀ x, Comparable.hashable x = true →
      (mi.contains x = true ↔ (keysOf (A.load (Store.mk l)).data).any (fun k => same k x) = true ∧
        (keysOf (B.load (Store.mk l)).data).any (fun k => same k x) = true) := by
    intro x _
    rw [Map.contains_iff, List.any_eq_true]
    constructor
    · rintro ⟨k, hk, hkx⟩
      obtain ⟨hkA, h⟩ := (hik k).mp hk
      refine ⟨⟨k, hkA, hkx⟩, ?_⟩
      rcases h with h | h
      · rw [← any_same_congr _ hkx]
        exact h
      · rw [same_self_of_same hkx] at h
        cases h
    · rintro ⟨⟨k, hk, hkx⟩, hBx⟩
      refine ⟨k, (hik k).mpr ⟨hk, Or.inl ?_⟩, hkx⟩
      rw [any_same_congr _ hkx]
      exact hBx
  refine ⟨_, _, _, _, h₁, h₃, ?_, ?_, ?_, ?_, hAl, hBl⟩
  · intro x hx
    rw [hAl] at hx
    obtain ⟨hhx, hAx⟩ := (Contains_true_iff _ x).mp hx
    rw [hdl, hil, Contains_some _ md x hhx, Contains_some _ mi x hhx]
    cases hb : (keysOf (B.load (Store.mk l)).data).any (fun k => same k x) with
    | false =>
      left
      have h₁' : md.contains x = true := (hd x hhx).mpr ⟨hAx, hb⟩
      have h₂' : mi.contains x = false := by
        rw [← Bool.not_eq_true, hi x hhx, hb]
        simp
      rw [h₁', h₂']
      exact ⟨rfl, rfl⟩
    | true =>
      right
      have h₁' : md.contains x = false := by
        rw [← Bool.not_eq_true, hd x hhx, hb]
        simp
      have h₂' : mi.contains x = true := (hi x hhx).mpr ⟨hAx, hb⟩
      rw [h₁', h₂']
      exact ⟨rfl, rfl⟩
  · intro x hx
    rw [hAl]
    rw [hdl, Contains_of_some _ md rfl] at hx
    exact (Contains_true_iff _ x).mpr ⟨hx.1, ((hd x hx.1).mp hx.2).1⟩
  · intro x hx
    rw [hAl]
    rw [hil, Contains_of_some _ mi rfl] at hx
    exact (Contains_true_iff _ x).mpr ⟨hx.1, ((hi x hx.1).mp hx.2).1⟩
  · intro hr
    rw [hAl, hdl, hil]
    rw [Set.Size.eq_1, Set.Size.eq_1, Set.Size.eq_1, lenMap_eq, lenMap_eq, lenMap_eq]
    have hnd : ∀ m : Map T, (∀ k, k ∈ m.keys → k ∈ keysOf (A.load (Store.mk l)).data) →
        m.keys.Nodup := by
      intro m hm
      exact nodup_of_pairwise_of_refl m.distinct (fun k hk => hr k (hm k hk))
    have := length_eq_add_of_split
      (fun x => (keysOf (B.load (Store.mk l)).data).any (fun k => same k x) = true)
      (nodup_keysOf (A.load (Store.mk l)).data hr)
      (hnd md (fun k hk => ((hdk k).mp hk).1))
      (hnd mi (fun k hk => ((hik k).mp hk).1))
      (fun x => by
        rw [hdk x]
        simp)
      (fun x => by
        rw [hik x]
        constructor
        · rintro ⟨hx, h | h⟩
          · exact ⟨hx, h⟩
          · rw [hr x hx] at h
            cases h
        · rintro ⟨hx, h⟩
          exact ⟨hx, Or.inl h⟩)
    simp only [keysOf]
    simp only [keysOf] at this
    rw [this]
    push_cast
    rfl

/-- Witness for C28: `{1, 2}` is split by `{2, 3}` into `{1}` and `{2}`. -/
theorem Diff_Intersect_partition_witness :
    ∃ σ₁ d σ₂ i,
      (SetPtr.mk (rwmutex.Create []) (some 0)).Diff (fun _ => List.reverse)
        (Store.mk [((Map.make : Map Int).insert 1).insert 2,
          ((Map.make : Map Int).insert 2).insert 3])
        [some (SetPtr.mk (rwmutex.Create []) (some 1))] = .ok (σ₁, d) ∧
      (SetPtr.mk (rwmutex.Create []) (some 0)).Intersect (fun _ => List.reverse) σ₁
        [some (SetPtr.mk (rwmutex.Create []) (some 1))] = .ok (σ₂, i) ∧
      ((SetPtr.mk (rwmutex.Create []) (some 0)).load σ₂).Size =
        (d.load σ₂).Size + (i.load σ₂).Size := by
  obtain ⟨σ₁, d, σ₂, i, h₁, h₂, _, _, _, h₆, h₇, _⟩ :=
    Diff_Intersect_partition (fun _ => List.reverse) (fun _ => List.reverse)
      (fun _ l => List.reverse_perm l) (fun _ l => List.reverse_perm l)
      (Store.mk [((Map.make : Map Int).insert 1).insert 2,
        ((Map.make : Map Int).insert 2).insert 3])
      (SetPtr.mk (rwmutex.Create []) (some 0)) (SetPtr.mk (rwmutex.Create []) (some 1))
      (by decide) (by decide)
  exact ⟨σ₁, d, σ₂, i, h₁, h₂, h₆ (by decide)⟩

/-- Claim C28 as stated fails on a NaN: for the set `A` made of a NaN and an
empty `B`, both `A.Diff(B)` and `A.Intersect(B)` hold the NaN, so their sizes
add up to two while `A.Size()` is one. -/
theorem Diff_Intersect_NaN :
    ∃ σ₁ d σ₂ i,
      (SetPtr.mk (rwmutex.Create []) (some 0)).Diff (fun _ l => l)
        (Store.mk [(Map.make : Map Float64).insert Float64.NaN, Map.make])
        [some (SetPtr.mk (rwmutex.Create []) (some 1))] = .ok (σ₁, d) ∧
      (SetPtr.mk (rwmutex.Create []) (some 0)).Intersect (fun _ l => l) σ₁
        [some (SetPtr.mk (rwmutex.Create []) (some 1))] = .ok (σ₂, i) ∧
      ((SetPtr.mk (rwmutex.Create []) (some 0)).load σ₂).Size = 1 ∧
      (d.load σ₂).Size = 1 ∧ (i.load σ₂).Size = 1 :=
  ⟨_, _, _, _, rfl, rfl, rfl, rfl, rfl⟩

end gods.set
namespace gods.array

variable {T : Type}

/-! ## The mode of an array is never assigned -/

theorem Array_Set_mu (a : Array T) (i : Int) (v : T) (r : Option IndexError × Array T)
    (h : a.Set i v = .ok r) : r.2.mu = a.mu := by
  unfold Array.Set at h
  split at h
  · cases h; rfl
  · cases hs : setIndex a.array i v with
    | error p => rw [hs] at h; cases h
    | ok arr => rw [hs] at h; cases h; rfl

theorem Array_InsertBefore_mu (a : Array T) (i : Int) (v : T) (r : Option IndexError × Array T)
    (h : a.InsertBefore i v = .ok r) : r.2.mu = a.mu := by
  unfold Array.InsertBefore at h
  split at h
  · cases h; rfl
  · cases h₁ : sliceFrom a.array i with
    | error p => rw [h₁] at h; cases h
    | ok rear =>
      cases h₂ : slice a.array 0 i with
      | error p => rw [h₁, h₂] at h; cases h
      | ok front => rw [h₁, h₂] at h; cases h; rfl

theorem Array_InsertAfter_mu (a : Array T) (i : Int) (v : T) (r : Option IndexError × Array T)
    (h : a.InsertAfter i v = .ok r) : r.2.mu = a.mu := by
  unfold Array.InsertAfter at h
  split at h
  · cases h; rfl
  · cases h₁ : sliceFrom a.array (i + 1) with
    | error p => rw [h₁] at h; cases h
    | ok rear =>
      cases h₂ : slice a.array 0 (i + 1) with
      | error p => rw [h₁, h₂] at h; cases h
      | ok front => rw [h₁, h₂] at h; cases h; rfl

theorem Array_Remove_mu [Inhabited T] (a : Array T) (i : Int) (r : (T × Bool) × Array T)
    (h : a.Remove i = .ok r) : r.2.mu = a.mu := by
  unfold Array.Remove Array.doRemoveWithoutLock at h
  split at h
  · cases h; rfl
  · split at h
    · cases h₁ : index a.array 0 with
      | error p => rw [h₁] at h; cases h
      | ok value =>
        cases h₂ : sliceFrom a.array 1 with
        | error p => rw [h₁, h₂] at h; cases h
        | ok arr => rw [h₁, h₂] at h; cases h; rfl
    · split at h
      · cases h₁ : index a.array i with
        | error p => rw [h₁] at h; cases h
        | ok value =>
          cases h₂ : sliceTo a.array i with
          | error p => rw [h₁, h₂] at h; cases h
          | ok arr => rw [h₁, h₂] at h; cases h; rfl
      · cases h₁ : index a.array i with
        | error p => rw [h₁] at h; cases h
        | ok value =>
          cases h₂ : sliceTo a.array i with
          | error p => rw [h₁, h₂] at h; cases h
          | ok arr =>
            cases h₃ : sliceFrom a.array (i + 1) with
            | error p => rw [h₁, h₂, h₃] at h; cases h
            | ok rear => rw [h₁, h₂, h₃] at h; cases h; rfl

theorem Array_RemoveValue_mu [Comparable T] [Inhabited T] (a : Array T) (v : T)
    (r : Bool × Array T) (h : a.RemoveValue v = .ok r) : r.2.mu = a.mu := by
  unfold Array.RemoveValue at h
  cases hs : a.Search v with
  | error p => rw [hs] at h; cases h
  | ok i =>
    rw [hs] at h
    simp only [] at h
    split at h
    · cases h₁ : a.Remove i with
      | error p => rw [h₁] at h; cases h
      | ok q =>
        rw [h₁] at h
        cases h
        exact Array_Remove_mu a _ q h₁
    · cases h; rfl

theorem Array_PopLeft_mu [Inhabited T] (a : Array T) (r : (T × Bool) × Array T)
    (h : a.PopLeft = .ok r) : r.2.mu = a.mu := by
  unfold Array.PopLeft at h
  split at h
  · cases h; rfl
  · cases h₁ : index a.array 0 with
    | error p => rw [h₁] at h; cases h
    | ok value =>
      cases h₂ : sliceFrom a.array 1 with
      | error p => rw [h₁, h₂] at h; cases h
      | ok arr => rw [h₁, h₂] at h; cases h; rfl

theorem Array_PopRight_mu [Inhabited T] (a : Array T) (r : (T × Bool) × Array T)
    (h : a.PopRight = .ok r) : r.2.mu = a.mu := by
  rw [Array.PopRight.eq_1] at h
  split at h
  · cases h; rfl
  · cases h₁ : index a.array (len a.array - 1) with
    | error p => rw [h₁] at h; cases h
    | ok value =>
      cases h₂ : sliceTo a.array (len a.array - 1) with
      | error p => rw [h₁, h₂] at h; cases h
      | ok arr => rw [h₁, h₂] at h; cases h; rfl

theorem Array_Clear_mu [Inhabited T] (maxLen : Nat) (a : Array T) (r : Array T)
    (h : a.Clear maxLen = .ok r) : r.mu = a.mu := by
  unfold Array.Clear at h
  split at h
  · cases h₁ : (make maxLen 0 : Go (List T)) with
    | error p => rw [h₁] at h; cases h
    | ok arr => rw [h₁] at h; cases h; rfl
  · cases h; rfl

theorem Array_Unique_mu [Comparable T] (a : Array T) (r : Array T)
    (h : a.Unique = .ok r) : r.mu = a.mu := by
  unfold Array.Unique at h
  split at h
  · cases h
  · cases h; rfl

theorem Array_Reverse_mu (a : Array T) (r : Array T)
    (h : a.Reverse = .ok r) : r.mu = a.mu := by
  unfold Array.Reverse at h
  split at h
  · cases h
  · cases h; rfl

theorem Array_Fill_mu (maxLen : Nat) (a : Array T) (s c : Int) (v : T)
    (r : Option IndexError × Array T) (h : a.Fill maxLen s c v = .ok r) : r.2.mu = a.mu := by
  unfold Array.Fill at h
  split at h
  · cases h; rfl
  · split at h
    · cases h
    · cases h; rfl

theorem NewSize_mu [Inhabited T] (maxLen : Nat) (size cap : Int) (safe : List Bool)
    (r : Array T) (h : NewSize maxLen size cap safe = .ok r) : r.mu = rwmutex.Create safe := by
  unfold NewSize at h
  split at h
  · cases h
  · cases h; rfl

end gods.array

namespace gods.set

variable {T : Type} [Comparable T]

theorem Set_NewFrom_mu (items : List T) (safe : List Bool) (r : Set T)
    (h : NewFrom items safe = .ok r) : r.mu = rwmutex.Create safe := by
  unfold NewFrom at h
  split at h
  · cases h
  · cases h; rfl

theorem Store_NewFrom_mu (σ : Store T) (items : List T) (safe : List Bool) (σ' : Store T)
    (r : SetPtr) (h : σ.NewFrom items safe = .ok (σ', r)) : r.mu = rwmutex.Create safe := by
  unfold Store.NewFrom at h
  simp only [] at h
  split at h
  · cases h
  · cases h; rfl

theorem Set_Add_mu (s : Set T) (items : List T) (r : Set T)
    (h : s.Add items = .ok r) : r.mu = s.mu := by
  unfold Set.Add at h
  simp only [] at h
  split at h
  · cases h
  · cases h; rfl

theorem Set_Remove_mu (s : Set T) (items : List T) (r : Set T)
    (h : s.Remove items = .ok r) : r.mu = s.mu := by
  unfold Set.Remove at h
  split at h
  · split at h
    · cases h
    · cases h; rfl
  · cases h; rfl

end gods.set

namespace gods.stack

variable {T : Type}

theorem Stack_Pop_mu [Inhabited T] (s : Stack T) (r : T × Stack T)
    (h : s.Pop = .ok r) : r.2.data.mu = s.data.mu := by
  unfold Stack.Pop at h
  cases h₁ : s.data.PopRight with
  | error p => rw [h₁] at h; cases h
  | ok q =>
    rw [h₁] at h
    cases h
    exact array.Array_PopRight_mu s.data q h₁

theorem Stack_Peek_mu [Inhabited T] (s : Stack T) (r : T × Stack T)
    (h : s.Peek = .ok r) : r.2 = s := by
  unfold Stack.Peek at h
  split at h
  · cases h
  · cases h; rfl

end gods.stack

namespace gods

variable {T : Type}

/-! ## The safety mode -/

theorem IsSafe_Create_iff (safe : List Bool) :
    (rwmutex.Create safe).IsSafe = true ↔ safe.head? = some true := by
  cases safe with
  | nil => simp [rwmutex.Create, rwmutex.RWMutex.IsSafe]
  | cons b rest => cases b <;> simp [rwmutex.Create, rwmutex.RWMutex.IsSafe]

/-- Claim C26: the guard made by a constructor reports `IsSafe() = true` exactly
when the first `safe` flag is given and true, and every constructor of an
array, a set or a stack stores that guard; no operation that changes a
container changes its guard (array: `Set`, `Sort`, `InsertBefore`,
`InsertAfter`, `Remove`, `RemoveValue`, `PushLeft`, `PushRight`, `Append`,
`PopLeft`, `PopRight`, `Clear`, `Unique`, `Fill`, `Reverse`; set: `Add`,
`Remove`, `Clear`; stack: `Push`, `Pop`, `Peek`); and the results of
`Array.Clone`, `Stack.Clone`, `Set.Clone`, `Set.Union`, `Set.Diff` and
`Set.Intersect` (with or without a nil operand) report the same `IsSafe()` as
their receiver, the clones with the same contents. -/
theorem Mode_fixed [Inhabited T] [Comparable T] (maxLen : Nat) (safe : List Bool)
    (a : array.Array T) (s : set.Set T) (st : stack.Stack T)
    (σ : set.Store T) (p : set.SetPtr) (Bs : List (Option set.SetPtr))
    (order : Nat → List T → List T) (horder : ∀ i, IsOrder (order i))
    (ha : a.array.length ≤ maxLen) (hst : st.data.array.length ≤ maxLen)
    (hBs : set.validAll σ Bs = true) :
    -- the guard of a constructor
    (((rwmutex.Create safe).IsSafe = true ↔ safe.head? = some true) ∧
      (rwmutex.Create []).IsSafe = false) ∧
    -- the constructors store it
    ((∀ l : List T, (array.NewFrom l safe).mu = rwmutex.Create safe) ∧
      (∀ size cap (r : array.Array T),
        array.NewSize maxLen size cap safe = .ok r → r.mu = rwmutex.Create safe) ∧
      (∃ r : array.Array T, array.New maxLen safe = .ok r ∧ r.mu = rwmutex.Create safe) ∧
      (set.New safe : set.Set T).mu = rwmutex.Create safe ∧
      (∀ (items : List T) r, set.NewFrom items safe = .ok r → r.mu = rwmutex.Create safe) ∧
      (∀ items : List T, (∀ v, v ∈ items → Comparable.hashable v = true) →
        ∃ r, set.NewFrom items safe = .ok r ∧ r.mu = rwmutex.Create safe) ∧
      (σ.New safe).2.mu = rwmutex.Create safe ∧
      (∀ (items : List T) σ' r,
        σ.NewFrom items safe = .ok (σ', r) → r.mu = rwmutex.Create safe) ∧
      (∀ items : List T, (∀ v, v ∈ items → Comparable.hashable v = true) →
        ∃ σ' r, σ.NewFrom items safe = .ok (σ', r) ∧ r.mu = rwmutex.Create safe) ∧
      (∃ r : stack.Stack T, stack.New maxLen safe = .ok r ∧
        r.data.mu = rwmutex.Create safe) ∧
      (∀ l : List T, (stack.NewFrom l safe).data.mu = rwmutex.Create safe)) ∧
    -- the operations on an array keep it
    ((∀ i v r, a.Set i v = .ok r → r.2.mu = a.mu) ∧
      (∀ sortSlice less, (a.Sort sortSlice less).mu = a.mu) ∧
      (∀ i v r, a.InsertBefore i v = .ok r → r.2.mu = a.mu) ∧
      (∀ i v r, a.InsertAfter i v = .ok r → r.2.mu = a.mu) ∧
      (∀ i r, a.Remove i = .ok r → r.2.mu = a.mu) ∧
      (∀ v r, a.RemoveValue v = .ok r → r.2.mu = a.mu) ∧
      (∀ vs, (a.PushLeft vs).mu = a.mu) ∧
      (∀ vs, (a.PushRight vs).mu = a.mu) ∧
      (∀ vs, (a.Append vs).mu = a.mu) ∧
      (∀ r, a.PopLeft = .ok r → r.2.mu = a.mu) ∧
      (∀ r, a.PopRight = .ok r → r.2.mu = a.mu) ∧
      (∀ r, a.Clear maxLen = .ok r → r.mu = a.mu) ∧
      (∀ r, a.Unique = .ok r → r.mu = a.mu) ∧
      (∀ start num v r, a.Fill maxLen start num v = .ok r → r.2.mu = a.mu) ∧
      (∀ r, a.Reverse = .ok r → r.mu = a.mu)) ∧
    -- the operations on a set keep it
    ((∀ items r, s.Add items = .ok r → r.mu = s.mu) ∧
      (∀ items r, s.Remove items = .ok r → r.mu = s.mu) ∧
      s.Clear.mu = s.mu) ∧
    -- the operations on a stack keep it
    ((∀ v, (st.Push v).data.mu = st.data.mu) ∧
      (∀ r, st.Pop = .ok r → r.2.data.mu = st.data.mu) ∧
      (∀ r, st.Peek = .ok r → r.2.data.mu = st.data.mu)) ∧
    -- the clones
    ((∃ c, a.Clone maxLen = .ok c ∧ c.mu.IsSafe = a.mu.IsSafe ∧ c.array = a.array) ∧
      (∃ c, st.Clone maxLen = .ok c ∧ c.data.mu.IsSafe = st.data.mu.IsSafe ∧
        c.data.array = st.data.array) ∧
      (∃ σ' c, p.Clone (order 0) σ = .ok (σ', c) ∧ c.mu.IsSafe = p.mu.IsSafe ∧
        (keysOf (c.load σ').data).Perm (keysOf (p.load σ).data) ∧
        (∀ x, (c.load σ').Contains x = (p.load σ).Contains x) ∧
        (c.load σ').Size = (p.load σ).Size)) ∧
    -- the sets derived from sets
    ((∃ σ' r, p.Union order σ Bs = .ok (σ', r) ∧ r.mu.IsSafe = p.mu.IsSafe) ∧
      (∃ σ' r, p.Diff order σ Bs = .ok (σ', r) ∧ r.mu.IsSafe = p.mu.IsSafe) ∧
      (∃ σ' r, p.Intersect order σ Bs = .ok (σ', r) ∧ r.mu.IsSafe = p.mu.IsSafe) ∧
      (∃ σ' r, p.Intersect order σ (Bs ++ [none]) = .ok (σ', r) ∧
        r.mu.IsSafe = p.mu.IsSafe ∧ (r.load σ').Size = 0)) := by
  obtain ⟨l⟩ := σ
  refine ⟨⟨IsSafe_Create_iff safe, rfl⟩,
    ⟨fun _ => rfl, ?_, ?_, rfl, ?_, ?_, rfl, ?_, ?_, ?_, fun _ => rfl⟩,
    ⟨?_, fun _ _ => rfl, ?_, ?_, ?_, ?_, fun _ => rfl, fun _ => rfl, fun _ => rfl, ?_, ?_, ?_,
      ?_, ?_, ?_⟩,
    ⟨?_, ?_, rfl⟩, ⟨fun _ => rfl, ?_, ?_⟩, ⟨?_, ?_, ?_⟩, ⟨?_, ?_, ?_, ?_⟩⟩
  · exact fun size cap r h => array.NewSize_mu maxLen size cap safe r h
  · exact ⟨_, array.Array_New_eq maxLen safe, rfl⟩
  · exact fun items r h => set.Set_NewFrom_mu items safe r h
  · intro items hitems
    obtain ⟨m', h₁, _⟩ := set.Add_range_some (Map.make : Map T) items hitems
    refine ⟨set.Set.mk (rwmutex.Create safe) (some m'), ?_, rfl⟩
    rw [set.NewFrom.eq_1, set.NewFrom_range_eq, h₁]
  · exact fun items σ' r h => set.Store_NewFrom_mu _ items safe σ' r h
  · intro items hitems
    exact ⟨_, _, set.Store_NewFrom_eq l items safe hitems, rfl⟩
  · refine ⟨stack.NewFrom [] safe, ?_, rfl⟩
    rw [stack.New.eq_1, array.Array_New_eq]
    rfl
  · exact fun i v r h => array.Array_Set_mu a i v r h
  · exact fun i v r h => array.Array_InsertBefore_mu a i v r h
  · exact fun i v r h => array.Array_InsertAfter_mu a i v r h
  · exact fun i r h => array.Array_Remove_mu a i r h
  · exact fun v r h => array.Array_RemoveValue_mu a v r h
  · exact fun r h => array.Array_PopLeft_mu a r h
  · exact fun r h => array.Array_PopRight_mu a r h
  · exact fun r h => array.Array_Clear_mu maxLen a r h
  · exact fun r h => array.Array_Unique_mu a r h
  · exact fun start num v r h => array.Array_Fill_mu maxLen a start num v r h
  · exact fun r h => array.Array_Reverse_mu a r h
  · exact fun items r h => set.Set_Add_mu s items r h
  · exact fun items r h => set.Set_Remove_mu s items r h
  · exact fun r h => stack.Stack_Pop_mu st r h
  · intro r h
    rw [stack.Stack_Peek_mu st r h]
  · exact ⟨_, array.Array_Clone_eq maxLen a ha, set.IsSafe_Create _, rfl⟩
  · refine ⟨stack.Stack.mk (array.NewFrom st.data.array [st.data.mu.IsSafe]), ?_,
      set.IsSafe_Create _, rfl⟩
    rw [stack.Stack.Clone.eq_1, array.Array_Clone_eq maxLen st.data hst]
  · obtain ⟨m', h₁, h₂⟩ := set.Set_Clone_eq (order 0) (horder 0) l p
    have hperm : (keysOf ((set.SetPtr.mk (rwmutex.Create [p.mu.IsSafe]) (some l.length)).load
        (set.Store.mk (l ++ [m']))).data).Perm (keysOf (p.load (set.Store.mk l)).data) := by
      rw [set.load_new]
      exact set.Clone_keys_perm (order 0) (horder 0) _ m' h₂
    refine ⟨_, _, h₁, set.IsSafe_Create _, hperm, set.Contains_eq_of_perm _ _ hperm, ?_⟩
    rw [set.Set.Size.eq_1, set.Set.Size.eq_1, lenMap_eq, lenMap_eq, hperm.length_eq]
  · obtain ⟨m', h₁, _⟩ := set.Union_eq order horder l p Bs hBs
    exact ⟨_, _, h₁, set.IsSafe_Create _⟩
  · obtain ⟨m', h₁, _⟩ := set.Diff_eq order horder l p Bs hBs
    exact ⟨_, _, h₁, set.IsSafe_Create _⟩
  · obtain ⟨ext, m', a', h₁, _⟩ := set.Intersect_eq order horder l p Bs hBs
    exact ⟨_, _, h₁, set.IsSafe_Create _⟩
  · have hv : set.validAll (set.Store.mk l) (Bs ++ [none]) = true := by
      unfold set.validAll at hBs ⊢
      rw [List.all_append, hBs]
      rfl
    obtain ⟨ext, m', a', h₁, h₂, _, _, h₄⟩ :=
      set.Intersect_eq order horder l p (Bs ++ [none]) hv
    refine ⟨_, _, h₁, set.IsSafe_Create _, ?_⟩
    have hempty : m'.keys = [] := by
      apply List.eq_nil_iff_forall_not_mem.mpr
      intro k hk
      exact ((h₄ k).mp hk).1 (by simp)
    rw [set.load_of_read _ _ a' m' h₂, set.Set.Size.eq_1, lenMap_eq]
    simp only [keysOf, hempty]
    rfl

/-- Witness for C26: a safe array `[1, 2]`, a safe set `{1}`, a safe stack
`[1, 2]` and the set `{1, 2}` of a store, with the operands `{2, 3}` and
nil. -/
theorem Mode_fixed_witness :
    (∃ c, (array.NewFrom [(1 : Int), 2] [true]).Clone 2 = .ok c ∧
      c.mu.IsSafe = (array.NewFrom [(1 : Int), 2] [true]).mu.IsSafe ∧
      c.array = (array.NewFrom [(1 : Int), 2] [true]).array) ∧
    ∃ σ' r, (set.SetPtr.mk (rwmutex.Create [true]) (some 0)).Intersect
        (fun _ => List.reverse)
        (set.Store.mk [((Map.make : Map Int).insert 1).insert 2,
          ((Map.make : Map Int).insert 2).insert 3])
        [some (set.SetPtr.mk (rwmutex.Create []) (some 1)), none] = .ok (σ', r) ∧
      r.mu.IsSafe = (set.SetPtr.mk (rwmutex.Create [true]) (some 0)).mu.IsSafe :=
  have h := Mode_fixed 2 [true] (array.NewFrom [(1 : Int), 2] [true])
    (set.Set.mk (rwmutex.Create [true]) (some ((Map.make : Map Int).insert 1)))
    (stack.NewFrom [(1 : Int), 2] [true])
    (set.Store.mk [((Map.make : Map Int).insert 1).insert 2,
      ((Map.make : Map Int).insert 2).insert 3])
    (set.SetPtr.mk (rwmutex.Create [true]) (some 0))
    [some (set.SetPtr.mk (rwmutex.Create []) (some 1)), none]
    (fun _ => List.reverse) (fun _ l => List.reverse_perm l)
    (by decide) (by decide) (by decide)
  ⟨h.2.2.2.2.2.1.1, h.2.2.2.2.2.2.2.2.1⟩

end gods
